import Mathlib

/-!
Forest index with cycle rejection (`system_tree.go`).

A shallow embedding of `system_tree.go`.

* A Go `map[uint32]V` is an association list `List (Nat × V)`.  The order of
  the list is the order in which `range` visits the map, so a statement proved
  for every list is proved for every iteration order.  A Go map has each key
  once; that is the predicate `GoMap.NodupKeys`, assumed where it matters.
* Identifiers are `uint32` in the source.  The code only compares them, so they
  are natural numbers here.
* `*System` values stored in the maps are never nil and never mutated by the
  code, so a pointer is modelled by the record it points to.
* `UsrData interface{}` is a parameter `D`.  The source compares payloads with
  `!=` on interface values, which Go evaluates at run time: the class
  `GoPayload` gives the outcome for each pair of payloads, a result or the
  run-time panic of comparing two values of one uncomparable dynamic type
  (maps and slices, as `json.Unmarshal` yields them).  No law is assumed of
  it: a NaN differs from itself.  `ComparablePayload` singles out the payload
  types on which `!=` is the negation of equality.
* `log.Fatalf` ends the process.  It is a result of its own (`fatal`, or `none`
  for the queries), never a normal return.
* Loops without a syntactic bound (the upward walks) run on fuel taken from
  the size of the flat map; `exhausted` is the result when the fuel runs out,
  and it is proved not to happen.
-/

namespace SystemTree

/-! ## Go maps -/

/-- Association list standing for a Go map with `uint32` keys. -/
abbrev GoMap (V : Type) := List (Nat × V)

namespace GoMap

variable {V : Type}

/-- Lookup `m[k]`; `none` is the nil result of a missing key. -/
def get : GoMap V → Nat → Option V
  | [], _ => none
  | (k', v) :: t, k => if k' = k then some v else get t k

/-- Assignment `m[k] = v`: overwrite the entry in place, or add a new one. -/
def set : GoMap V → Nat → V → GoMap V
  | [], k, v => [(k, v)]
  | (k', v') :: t, k, v => if k' = k then (k, v) :: t else (k', v') :: set t k v

/-- Removal `delete(m, k)`. -/
def del : GoMap V → Nat → GoMap V
  | [], _ => []
  | (k', v) :: t, k => if k' = k then del t k else (k', v) :: del t k

/-- Keys of the map in iteration order. -/
def keys (m : GoMap V) : List Nat := m.map Prod.fst

/-- Each key occurs once, as in every Go map. -/
def NodupKeys (m : GoMap V) : Prop := (keys m).Nodup

instance (m : GoMap V) : Decidable (NodupKeys m) := by
  unfold NodupKeys; infer_instance

end GoMap

/-! ## Nodes -/

/-- Source: `type System struct { SysID, ParentSysID uint32; UsrData interface{} }`. -/
structure System (D : Type) where
  SysID : Nat
  ParentSysID : Nat
  UsrData : D
  deriving DecidableEq, Repr

/-- Go's `a != b` on two payloads held in `interface{}` values.  `some r` is
the result `r`.  `none` is the run-time panic of the comparison, which Go
raises when both values have one dynamic type and that type is not comparable
(a map, a slice, a func, or a struct or array holding one).  Values of two
different dynamic types differ without a panic. -/
class GoPayload (D : Type) where
  ne : D → D → Option Bool

/-- Payload types all of whose values are comparable and on which `!=` is the
negation of equality, such as strings, integers and booleans. -/
class ComparablePayload (D : Type) [GoPayload D] : Prop where
  ne_self : ∀ a : D, GoPayload.ne a a = some false
  ne_of_ne : ∀ a b : D, a ≠ b → GoPayload.ne a b = some true

/-- Payloads of dynamic type `string`, as in the test. -/
instance : GoPayload String := ⟨fun a b => some (decide (a ≠ b))⟩

instance : ComparablePayload String :=
  ⟨fun a => by simp [GoPayload.ne], fun a b h => by simp [GoPayload.ne, h]⟩

/-- Sample of the dynamic values a payload decoded by `json.Unmarshal` into
`interface{}` can hold (nil, `bool`, `float64`, `string`, `[]interface{}`,
`map[string]interface{}`).  A `float64` is either a number, given by its
value when that is an integer, or a NaN. -/
inductive GoValue where
  | null
  | bool (b : Bool)
  | number (x : Int)
  | nan
  | str (s : String)
  | slice (items : List GoValue)
  | object (fields : List (String × GoValue))

/-- Go's `!=` on two decoded payloads: values of different dynamic types
differ, two slices or two maps panic whatever they hold, a NaN differs from
every `float64`, itself included. -/
def GoValue.ne : GoValue → GoValue → Option Bool
  | .null, .null => some false
  | .bool a, .bool b => some (decide (a ≠ b))
  | .number a, .number b => some (decide (a ≠ b))
  | .number _, .nan => some true
  | .nan, .number _ => some true
  | .nan, .nan => some true
  | .str a, .str b => some (decide (a ≠ b))
  | .slice _, .slice _ => none
  | .object _, .object _ => none
  | _, _ => some true

instance : GoPayload GoValue := ⟨GoValue.ne⟩

variable {D : Type} [GoPayload D]

/-- Source: `func (s *System) isValid() bool`. -/
def System.isValid (s : System D) : Bool :=
  if s.SysID = s.ParentSysID then false else true

/-- Source: `func (s *System) isEqualTo(other *System) bool`.  Go evaluates
`||` from left to right and stops at the first operand that is true, so the
payloads are compared only when both identifiers agree.  `none` is the panic
of that comparison. -/
def System.isEqualTo (s other : System D) : Option Bool :=
  if s.SysID ≠ other.SysID ∨ s.ParentSysID ≠ other.ParentSysID then some false
  else
    match GoPayload.ne s.UsrData other.UsrData with
    | none => none
    | some true => some false
    | some false => some true

/-! ## The forest index -/

/-- Source: `type SystemTree struct { Systems map[uint32]*System;
Tree map[uint32]map[uint32]*System }`.  A bucket of `Tree` may be present and
empty, which Go tells apart from a missing (nil) bucket. -/
structure Forest (D : Type) where
  Systems : GoMap (System D)
  Tree : GoMap (GoMap (System D))
  deriving DecidableEq

/-- Forest of the test set-up: both maps freshly made. -/
def Forest.empty : Forest D := ⟨[], []⟩

/-- Double lookup `Tree[p][c]`; a nil bucket yields nil. -/
def get2 (tree : GoMap (GoMap (System D))) (p c : Nat) : Option (System D) :=
  match tree.get p with
  | none => none
  | some b => b.get c

/-- Value of the Go `error` returned by `AddSystem`, with the three ways of
not returning: `fatal` for `log.Fatalf`, `panicked` for the run-time panic of
the payload comparison in `isEqualTo`, `exhausted` for the fuel of the
embedding. -/
inductive AddResult where
  | nil
  | cycleError
  | fatal
  | panicked
  | exhausted
  deriving DecidableEq, Repr

/-- Source: `func (st *SystemTree) DelSystem(sysID uint32) (*System, error)`.
The first component is the returned node, the second tells whether the
returned error is non-nil, the third is the forest after the call. -/
def DelSystem (st : Forest D) (sysID : Nat) : Option (System D) × Bool × Forest D :=
  match st.Systems.get sysID with
  | none => (none, true, st)
  | some s =>
    (some s, false,
      { Systems := st.Systems.del sysID
        Tree :=
          match st.Tree.get s.ParentSysID with
          | none => st.Tree
          | some b => st.Tree.set s.ParentSysID (b.del sysID) })

/-- Source: `func (st *SystemTree) GetSystem(sysID uint32) *System`. -/
def GetSystem (st : Forest D) (sysID : Nat) : Option (System D) :=
  st.Systems.get sysID

/-- Source: `func (st *SystemTree) getNodeNum() int`. -/
def getNodeNum (st : Forest D) : Int :=
  (st.Systems.length : Int)

/-- Outcome of an upward walk. -/
inductive WalkResult where
  | finished (history : List Nat)
  | cycle (pid : Nat)
  | exhausted
  deriving DecidableEq, Repr

/-- Loop of `AddSystem` (source lines 128-135): `parent` is the loop variable,
`history` the set of identifiers seen, `sid` the identifier of the incoming
node. -/
def addWalk (sys : GoMap (System D)) (sid : Nat) :
    Nat → List Nat → Option (System D) → WalkResult
  | _, history, none => .finished history
  | 0, _, some _ => .exhausted
  | fuel + 1, history, some parent =>
    let pid := parent.ParentSysID
    if pid = sid ∨ pid ∈ history then .cycle pid
    else addWalk sys sid fuel (pid :: history) (sys.get pid)

/-- Lines 123-142 of `AddSystem`: the cycle check and the commit. -/
def addCommit (st : Forest D) (s : System D) : AddResult × Forest D :=
  match addWalk st.Systems s.SysID (st.Systems.length + 1) [s.ParentSysID]
      (st.Systems.get s.ParentSysID) with
  | .cycle _ => (.cycleError, st)
  | .exhausted => (.exhausted, st)
  | .finished _ =>
    (.nil,
      { Systems := st.Systems.set s.SysID s
        Tree :=
          st.Tree.set s.ParentSysID
            (((st.Tree.get s.ParentSysID).getD []).set s.SysID s) })

/-- Source: `func (st *SystemTree) AddSystem(s *System) error`. -/
def AddSystem (st : Forest D) (s : System D) : AddResult × Forest D :=
  match st.Systems.get s.SysID with
  | some old =>
    match old.isEqualTo s with
    | none => (.panicked, st)
    | some true => (.fatal, st)
    | some false => addCommit (DelSystem st s.SysID).2.2 s
  | none => addCommit st s

/-- Inner loop of `checkCircle` (source lines 95-105). -/
def circleWalk (sys : GoMap (System D)) (done : List Nat) :
    Nat → List Nat → Option (System D) → WalkResult
  | _, history, none => .finished history
  | 0, _, some _ => .exhausted
  | fuel + 1, history, some parent =>
    let pid := parent.ParentSysID
    if pid ∈ done then .finished history
    else if pid ∈ history then .cycle pid
    else circleWalk sys done fuel (pid :: history) (sys.get pid)

/-- Outer loop of `checkCircle` over the entries still to visit. -/
def circleLoop (sys : GoMap (System D)) : List (Nat × System D) → List Nat → AddResult
  | [], _ => .nil
  | (id, s) :: rest, done =>
    if id ∈ done then circleLoop sys rest done
    else if !s.isValid then .cycleError
    else
      let pid := s.ParentSysID
      if pid ∈ done then circleLoop sys rest (id :: done)
      else
        match circleWalk sys done (sys.length + 1) [pid, id] (sys.get pid) with
        | .cycle _ => .cycleError
        | .exhausted => .exhausted
        | .finished history => circleLoop sys rest (history ++ done)

/-- Body of `checkCircle` with the order in which `range` visits the flat
map made explicit. -/
def checkCircleIn (st : Forest D) (order : List (Nat × System D)) : AddResult :=
  circleLoop st.Systems order []

/-- Source: `func (st *SystemTree) checkCircle() error`. -/
def checkCircle (st : Forest D) : AddResult :=
  checkCircleIn st st.Systems

/-- Innermost loop of `getChilds` (source lines 173-180) over one bucket;
`none` is the `log.Fatalf` branch. -/
def scanBucket (sysID : Nat) :
    List (Nat × System D) → List Nat → GoMap (System D) →
      Option (List Nat × GoMap (System D))
  | [], queue, history => some (queue, history)
  | (cid, child) :: rest, queue, history =>
    if cid = sysID ∨ (history.get cid).isSome then none
    else scanBucket sysID rest (queue ++ [cid]) (history.set cid child)

/-- Bucket `Tree[p]` as `range` sees it: a nil bucket has no entry. -/
def bucketOf (tree : GoMap (GoMap (System D))) (p : Nat) : GoMap (System D) :=
  (tree.get p).getD []

/-- Loop `for head < tail` of `getChilds` (source lines 171-182): `level` is
`queue[head:tail]`, `queue` collects what is appended behind `tail`. -/
def scanLevel (tree : GoMap (GoMap (System D))) (sysID : Nat) :
    List Nat → List Nat → GoMap (System D) → Option (List Nat × GoMap (System D))
  | [], queue, history => some (queue, history)
  | parentID :: level, queue, history =>
    match scanBucket sysID (bucketOf tree parentID) queue history with
    | none => none
    | some (queue', history') => scanLevel tree sysID level queue' history'

/-- Loop `for curFloor < maxFloor` of `getChilds` (source lines 170-189);
the first argument is `maxFloor - curFloor`. -/
def floorLoop (tree : GoMap (GoMap (System D))) (sysID : Nat) :
    Nat → List Nat → GoMap (System D) → Int → Option (GoMap (System D) × Int)
  | 0, _, history, curFloor => some (history, curFloor)
  | left + 1, level, history, curFloor =>
    match scanLevel tree sysID level [] history with
    | none => none
    | some (next, history') =>
      if next ≠ [] then floorLoop tree sysID left next history' (curFloor + 1)
      else some (history', curFloor)

/-- Source: `func (st *SystemTree) getChilds(sysID uint32, maxFloor int)
(map[uint32]*System, int)`; `none` is the `log.Fatalf` branch. -/
def getChilds (st : Forest D) (sysID : Nat) (maxFloor : Int) :
    Option (GoMap (System D) × Int) :=
  let maxFloor := if maxFloor ≤ 0 then 2147483647 else maxFloor
  floorLoop st.Tree sysID maxFloor.toNat [sysID] [] 0

/-- Source: `func (st *SystemTree) GetChildSystems(sysID uint32) map[uint32]*System`. -/
def GetChildSystems (st : Forest D) (sysID : Nat) : Option (GoMap (System D)) :=
  match getChilds st sysID 1 with
  | none => none
  | some (childs, _) => some childs

/-! ## Vocabulary of the specification -/

/-- Identifier reached from `x` after `k` parent links of the flat map, if
all `k` links exist. -/
def chainAt (m : GoMap (System D)) (x : Nat) : Nat → Option Nat
  | 0 => some x
  | k + 1 =>
    match chainAt m x k with
    | none => none
    | some y =>
      match m.get y with
      | none => none
      | some n => some n.ParentSysID

/-- Identifier `y` is met when following parent links upward from `x`. -/
def Reach (m : GoMap (System D)) (x y : Nat) : Prop :=
  ∃ k, chainAt m x k = some y

/-- Walk upward from `x` meets some identifier twice. -/
def Revisits (m : GoMap (System D)) (x : Nat) : Prop :=
  ∃ i j a, i < j ∧ chainAt m x i = some a ∧ chainAt m x j = some a

/-- Acyclicity of the flat map: from no stored node does the upward walk
meet an identifier twice. -/
def Acyclic (m : GoMap (System D)) : Prop :=
  ∀ x n, m.get x = some n → ¬ Revisits m x

/-- Flat map is keyed by the identifier of the node it stores
(`Systems map[uint32]*System // {SysID: *System}`). -/
def KeyedByID (m : GoMap (System D)) : Prop :=
  ∀ e ∈ m, e.2.SysID = e.1

/-- Index consistency: `Tree[p][c] = n` exactly when `Systems[c] = n` and
`n.ParentSysID = p`. -/
def Consistent (st : Forest D) : Prop :=
  ∀ p c n, get2 st.Tree p c = some n ↔ (st.Systems.get c = some n ∧ n.ParentSysID = p)

/-- Representation invariant of the Go maps: every map has each key once. -/
def WF (st : Forest D) : Prop :=
  st.Systems.NodupKeys ∧ st.Tree.NodupKeys ∧ ∀ e ∈ st.Tree, e.2.NodupKeys

/-- Run a list of `AddSystem` calls, as the loop of the test does. -/
def addAll (st : Forest D) : List (System D) → Forest D
  | [] => st
  | s :: rest => addAll (AddSystem st s).2 rest

/-- Forest of the test after its seven inserts. -/
def testForest : Forest String :=
  addAll Forest.empty
    [⟨22, 11, "aaa"⟩, ⟨55, 11, "cccc"⟩, ⟨33, 22, "bbb"⟩, ⟨222, 111, "xxxx"⟩,
      ⟨333, 222, "yyyy"⟩, ⟨44, 22, "dddd"⟩, ⟨11, 0, "ffff"⟩]

/-- Some node met on the upward walk from `p` has `ParentSysID = sid`. -/
def WalkMeets (m : GoMap (System D)) (sid p : Nat) : Prop :=
  ∃ y n, Reach m p y ∧ m.get y = some n ∧ n.ParentSysID = sid

/-- Upward walk from `p` ends at an identifier that has no node. -/
def WalkEnds (m : GoMap (System D)) (p : Nat) : Prop :=
  ∃ z, Reach m p z ∧ m.get z = none

/-- Rank certifying that the flat map of `testForest` is acyclic. -/
def testRank (x : Nat) : Nat :=
  if x = 11 then 1 else if x = 22 then 2 else if x = 33 ∨ x = 44 ∨ x = 55 then 3
  else if x = 222 then 1 else if x = 333 then 2 else 0

/-- Forest `1 <- 0, 2 <- 1` built through `AddSystem`. -/
def chainForest : Forest String :=
  addAll Forest.empty [⟨1, 0, "a"⟩, ⟨2, 1, "b"⟩]

instance (m : GoMap (System D)) : Decidable (KeyedByID m) := by
  unfold KeyedByID; infer_instance

instance (st : Forest D) : Decidable (WF st) := by
  unfold WF; infer_instance

/-- Forest holding the single node `1 <- 0`, built through `AddSystem`. -/
def soloForest : Forest String :=
  addAll Forest.empty [⟨1, 0, "a"⟩]

/-- Flat map of the second part of the test, filled without `AddSystem`:
`11 <- 33`, `33 <- 22`, `22 <- 11` is a cycle. -/
def bulkForest : Forest String :=
  ⟨[(22, ⟨22, 11, "aaa"⟩), (55, ⟨55, 11, "cccc"⟩), (33, ⟨33, 22, "bbb"⟩),
      (222, ⟨222, 111, "xxxx"⟩), (333, ⟨333, 222, "yyyy"⟩), (44, ⟨44, 22, "dddd"⟩),
      (11, ⟨11, 33, "dddd"⟩)], []⟩

/-- Entries of the buckets of the identifiers of one level, in the order in
which `getChilds` ranges over them. -/
def levelEntries (tree : GoMap (GoMap (System D))) : List Nat → GoMap (System D)
  | [] => []
  | p :: level => bucketOf tree p ++ levelEntries tree level

/-- Invariant of the breadth-first loop of `getChilds` started at `id`, at
the head of the iteration with `curFloor = k`: the level holds, once each,
identifiers `k` parent links below `id`, and the history holds, once each,
identifiers between 1 and `k` links below `id`. -/
def LevelInv (st : Forest D) (id k : Nat) (level : List Nat) (history : GoMap (System D)) :
    Prop :=
  level.Nodup ∧ (∀ x ∈ level, chainAt st.Systems x k = some id) ∧ history.NodupKeys ∧
    ∀ c ∈ history.keys, ∃ j, 1 ≤ j ∧ j ≤ k ∧ chainAt st.Systems c j = some id

/-- Forest of the test after node 55 is added again under 22. -/
def testForest2 : Forest String :=
  (AddSystem testForest ⟨55, 22, "rpc"⟩).2

/-! ## Bulk load and the depth and height queries -/

/-- Loop of `buildTree` (source lines 66-71) over the entries of the flat map
in the order of `range`. -/
def buildLoop : GoMap (GoMap (System D)) → List (Nat × System D) → GoMap (GoMap (System D))
  | tree, [] => tree
  | tree, (id, s) :: rest =>
    buildLoop (tree.set s.ParentSysID ((bucketOf tree s.ParentSysID).set id s)) rest

/-- Body of `buildTree` with the two orders of iteration made explicit: the
one of its own loop and the one of the loop of `checkCircle`. -/
def buildTreeIn (st : Forest D) (order₁ order₂ : List (Nat × System D)) :
    AddResult × Forest D :=
  (checkCircleIn ⟨st.Systems, buildLoop st.Tree order₁⟩ order₂,
    ⟨st.Systems, buildLoop st.Tree order₁⟩)

/-- Source: `func (st *SystemTree) buildTree() error`. -/
def buildTree (st : Forest D) : AddResult × Forest D :=
  buildTreeIn st st.Systems st.Systems

/-- Result of `getNodeDeep`: the returned depth, the `log.Fatalf` branch, or
the fuel of the embedding used up. -/
inductive DeepResult where
  | value (deep : Int)
  | fatal
  | exhausted
  deriving DecidableEq, Repr

/-- Loop of `getNodeDeep` (source lines 215-223). -/
def deepWalk (sys : GoMap (System D)) :
    Nat → List Nat → Int → Option (System D) → DeepResult
  | _, _, deep, none => .value deep
  | 0, _, _, some _ => .exhausted
  | fuel + 1, history, deep, some parent =>
    if parent.SysID ∈ history then .fatal
    else deepWalk sys fuel (parent.SysID :: history) (deep + 1) (sys.get parent.ParentSysID)

/-- Source: `func (st *SystemTree) getNodeDeep(sysID uint32) int`.  The
counter `deep` is incremented before the test of the history; on the branch
that goes on this is the `deep + 1` passed to the next round, and on the
fatal branch the value is not returned. -/
def getNodeDeep (st : Forest D) (sysID : Nat) : DeepResult :=
  match st.Systems.get sysID with
  | none => if (st.Tree.get sysID).isSome then .value 0 else .value (-1)
  | some s =>
    deepWalk st.Systems (st.Systems.length + 1) [s.SysID] 1 (st.Systems.get s.ParentSysID)

/-- Source: `func (st *SystemTree) getNodeHeight(sysID uint32) int`; `none`
is the `log.Fatalf` branch of `getChilds`. -/
def getNodeHeight (st : Forest D) (sysID : Nat) : Option Int :=
  if (st.Systems.get sysID).isNone ∧ (st.Tree.get sysID).isNone then some (-1)
  else
    match getChilds st sysID 0 with
    | none => none
    | some (_, height) => some height

/-- Identifier `c` is `j` child links of the adjacency map below `id`. -/
def ChildPath (tree : GoMap (GoMap (System D))) (id : Nat) : Nat → Nat → Prop
  | 0, c => c = id
  | j + 1, c => ∃ p, ChildPath tree id j p ∧ (get2 tree p c).isSome = true

/-- Number `h` is the largest distance at which `id` has a descendant: the
length of the longest downward path from `id` (0 when it has no child). -/
def IsHeight (tree : GoMap (GoMap (System D))) (id h : Nat) : Prop :=
  (∃ c, ChildPath tree id h c) ∧ ∀ j c, ChildPath tree id j c → j ≤ h

/-- Bound on the floors that `getChilds` puts in place of `maxFloor <= 0`:
`math.MaxInt32`. -/
def maxInt32 : Nat := 2147483647

/-- Number of floors `getChilds` may traverse for the argument `maxFloor`. -/
def floorBound (maxFloor : Int) : Nat :=
  if maxFloor ≤ 0 then maxInt32 else maxFloor.toNat

/-- Invariant of the breadth-first loop that also says the level and the
history are complete: every identifier `k` links below `id` is in the level,
and the history maps `c` to `n` exactly when `n` is stored at `c` and `c` is
between 1 and `k` links below `id`. -/
def ExactInv (st : Forest D) (id k : Nat) (level : List Nat) (history : GoMap (System D)) :
    Prop :=
  LevelInv st id k level history ∧
  (∀ x, chainAt st.Systems x k = some id → x ∈ level) ∧
  ∀ c n, history.get c = some n ↔
    (st.Systems.get c = some n ∧ ∃ j, 1 ≤ j ∧ j ≤ k ∧ chainAt st.Systems c j = some id)

/-- Two forests hold the same maps: all lookups agree, bucket by bucket. -/
def SameForest (st st' : Forest D) : Prop :=
  (∀ k, st'.Systems.get k = st.Systems.get k) ∧
  (∀ p, (st'.Tree.get p).isSome = (st.Tree.get p).isSome) ∧
  ∀ p c, get2 st'.Tree p c = get2 st.Tree p c

/-- Chain of the spec's example, built through `AddSystem`: anchor 0, then
`A = 1`, `B = 2`, `C = 3`. -/
def abcForest : Forest String :=
  addAll Forest.empty [⟨1, 0, "A"⟩, ⟨2, 1, "B"⟩, ⟨3, 2, "C"⟩]

/-- Flat map of a chain of `n` nodes: node `i + 1` has parent `i`. -/
def chainSystems (n : Nat) : GoMap (System Unit) :=
  (List.range n).map (fun i => (i + 1, ⟨i + 1, i, ()⟩))

/-- Adjacency map of the chain of `n` nodes. -/
def chainTree (n : Nat) : GoMap (GoMap (System Unit)) :=
  (List.range n).map (fun i => (i, [(i + 1, ⟨i + 1, i, ()⟩)]))

/-- Forest that is one chain of `n` nodes below the anchor 0. -/
def chainOf (n : Nat) : Forest Unit :=
  ⟨chainSystems n, chainTree n⟩

/-- Child identifiers listed anywhere in the adjacency map, bucket after
bucket; its length is the number of entries of the adjacency map. -/
def allChildKeys : GoMap (GoMap (System D)) → List Nat
  | [] => []
  | (_, b) :: t => b.keys ++ allChildKeys t

/-- Forest of the second part of the test after `buildTree`: its flat map
holds the cycle `11 <- 33`, `33 <- 22`, `22 <- 11`. -/
def cyclicForest : Forest String :=
  (buildTree bulkForest).2

/-- Chain of `math.MaxInt32 + 1 = 2147483648` nodes below the anchor 0; its
identifiers fit `uint32`. -/
def bigChain : Forest Unit :=
  chainOf (maxInt32 + 1)

/-- Forest with an empty flat map and a stale entry in the adjacency map. -/
def staleForest : Forest String :=
  ⟨[], [(5, [(1, ⟨1, 5, "x"⟩)])]⟩

/-- Node whose payload is a decoded JSON object with the one field `k`, as
`NewSystemFromString` yields it: the dynamic type of the payload is
`map[string]interface{}`. -/
def objNode : System GoValue := ⟨1, 0, .object [("k", .str "v")]⟩

/-- Forest holding that node alone, built through `AddSystem`. -/
def objForest : Forest GoValue := addAll Forest.empty [objNode]

/-! ## Lemmas on Go maps -/

namespace GoMap

variable {V : Type}

theorem get_set (m : GoMap V) (k : Nat) (v : V) (k' : Nat) :
    (m.set k v).get k' = if k' = k then some v else m.get k' := by
  induction m with
  | nil =>
    by_cases h : k' = k
    · simp [set, get, h]
    · have h' : ¬ k = k' := fun e => h e.symm
      simp [set, get, h, h']
  | cons e t ih =>
    obtain ⟨a, b⟩ := e
    by_cases hak : a = k
    · subst hak
      by_cases h : k' = a
      · subst h; simp [set, get]
      · have h' : ¬ a = k' := fun e => h e.symm
        simp [set, get, h, h']
    · by_cases h : k' = k
      · subst h
        simp [set, get, hak, ih]
      · by_cases hak' : a = k'
        · subst hak'
          simp [set, get, hak]
        · simp [set, get, hak, hak', ih, h]

theorem get_set_self (m : GoMap V) (k : Nat) (v : V) : (m.set k v).get k = some v := by
  simp [get_set]

theorem get_set_ne (m : GoMap V) (k : Nat) (v : V) {k' : Nat} (h : k' ≠ k) :
    (m.set k v).get k' = m.get k' := by
  simp [get_set, h]

theorem get_del (m : GoMap V) (k k' : Nat) :
    (m.del k).get k' = if k' = k then none else m.get k' := by
  induction m with
  | nil => simp [del, get]
  | cons e t ih =>
    obtain ⟨a, b⟩ := e
    by_cases hak : a = k
    · subst hak
      by_cases h : k' = a
      · subst h; simpa [del, get] using ih
      · have h' : ¬ a = k' := fun e => h e.symm
        simpa [del, get, h, h'] using ih
    · by_cases hak' : a = k'
      · subst hak'
        simp [del, get, hak]
      · simp [del, get, hak, hak', ih]

theorem get_del_self (m : GoMap V) (k : Nat) : (m.del k).get k = none := by
  simp [get_del]

theorem get_del_ne (m : GoMap V) (k : Nat) {k' : Nat} (h : k' ≠ k) :
    (m.del k).get k' = m.get k' := by
  simp [get_del, h]

theorem mem_of_get {m : GoMap V} {k : Nat} {v : V} (h : m.get k = some v) : (k, v) ∈ m := by
  induction m with
  | nil => simp [get] at h
  | cons e t ih =>
    obtain ⟨a, b⟩ := e
    by_cases hak : a = k
    · subst hak
      simp [get] at h
      subst h
      exact List.mem_cons_self _ _
    · simp [get, hak] at h
      exact List.mem_cons_of_mem _ (ih h)

theorem mem_keys_of_get {m : GoMap V} {k : Nat} {v : V} (h : m.get k = some v) :
    k ∈ m.keys :=
  List.mem_map.mpr ⟨(k, v), mem_of_get h, rfl⟩

theorem get_eq_none_of_not_mem_keys {m : GoMap V} {k : Nat} (h : k ∉ m.keys) :
    m.get k = none := by
  cases hg : m.get k with
  | none => rfl
  | some v => exact absurd (mem_keys_of_get hg) h

theorem get_isSome_of_mem_keys {m : GoMap V} {k : Nat} (h : k ∈ m.keys) :
    (m.get k).isSome = true := by
  induction m with
  | nil => simp [keys] at h
  | cons e t ih =>
    obtain ⟨a, b⟩ := e
    by_cases hak : a = k
    · simp [get, hak]
    · have : k ∈ keys t := by
        simp only [keys, List.map_cons, List.mem_cons] at h
        rcases h with h | h
        · exact absurd h.symm hak
        · exact h
      simpa [get, hak] using ih this

theorem nodupKeys_cons {a : Nat} {b : V} {t : GoMap V} :
    NodupKeys ((a, b) :: t) ↔ a ∉ keys t ∧ NodupKeys t := by
  simp [NodupKeys, keys]

theorem get_of_mem {m : GoMap V} (hn : m.NodupKeys) {k : Nat} {v : V} (h : (k, v) ∈ m) :
    m.get k = some v := by
  induction m with
  | nil => simp at h
  | cons e t ih =>
    obtain ⟨a, b⟩ := e
    have hn' := nodupKeys_cons.mp hn
    rcases List.mem_cons.mp h with h | h
    · simp only [Prod.mk.injEq] at h
      obtain ⟨rfl, rfl⟩ := h
      simp [get]
    · have hk : k ∈ keys t := List.mem_map.mpr ⟨(k, v), h, rfl⟩
      have hak : a ≠ k := fun e => hn'.1 (e ▸ hk)
      simpa [get, hak] using ih hn'.2 h

theorem del_eq_self {m : GoMap V} {k : Nat} (h : m.get k = none) : m.del k = m := by
  induction m with
  | nil => rfl
  | cons e t ih =>
    obtain ⟨a, b⟩ := e
    by_cases hak : a = k
    · simp [get, hak] at h
    · simp only [get, hak, if_false] at h
      simp [del, hak, ih h]

theorem keys_del_sublist (m : GoMap V) (k : Nat) : List.Sublist (m.del k).keys m.keys := by
  induction m with
  | nil => exact List.Sublist.refl _
  | cons e t ih =>
    obtain ⟨a, b⟩ := e
    by_cases hak : a = k
    · simp only [del, hak, if_true, keys, List.map_cons]
      exact List.Sublist.cons _ ih
    · simp only [del, hak, if_false, keys, List.map_cons]
      exact List.Sublist.cons₂ _ ih

theorem nodupKeys_del {m : GoMap V} (hn : m.NodupKeys) (k : Nat) : (m.del k).NodupKeys :=
  List.Nodup.sublist (keys_del_sublist m k) hn

theorem mem_keys_set (m : GoMap V) (k : Nat) (v : V) (a : Nat) :
    a ∈ (m.set k v).keys ↔ a = k ∨ a ∈ m.keys := by
  induction m with
  | nil => simp [set, keys]
  | cons e t ih =>
    obtain ⟨x, y⟩ := e
    by_cases hx : x = k
    · subst hx
      simp [set, keys]
    · simp only [set, hx, if_false]
      simp only [keys, List.map_cons, List.mem_cons] at ih ⊢
      rw [ih]
      tauto

theorem nodupKeys_set {m : GoMap V} (hn : m.NodupKeys) (k : Nat) (v : V) :
    (m.set k v).NodupKeys := by
  induction m with
  | nil => simp [set, NodupKeys, keys]
  | cons e t ih =>
    obtain ⟨x, y⟩ := e
    have hn' := nodupKeys_cons.mp hn
    by_cases hx : x = k
    · subst hx
      simp only [set, if_true]
      exact nodupKeys_cons.mpr hn'
    · simp only [set, hx, if_false]
      refine nodupKeys_cons.mpr ⟨?_, ih hn'.2⟩
      rw [mem_keys_set]
      rintro (h | h)
      · exact hx h
      · exact hn'.1 h

theorem length_set_of_get_none {m : GoMap V} {k : Nat} (v : V) (h : m.get k = none) :
    (m.set k v).length = m.length + 1 := by
  induction m with
  | nil => rfl
  | cons e t ih =>
    obtain ⟨x, y⟩ := e
    by_cases hx : x = k
    · simp [get, hx] at h
    · simp only [get, hx, if_false] at h
      simp [set, hx, ih h]

theorem length_del_of_get {m : GoMap V} (hn : m.NodupKeys) {k : Nat} {v : V}
    (h : m.get k = some v) : (m.del k).length + 1 = m.length := by
  induction m with
  | nil => simp [get] at h
  | cons e t ih =>
    obtain ⟨x, y⟩ := e
    have hn' := nodupKeys_cons.mp hn
    by_cases hx : x = k
    · subst hx
      have hnone : get t x = none := get_eq_none_of_not_mem_keys hn'.1
      simp [del, del_eq_self hnone]
    · simp only [get, hx, if_false] at h
      have := ih hn'.2 h
      simp [del, hx, this]

theorem mem_set {m : GoMap V} {k : Nat} {v : V} {e : Nat × V} (h : e ∈ m.set k v) :
    e = (k, v) ∨ e ∈ m := by
  induction m with
  | nil =>
    left
    simpa [set] using h
  | cons x t ih =>
    obtain ⟨a, b⟩ := x
    by_cases hak : a = k
    · simp only [set, hak, if_true, List.mem_cons] at h
      rcases h with h | h
      · exact Or.inl h
      · exact Or.inr (List.mem_cons_of_mem _ h)
    · simp only [set, hak, if_false, List.mem_cons] at h
      rcases h with h | h
      · exact Or.inr (h ▸ List.mem_cons_self _ _)
      · rcases ih h with h | h
        · exact Or.inl h
        · exact Or.inr (List.mem_cons_of_mem _ h)

theorem mem_of_mem_del {m : GoMap V} {k : Nat} {e : Nat × V} (h : e ∈ m.del k) : e ∈ m := by
  induction m with
  | nil => simp [del] at h
  | cons x t ih =>
    obtain ⟨a, b⟩ := x
    by_cases hak : a = k
    · simp only [del, hak, if_true] at h
      exact List.mem_cons_of_mem _ (ih h)
    · simp only [del, hak, if_false, List.mem_cons] at h
      rcases h with h | h
      · exact h ▸ List.mem_cons_self _ _
      · exact List.mem_cons_of_mem _ (ih h)

theorem set_of_get_none {m : GoMap V} {k : Nat} (v : V) (h : m.get k = none) :
    m.set k v = m ++ [(k, v)] := by
  induction m with
  | nil => rfl
  | cons x t ih =>
    obtain ⟨a, b⟩ := x
    by_cases hak : a = k
    · simp [get, hak] at h
    · simp only [get, hak, if_false] at h
      simp [set, hak, ih h]

theorem keys_append (m₁ m₂ : GoMap V) : keys (m₁ ++ m₂) = keys m₁ ++ keys m₂ := by
  simp [keys]

theorem get_append (m₁ m₂ : GoMap V) (k : Nat) :
    get (m₁ ++ m₂) k = match get m₁ k with
      | some v => some v
      | none => get m₂ k := by
  induction m₁ with
  | nil => rfl
  | cons x t ih =>
    obtain ⟨a, b⟩ := x
    by_cases hak : a = k
    · simp [get, hak]
    · simp only [List.cons_append, get, hak, if_false]
      exact ih

theorem eq_nil_of_get_none {m : GoMap V} (h : ∀ k, m.get k = none) : m = [] := by
  cases m with
  | nil => rfl
  | cons x t =>
    obtain ⟨a, b⟩ := x
    have := h a
    simp [get] at this

/-- Pigeonhole: a duplicate-free list of stored keys is no longer than the map. -/
theorem length_le_of_nodup_stored {m : GoMap V} {l : List Nat} (hl : l.Nodup)
    (h : ∀ a ∈ l, (m.get a).isSome = true) : l.length ≤ m.length := by
  have hsub : l ⊆ m.keys := by
    intro a ha
    have := h a ha
    cases hg : m.get a with
    | none => simp [hg] at this
    | some v => exact mem_keys_of_get hg
  have := (List.Nodup.subperm hl hsub).length_le
  simpa [keys] using this

end GoMap

/-! ## Upward chains -/

section Chains

variable {D : Type}

theorem chainAt_head (m : GoMap (System D)) (x k : Nat) :
    chainAt m x (k + 1) =
      match m.get x with
      | none => none
      | some n => chainAt m n.ParentSysID k := by
  induction k with
  | zero =>
    cases h : m.get x <;> simp [chainAt, h]
  | succ k ih =>
    have hdef : chainAt m x (k + 1 + 1) =
        (match chainAt m x (k + 1) with
          | none => none
          | some y =>
            match m.get y with
            | none => none
            | some n => some n.ParentSysID) := rfl
    rw [hdef, ih]
    cases h : m.get x with
    | none => rfl
    | some n => rfl

theorem chainAt_of_get {m : GoMap (System D)} {x : Nat} {n : System D}
    (h : m.get x = some n) (k : Nat) :
    chainAt m x (k + 1) = chainAt m n.ParentSysID k := by
  rw [chainAt_head, h]

theorem chainAt_of_get_none {m : GoMap (System D)} {x : Nat}
    (h : m.get x = none) (k : Nat) : chainAt m x (k + 1) = none := by
  rw [chainAt_head, h]

theorem chainAt_add (m : GoMap (System D)) (x : Nat) (i j : Nat) {y : Nat}
    (h : chainAt m x i = some y) : chainAt m x (i + j) = chainAt m y j := by
  induction i generalizing x with
  | zero =>
    simp only [chainAt, Option.some.injEq] at h
    subst h
    simp
  | succ i ih =>
    have e : i + 1 + j = (i + j) + 1 := by omega
    rw [e]
    cases hg : m.get x with
    | none => rw [chainAt_of_get_none hg] at h; cases h
    | some n =>
      rw [chainAt_of_get hg] at h ⊢
      exact ih _ h

theorem Reach.refl (m : GoMap (System D)) (x : Nat) : Reach m x x := ⟨0, rfl⟩

theorem Reach.trans {m : GoMap (System D)} {x y z : Nat}
    (h1 : Reach m x y) (h2 : Reach m y z) : Reach m x z := by
  obtain ⟨i, hi⟩ := h1
  obtain ⟨j, hj⟩ := h2
  exact ⟨i + j, by rw [chainAt_add m x i j hi, hj]⟩

theorem Reach.step {m : GoMap (System D)} {x : Nat} {n : System D}
    (h : m.get x = some n) : Reach m x n.ParentSysID :=
  ⟨1, by rw [chainAt_of_get h]; rfl⟩

theorem Reach.eq_of_get_none {m : GoMap (System D)} {x y : Nat}
    (h : m.get x = none) (hr : Reach m x y) : y = x := by
  obtain ⟨k, hk⟩ := hr
  cases k with
  | zero => simpa [chainAt] using hk.symm
  | succ k => rw [chainAt_of_get_none h] at hk; cases hk

theorem Reach.cases_head {m : GoMap (System D)} {x y : Nat} (hr : Reach m x y) :
    y = x ∨ ∃ n, m.get x = some n ∧ Reach m n.ParentSysID y := by
  obtain ⟨k, hk⟩ := hr
  cases k with
  | zero => left; simpa [chainAt] using hk.symm
  | succ k =>
    cases hg : m.get x with
    | none => rw [chainAt_of_get_none hg] at hk; cases hk
    | some n =>
      rw [chainAt_of_get hg] at hk
      exact Or.inr ⟨n, rfl, k, hk⟩

theorem not_revisits_of_get_none {m : GoMap (System D)} {x : Nat}
    (h : m.get x = none) : ¬ Revisits m x := by
  rintro ⟨i, j, a, hij, _, hj⟩
  obtain ⟨j', rfl⟩ : ∃ j', j = j' + 1 := ⟨j - 1, by omega⟩
  rw [chainAt_of_get_none h] at hj
  cases hj

theorem revisits_of_loop {m : GoMap (System D)} {x : Nat} {t : Nat}
    (h : chainAt m x (t + 1) = some x) : Revisits m x :=
  ⟨0, t + 1, x, by omega, rfl, h⟩

theorem revisits_step {m : GoMap (System D)} {x : Nat} {n : System D}
    (h : m.get x = some n) : Revisits m x ↔ Revisits m n.ParentSysID := by
  constructor
  · rintro ⟨i, j, a, hij, hi, hj⟩
    obtain ⟨j', rfl⟩ : ∃ j', j = j' + 1 := ⟨j - 1, by omega⟩
    rw [chainAt_of_get h] at hj
    cases i with
    | zero =>
      simp only [chainAt, Option.some.injEq] at hi
      subst hi
      refine revisits_of_loop (t := j') ?_
      have := chainAt_add m n.ParentSysID j' 1 hj
      rw [this, chainAt_of_get h]
      rfl
    | succ i =>
      rw [chainAt_of_get h] at hi
      exact ⟨i, j', a, by omega, hi, hj⟩
  · rintro ⟨i, j, a, hij, hi, hj⟩
    exact ⟨i + 1, j + 1, a, by omega, by rw [chainAt_of_get h]; exact hi,
      by rw [chainAt_of_get h]; exact hj⟩

theorem revisits_of_reach {m : GoMap (System D)} {x y : Nat} (hr : Reach m x y) :
    Revisits m x ↔ Revisits m y := by
  obtain ⟨k, hk⟩ := hr
  induction k generalizing x with
  | zero =>
    simp only [chainAt, Option.some.injEq] at hk
    subst hk
    exact Iff.rfl
  | succ k ih =>
    cases hg : m.get x with
    | none => rw [chainAt_of_get_none hg] at hk; cases hk
    | some n =>
      rw [chainAt_of_get hg] at hk
      exact (revisits_step hg).trans (ih hk)

/-- Link from `x` to `p` closing a path from `p` back to `x` makes the walk
from `p` meet `p` twice. -/
theorem revisits_of_back_edge {m : GoMap (System D)} {x p : Nat} {n : System D}
    (h : m.get x = some n) (hp : n.ParentSysID = p) (hr : Reach m p x) : Revisits m p := by
  obtain ⟨k, hk⟩ := hr
  refine revisits_of_loop (t := k) ?_
  have := chainAt_add m p k 1 hk
  rw [this, chainAt_of_get h, ← hp]
  rfl

theorem acyclic_all {m : GoMap (System D)} (h : Acyclic m) (x : Nat) : ¬ Revisits m x := by
  cases hg : m.get x with
  | none => exact not_revisits_of_get_none hg
  | some n => exact h x n hg

/-- Chain of the map with one key removed is a chain of the map. -/
theorem chainAt_del {m : GoMap (System D)} {k x y : Nat} (i : Nat)
    (h : chainAt (m.del k) x i = some y) : chainAt m x i = some y := by
  induction i generalizing x with
  | zero => exact h
  | succ i ih =>
    cases hg : (m.del k).get x with
    | none => rw [chainAt_of_get_none hg] at h; cases h
    | some n =>
      rw [chainAt_of_get hg] at h
      have hx : x ≠ k := by
        intro e
        rw [e, GoMap.get_del_self] at hg
        cases hg
      rw [GoMap.get_del_ne m k hx] at hg
      rw [chainAt_of_get hg]
      exact ih h

theorem acyclic_del {m : GoMap (System D)} (h : Acyclic m) (k : Nat) : Acyclic (m.del k) := by
  intro x n _ hrev
  obtain ⟨i, j, a, hij, hi, hj⟩ := hrev
  exact acyclic_all h x ⟨i, j, a, hij, chainAt_del i hi, chainAt_del j hj⟩

/-- Certificate of acyclicity: a rank that drops along every parent link. -/
theorem acyclic_of_rank {m : GoMap (System D)} (r : Nat → Nat)
    (h : ∀ e ∈ m, r e.2.ParentSysID < r e.1) : Acyclic m := by
  have key : ∀ k x y, chainAt m x k = some y → r y + k ≤ r x := by
    intro k
    induction k with
    | zero =>
      intro x y hxy
      simp only [chainAt, Option.some.injEq] at hxy
      subst hxy
      omega
    | succ k ih =>
      intro x y hxy
      cases hg : m.get x with
      | none => rw [chainAt_of_get_none hg] at hxy; cases hxy
      | some n =>
        rw [chainAt_of_get hg] at hxy
        have h1 := ih _ _ hxy
        have h2 := h _ (GoMap.mem_of_get hg)
        simp only at h2
        omega
  intro x n _ hrev
  obtain ⟨i, j, a, hij, hi, hj⟩ := hrev
  obtain ⟨t, rfl⟩ : ∃ t, j = i + (t + 1) := ⟨j - i - 1, by omega⟩
  rw [chainAt_add m x i (t + 1) hi] at hj
  have := key _ _ _ hj
  omega

end Chains

/-! ## The ancestor walk of `AddSystem` -/

section AddWalk

variable {D : Type}

/-- Outcome of `isEqualTo` read off the three comparisons of line 28. -/
theorem isEqualTo_spec [GoPayload D] (a b : System D) :
    (a.isEqualTo b = some true ↔
      a.SysID = b.SysID ∧ a.ParentSysID = b.ParentSysID ∧
        GoPayload.ne a.UsrData b.UsrData = some false) ∧
    (a.isEqualTo b = none ↔
      a.SysID = b.SysID ∧ a.ParentSysID = b.ParentSysID ∧
        GoPayload.ne a.UsrData b.UsrData = none) ∧
    (a.isEqualTo b = some false ↔
      a.SysID ≠ b.SysID ∨ a.ParentSysID ≠ b.ParentSysID ∨
        GoPayload.ne a.UsrData b.UsrData = some true) := by
  unfold System.isEqualTo
  by_cases h1 : a.SysID = b.SysID <;> by_cases h2 : a.ParentSysID = b.ParentSysID
  · rcases h3 : GoPayload.ne a.UsrData b.UsrData with _ | _ | _ <;> simp [h1, h2]
  · simp [h1, h2]
  · simp [h1, h2]
  · simp [h1, h2]

/-- On a comparable payload type `isEqualTo` decides equality of the two
nodes and never panics. -/
theorem isEqualTo_of_comparable [GoPayload D] [ComparablePayload D] (a b : System D) :
    (a.isEqualTo b = some true ↔ a = b) ∧ (a.isEqualTo b = some false ↔ a ≠ b) := by
  obtain ⟨a1, a2, a3⟩ := a
  obtain ⟨b1, b2, b3⟩ := b
  have hs := isEqualTo_spec (⟨a1, a2, a3⟩ : System D) ⟨b1, b2, b3⟩
  rw [hs.1, hs.2.2]
  by_cases h3 : a3 = b3
  · subst h3
    simp only [ComparablePayload.ne_self a3, System.mk.injEq, ne_eq]
    simp
    tauto
  · simp only [ComparablePayload.ne_of_ne a3 b3 h3, System.mk.injEq, ne_eq]
    simp [h3]

theorem addWalk_none (sys : GoMap (System D)) (sid fuel : Nat) (history : List Nat) :
    addWalk sys sid fuel history none = .finished history := by
  cases fuel <;> rfl

theorem walkMeets_step {m : GoMap (System D)} {sid cur : Nat} {n : System D}
    (hg : m.get cur = some n) (hne : n.ParentSysID ≠ sid) :
    WalkMeets m sid cur ↔ WalkMeets m sid n.ParentSysID := by
  constructor
  · rintro ⟨y, n', hr, hy, hp⟩
    rcases hr.cases_head with rfl | ⟨n'', hg', hr'⟩
    · rw [hg] at hy
      cases hy
      exact absurd hp hne
    · rw [hg] at hg'
      cases hg'
      exact ⟨y, n', hr', hy, hp⟩
  · rintro ⟨y, n', hr, hy, hp⟩
    exact ⟨y, n', (Reach.step hg).trans hr, hy, hp⟩

/-- Specification of the loop of `AddSystem` on a flat map without cycles:
it never runs out of fuel, stops with a cycle exactly when some node on the
walk has the incoming identifier as parent, and otherwise ends at an
identifier without a node. -/
theorem addWalk_spec (m : GoMap (System D)) (sid : Nat) (hac : ∀ x, ¬ Revisits m x) :
    ∀ (fuel : Nat) (history : List Nat) (cur : Nat),
      (∀ h ∈ history, Reach m h cur) → history.Nodup →
      (∀ h ∈ history, (m.get cur).isSome = true → (m.get h).isSome = true) →
      m.length < fuel + history.length →
      (WalkMeets m sid cur ∧ ∃ pid, addWalk m sid fuel history (m.get cur) = .cycle pid) ∨
      (¬ WalkMeets m sid cur ∧ WalkEnds m cur ∧
        ∃ hs, addWalk m sid fuel history (m.get cur) = .finished hs) := by
  intro fuel
  induction fuel with
  | zero =>
    intro history cur _ hnd hsome hfuel
    cases hg : m.get cur with
    | none =>
      right
      refine ⟨?_, ⟨cur, Reach.refl m cur, hg⟩, history, addWalk_none _ _ _ _⟩
      rintro ⟨y, n, hr, hy, _⟩
      rw [hr.eq_of_get_none hg, hg] at hy
      cases hy
    | some n =>
      exfalso
      have := GoMap.length_le_of_nodup_stored hnd (fun a ha => hsome a ha (by simp [hg]))
      omega
  | succ fuel ih =>
    intro history cur hreach hnd hsome hfuel
    cases hg : m.get cur with
    | none =>
      right
      refine ⟨?_, ⟨cur, Reach.refl m cur, hg⟩, history, addWalk_none _ _ _ _⟩
      rintro ⟨y, n, hr, hy, _⟩
      rw [hr.eq_of_get_none hg, hg] at hy
      cases hy
    | some n =>
      by_cases hsid : n.ParentSysID = sid
      · left
        refine ⟨⟨cur, n, Reach.refl m cur, hg, hsid⟩, n.ParentSysID, ?_⟩
        simp [addWalk, hsid]
      · by_cases hmem : n.ParentSysID ∈ history
        · exact absurd (revisits_of_back_edge hg rfl (hreach _ hmem)) (hac _)
        · have hstep : addWalk m sid (fuel + 1) history (some n) =
              addWalk m sid fuel (n.ParentSysID :: history) (m.get n.ParentSysID) := by
            simp [addWalk, hsid, hmem]
          rw [hstep, walkMeets_step hg hsid]
          have hcur : (m.get cur).isSome = true := by simp [hg]
          have := ih (n.ParentSysID :: history) n.ParentSysID
            (by
              intro h hh
              rcases List.mem_cons.mp hh with rfl | hh
              · exact Reach.refl m _
              · exact (hreach h hh).trans (Reach.step hg))
            (List.nodup_cons.mpr ⟨hmem, hnd⟩)
            (by
              intro h hh _
              rcases List.mem_cons.mp hh with rfl | hh
              · assumption
              · exact hsome h hh hcur)
            (by simp only [List.length_cons]; omega)
          rcases this with ⟨h1, h2⟩ | ⟨h1, ⟨z, hz1, hz2⟩, h3⟩
          · exact Or.inl ⟨h1, h2⟩
          · exact Or.inr ⟨h1, ⟨z, (Reach.step hg).trans hz1, hz2⟩, h3⟩

/-- Result of lines 123-142 of `AddSystem` on a flat map without cycles. -/
theorem addCommit_spec (st : Forest D) (s : System D) (hac : ∀ x, ¬ Revisits st.Systems x) :
    (WalkMeets st.Systems s.SysID s.ParentSysID ∧ addCommit st s = (.cycleError, st)) ∨
    (¬ WalkMeets st.Systems s.SysID s.ParentSysID ∧ WalkEnds st.Systems s.ParentSysID ∧
      (addCommit st s).1 = .nil) := by
  have := addWalk_spec st.Systems s.SysID hac (st.Systems.length + 1) [s.ParentSysID]
    s.ParentSysID
    (by intro h hh; rw [List.mem_singleton.mp hh]; exact Reach.refl _ _)
    (List.nodup_singleton _)
    (by intro h hh hs; rw [List.mem_singleton.mp hh]; exact hs)
    (by simp only [List.length_singleton]; omega)
  rcases this with ⟨h1, pid, h2⟩ | ⟨h1, h2, hs, h3⟩
  · left
    refine ⟨h1, ?_⟩
    unfold addCommit
    rw [h2]
  · right
    refine ⟨h1, h2, ?_⟩
    unfold addCommit
    rw [h3]

theorem DelSystem_systems {st : Forest D} {k : Nat} {old : System D}
    (h : st.Systems.get k = some old) : (DelSystem st k).2.2.Systems = st.Systems.del k := by
  unfold DelSystem
  rw [h]

/-- Whatever `AddSystem` does after its duplicate test is `addCommit` on a
forest whose flat map is the old one without the incoming identifier. -/
theorem AddSystem_eq_addCommit [GoPayload D] [ComparablePayload D] (st : Forest D)
    (s : System D) (hne : st.Systems.get s.SysID ≠ some s) :
    ∃ st1 : Forest D, st1.Systems = st.Systems.del s.SysID ∧ AddSystem st s = addCommit st1 s := by
  cases hg : st.Systems.get s.SysID with
  | none =>
    refine ⟨st, (GoMap.del_eq_self hg).symm, ?_⟩
    unfold AddSystem
    rw [hg]
  | some old =>
    refine ⟨(DelSystem st s.SysID).2.2, DelSystem_systems hg, ?_⟩
    have hneq : old.isEqualTo s = some false := by
      rw [(isEqualTo_of_comparable old s).2]
      intro h
      rw [hg, h] at hne
      exact absurd rfl hne
    unfold AddSystem
    rw [hg]
    simp only [hneq]

/-- Chain of a map in which `sid` has no node is a chain of the map with a
node put at `sid`. -/
theorem chainAt_set {m : GoMap (System D)} {sid : Nat} (s : System D)
    (hnone : m.get sid = none) {x y : Nat} (i : Nat)
    (h : chainAt m x i = some y) : chainAt (m.set sid s) x i = some y := by
  induction i generalizing x with
  | zero => exact h
  | succ i ih =>
    cases hg : m.get x with
    | none => rw [chainAt_of_get_none hg] at h; cases h
    | some n =>
      rw [chainAt_of_get hg] at h
      have hx : x ≠ sid := by
        intro e
        rw [e, hnone] at hg
        cases hg
      have hg' : (m.set sid s).get x = some n := by
        rw [GoMap.get_set_ne m sid s hx]; exact hg
      rw [chainAt_of_get hg']
      exact ih h

/-- When some node on the walk from the parent of `s` has `s.SysID` as
parent, storing `s` closes a cycle through `s.SysID`. -/
theorem revisits_of_walkMeets {m : GoMap (System D)} (s : System D)
    (hnone : m.get s.SysID = none) (h : WalkMeets m s.SysID s.ParentSysID) :
    Revisits (m.set s.SysID s) s.SysID := by
  obtain ⟨y, n, ⟨k, hk⟩, hy, hp⟩ := h
  have hself : (m.set s.SysID s).get s.SysID = some s := GoMap.get_set_self _ _ _
  have hy' : (m.set s.SysID s).get y = some n := by
    have hne : y ≠ s.SysID := by
      intro e
      rw [e, hnone] at hy
      cases hy
    rw [GoMap.get_set_ne m s.SysID s hne]; exact hy
  have hk' := chainAt_set s hnone k hk
  exact (revisits_step hself).mpr (revisits_of_back_edge hy' hp ⟨k + 1, by
    rw [chainAt_of_get hself]; exact hk'⟩ |> fun h => (revisits_of_reach ⟨1, by
      rw [chainAt_of_get hself]; rfl⟩).mp h)

end AddWalk

/-! ## Acyclicity, atomicity and self-parent rejection -/

section AddClaims

variable {D : Type}

/-- C1. Acyclicity after every sequence of `AddSystem` and `DelSystem` calls
does not hold on the code: on the empty forest the single call
`AddSystem({1, 1, "a"})` returns nil and stores node 1, and the upward walk
from node 1 meets identifier 1 twice, because `AddSystem` never calls
`isValid`. -/
theorem acyclicity_broken_by_self_parent_add :
    (AddSystem Forest.empty (⟨1, 1, "a"⟩ : System String)).1 = .nil ∧
    (AddSystem Forest.empty (⟨1, 1, "a"⟩ : System String)).2.Systems.get 1 =
      some ⟨1, 1, "a"⟩ ∧
    Revisits (AddSystem Forest.empty (⟨1, 1, "a"⟩ : System String)).2.Systems 1 ∧
    ¬ Acyclic (AddSystem Forest.empty (⟨1, 1, "a"⟩ : System String)).2.Systems := by
  have hrev : Revisits (AddSystem Forest.empty (⟨1, 1, "a"⟩ : System String)).2.Systems 1 :=
    ⟨0, 1, 1, by decide, by decide, by decide⟩
  exact ⟨by decide, by decide, hrev, fun h => h 1 ⟨1, 1, "a"⟩ (by decide) hrev⟩

/-- C2. A rejected add is not atomic on the code: in the forest
`1 <- 0, 2 <- 1` the call `AddSystem({1, 2, "c"})` returns the cycle error, yet
the old node 1 has been deleted before the walk and is not put back, so the
forest differs, `GetSystem(1)` is now absent and `getNodeNum()` went from 2
to 1. -/
theorem rejected_replace_drops_old_node :
    (AddSystem chainForest ⟨1, 2, "c"⟩).1 = .cycleError ∧
    (AddSystem chainForest ⟨1, 2, "c"⟩).2 ≠ chainForest ∧
    GetSystem chainForest 1 = some ⟨1, 0, "a"⟩ ∧
    GetSystem (AddSystem chainForest ⟨1, 2, "c"⟩).2 1 = none ∧
    getNodeNum chainForest = 2 ∧
    getNodeNum (AddSystem chainForest ⟨1, 2, "c"⟩).2 = 1 := by
  decide

/-- C3. Self-parent rejection does not hold on the code: for every forest,
identifier `x` and payload `d` of a comparable type, `AddSystem({x, x, d})`
never returns the cycle error.  It returns nil with the node stored, or it is
the duplicate of a self-parented node stored before; on the empty forest
`{1, 1, "a"}` is stored in both maps. -/
theorem AddSystem_self_parent_not_rejected [GoPayload D] [ComparablePayload D]
    (st : Forest D) (x : Nat) (d : D) :
    (AddSystem st ⟨x, x, d⟩).1 ≠ .cycleError ∧
    (((AddSystem st ⟨x, x, d⟩).1 = .nil ∧
        GetSystem (AddSystem st ⟨x, x, d⟩).2 x = some ⟨x, x, d⟩) ∨
      ((AddSystem st ⟨x, x, d⟩).1 = .fatal ∧ GetSystem st x = some ⟨x, x, d⟩)) ∧
    AddSystem Forest.empty (⟨1, 1, "a"⟩ : System String) =
      (.nil, ⟨[(1, ⟨1, 1, "a"⟩)], [(1, [(1, ⟨1, 1, "a"⟩)])]⟩) := by
  have hcommit : ∀ st1 : Forest D, st1.Systems.get x = none →
      (addCommit st1 ⟨x, x, d⟩).1 = .nil ∧
        GetSystem (addCommit st1 ⟨x, x, d⟩).2 x = some ⟨x, x, d⟩ := by
    intro st1 h1
    have e : addCommit st1 ⟨x, x, d⟩ =
        (.nil,
          { Systems := st1.Systems.set x ⟨x, x, d⟩
            Tree := st1.Tree.set x (((st1.Tree.get x).getD []).set x ⟨x, x, d⟩) }) := by
      unfold addCommit
      simp only [h1, addWalk_none]
    rw [e]
    exact ⟨rfl, GoMap.get_set_self _ _ _⟩
  have key : ((AddSystem st ⟨x, x, d⟩).1 = .nil ∧
        GetSystem (AddSystem st ⟨x, x, d⟩).2 x = some ⟨x, x, d⟩) ∨
      ((AddSystem st ⟨x, x, d⟩).1 = .fatal ∧ GetSystem st x = some ⟨x, x, d⟩) := by
    by_cases hdup : st.Systems.get x = some ⟨x, x, d⟩
    · right
      refine ⟨?_, hdup⟩
      unfold AddSystem
      simp only [hdup]
      have : (⟨x, x, d⟩ : System D).isEqualTo ⟨x, x, d⟩ = some true :=
        (isEqualTo_of_comparable _ _).1.mpr rfl
      simp only [this]
    · left
      obtain ⟨st1, h1, h2⟩ := AddSystem_eq_addCommit st ⟨x, x, d⟩ hdup
      rw [h2]
      exact hcommit st1 (by rw [h1]; exact GoMap.get_del_self _ _)
  refine ⟨?_, key, by decide⟩
  rcases key with ⟨h, _⟩ | ⟨h, _⟩ <;> rw [h] <;> decide

/-- Witness of C3 on the forest of the test, whose payloads are strings: the
self-parented node `{11, 11, "q"}` takes the place of node 11, and the call
returns nil. -/
theorem AddSystem_self_parent_not_rejected_witness :
    (AddSystem testForest ⟨11, 11, "q"⟩).1 ≠ .cycleError ∧
    (AddSystem testForest ⟨11, 11, "q"⟩).1 = .nil ∧
    GetSystem (AddSystem testForest ⟨11, 11, "q"⟩).2 11 = some ⟨11, 11, "q"⟩ :=
  ⟨(AddSystem_self_parent_not_rejected testForest 11 "q").1, by decide, by decide⟩

/-- C4. Exact rejection condition of `AddSystem`: on a forest whose flat map
is acyclic, for a node `s` (its payload of a comparable type, so that the
duplicate test before the walk is decided by equality) that is not the
stored node of its identifier,
`AddSystem(s)` returns the cycle error exactly when some node on the upward
walk from `s.ParentSysID` (through the flat map without the old node of
`s.SysID`) has `ParentSysID = s.SysID`; otherwise it returns nil and that
walk ends at an identifier with no node.  A rejected node is one whose
insertion closes a cycle through `s.SysID`. -/
theorem AddSystem_rejects_iff [GoPayload D] [ComparablePayload D] (st : Forest D)
    (s : System D) (hac : Acyclic st.Systems) (hne : st.Systems.get s.SysID ≠ some s) :
    ((AddSystem st s).1 = .cycleError ↔
      WalkMeets (st.Systems.del s.SysID) s.SysID s.ParentSysID) ∧
    ((AddSystem st s).1 = .cycleError ∨
      ((AddSystem st s).1 = .nil ∧ WalkEnds (st.Systems.del s.SysID) s.ParentSysID)) ∧
    ((AddSystem st s).1 = .cycleError →
      Revisits ((st.Systems.del s.SysID).set s.SysID s) s.SysID) := by
  obtain ⟨st1, h1, h2⟩ := AddSystem_eq_addCommit st s hne
  have hac1 : ∀ x, ¬ Revisits st1.Systems x := by
    rw [h1]
    exact acyclic_all (acyclic_del hac s.SysID)
  have hnone : (st.Systems.del s.SysID).get s.SysID = none := GoMap.get_del_self _ _
  rw [h2, ← h1]
  rcases addCommit_spec st1 s hac1 with ⟨hm, he⟩ | ⟨hm, hz, he⟩
  · rw [he]
    refine ⟨⟨fun _ => hm, fun _ => rfl⟩, Or.inl rfl, fun _ => ?_⟩
    rw [h1] at hm ⊢
    exact revisits_of_walkMeets s hnone hm
  · rw [he]
    exact ⟨⟨fun h => AddResult.noConfusion h, fun h => absurd h hm⟩, Or.inr ⟨rfl, hz⟩,
      fun h => AddResult.noConfusion h⟩

/-- Witness of C4 on the forest of the test: its seven inserts succeed one
after the other, and `0 <- 11` is rejected after `11 <- 0`. -/
theorem AddSystem_rejects_iff_witness :
    Acyclic testForest.Systems ∧
    testForest.Systems.length = 7 ∧
    (AddSystem testForest ⟨0, 11, "rpc"⟩).1 = .cycleError ∧
    WalkMeets (testForest.Systems.del 0) 0 11 ∧
    Revisits ((testForest.Systems.del 0).set 0 ⟨0, 11, "rpc"⟩) 0 := by
  have hac : Acyclic testForest.Systems := acyclic_of_rank testRank (by decide)
  have h := AddSystem_rejects_iff testForest ⟨0, 11, "rpc"⟩ hac (by decide)
  have he : (AddSystem testForest ⟨0, 11, "rpc"⟩).1 = .cycleError := by decide
  exact ⟨hac, by decide, he, h.1.mp he, h.2.2 he⟩

end AddClaims

/-! ## Index consistency and the representation invariant -/

section Invariants

variable {D : Type}

theorem get2_set (tree : GoMap (GoMap (System D))) (p : Nat) (b : GoMap (System D))
    (q c : Nat) : get2 (tree.set p b) q c = if q = p then b.get c else get2 tree q c := by
  unfold get2
  rw [GoMap.get_set]
  by_cases h : q = p <;> simp [h]

theorem get2_of_get {tree : GoMap (GoMap (System D))} {p : Nat} {b : GoMap (System D)}
    (h : tree.get p = some b) (c : Nat) : get2 tree p c = b.get c := by
  unfold get2
  rw [h]

theorem get2_getD (tree : GoMap (GoMap (System D))) (p c : Nat) :
    ((tree.get p).getD []).get c = get2 tree p c := by
  unfold get2
  cases tree.get p <;> rfl

theorem consistent_empty : Consistent (Forest.empty : Forest D) := by
  intro p c n
  simp [Forest.empty, get2, GoMap.get]

theorem DelSystem_of_none {st : Forest D} {id : Nat} (hg : st.Systems.get id = none) :
    DelSystem st id = (none, true, st) := by
  unfold DelSystem
  rw [hg]

theorem DelSystem_of_bucket {st : Forest D} {id : Nat} {s : System D} {b : GoMap (System D)}
    (hg : st.Systems.get id = some s) (hb : st.Tree.get s.ParentSysID = some b) :
    DelSystem st id =
      (some s, false, ⟨st.Systems.del id, st.Tree.set s.ParentSysID (b.del id)⟩) := by
  unfold DelSystem
  rw [hg]
  simp only [hb]

theorem DelSystem_of_no_bucket {st : Forest D} {id : Nat} {s : System D}
    (hg : st.Systems.get id = some s) (hb : st.Tree.get s.ParentSysID = none) :
    DelSystem st id = (some s, false, ⟨st.Systems.del id, st.Tree⟩) := by
  unfold DelSystem
  rw [hg]
  simp only [hb]

theorem consistent_DelSystem {st : Forest D} (h : Consistent st) (id : Nat) :
    Consistent (DelSystem st id).2.2 := by
  cases hg : st.Systems.get id with
  | none => rw [DelSystem_of_none hg]; exact h
  | some s =>
    have hs : get2 st.Tree s.ParentSysID id = some s := (h _ _ _).mpr ⟨hg, rfl⟩
    cases hb : st.Tree.get s.ParentSysID with
    | none =>
      rw [get2, hb] at hs
      cases hs
    | some b =>
      rw [DelSystem_of_bucket hg hb]
      intro p c n
      simp only [get2_set, GoMap.get_del]
      by_cases hc : c = id
      · subst hc
        simp only [if_true]
        by_cases hp : p = s.ParentSysID
        · simp [hp]
        · simp only [hp, if_false]
          constructor
          · intro h2
            have := (h _ _ _).mp h2
            rw [hg] at this
            obtain ⟨e, hpar⟩ := this
            cases e
            exact absurd hpar.symm hp
          · rintro ⟨e, _⟩
            cases e
      · simp only [hc, if_false]
        by_cases hp : p = s.ParentSysID
        · simp only [hp, if_true]
          rw [← get2_of_get hb c]
          exact h _ _ _
        · simp only [hp, if_false]
          exact h _ _ _

theorem consistent_addCommit {st : Forest D} (h : Consistent st) (s : System D)
    (hnone : st.Systems.get s.SysID = none) : Consistent (addCommit st s).2 := by
  unfold addCommit
  cases addWalk st.Systems s.SysID (st.Systems.length + 1) [s.ParentSysID]
      (st.Systems.get s.ParentSysID) with
  | cycle pid => exact h
  | exhausted => exact h
  | finished hs =>
    intro p c n
    simp only [get2_set, GoMap.get_set, get2_getD]
    by_cases hc : c = s.SysID
    · subst hc
      simp only [if_true, Option.some.injEq]
      by_cases hp : p = s.ParentSysID
      · simp only [hp, if_true]
        constructor
        · intro e; cases e; exact ⟨rfl, rfl⟩
        · rintro ⟨e, _⟩; rw [e]
      · simp only [hp, if_false]
        constructor
        · intro h2
          have := (h _ _ _).mp h2
          rw [hnone] at this
          cases this.1
        · rintro ⟨e1, e⟩
          cases e1
          exact absurd e.symm hp
    · simp only [hc, if_false]
      by_cases hp : p = s.ParentSysID
      · simp only [hp, if_true]
        exact h _ _ _
      · simp only [hp, if_false]
        exact h _ _ _

/-- Ways through `AddSystem`, for every payload type: the duplicate test
stops the call (the comparison panics, or it finds the stored node equal and
`log.Fatalf` is called) and the forest is as before; or the identifier is new;
or the stored node is replaced. -/
theorem AddSystem_paths [GoPayload D] (st : Forest D) (s : System D) :
    (∃ old, st.Systems.get s.SysID = some old ∧
      ((old.isEqualTo s = none ∧ AddSystem st s = (.panicked, st)) ∨
        (old.isEqualTo s = some true ∧ AddSystem st s = (.fatal, st)))) ∨
    (st.Systems.get s.SysID = none ∧ AddSystem st s = addCommit st s) ∨
    (∃ old, st.Systems.get s.SysID = some old ∧ old.isEqualTo s = some false ∧
      AddSystem st s = addCommit (DelSystem st s.SysID).2.2 s) := by
  cases hg : st.Systems.get s.SysID with
  | none =>
    right; left
    refine ⟨rfl, ?_⟩
    unfold AddSystem
    rw [hg]
  | some old =>
    rcases he : old.isEqualTo s with _ | _ | _
    · left
      refine ⟨old, rfl, Or.inl ⟨he, ?_⟩⟩
      unfold AddSystem
      rw [hg]
      simp only [he]
    · right; right
      refine ⟨old, rfl, he, ?_⟩
      unfold AddSystem
      rw [hg]
      simp only [he]
    · left
      refine ⟨old, rfl, Or.inr ⟨he, ?_⟩⟩
      unfold AddSystem
      rw [hg]
      simp only [he]

/-- Three ways through `AddSystem` on a comparable payload type: the
duplicate, a new identifier, a replacement. -/
theorem AddSystem_cases [GoPayload D] [ComparablePayload D] (st : Forest D) (s : System D) :
    (st.Systems.get s.SysID = some s ∧ AddSystem st s = (.fatal, st)) ∨
    (st.Systems.get s.SysID = none ∧ AddSystem st s = addCommit st s) ∨
    (∃ old, st.Systems.get s.SysID = some old ∧ old ≠ s ∧
      AddSystem st s = addCommit (DelSystem st s.SysID).2.2 s) := by
  rcases AddSystem_paths st s with ⟨old, hg, ⟨he, _⟩ | ⟨he, e⟩⟩ | h | ⟨old, hg, he, e⟩
  · have h1 := (isEqualTo_of_comparable old s).1
    have h2 := (isEqualTo_of_comparable old s).2
    by_cases hos : old = s
    · rw [h1.mpr hos] at he; cases he
    · rw [h2.mpr hos] at he; cases he
  · left
    rw [(isEqualTo_of_comparable old s).1] at he
    rw [he] at hg
    exact ⟨hg, e⟩
  · exact Or.inr (Or.inl h)
  · right; right
    rw [(isEqualTo_of_comparable old s).2] at he
    exact ⟨old, hg, he, e⟩

theorem consistent_AddSystem [GoPayload D] {st : Forest D} (h : Consistent st)
    (s : System D) : Consistent (AddSystem st s).2 := by
  rcases AddSystem_paths st s with ⟨_, _, ⟨_, e⟩ | ⟨_, e⟩⟩ | ⟨hnone, e⟩ | ⟨old, hold, _, e⟩
  · rw [e]; exact h
  · rw [e]; exact h
  · rw [e]; exact consistent_addCommit h s hnone
  · rw [e]
    refine consistent_addCommit (consistent_DelSystem h _) s ?_
    rw [DelSystem_systems hold]
    exact GoMap.get_del_self _ _

theorem consistent_addAll [GoPayload D] {st : Forest D} (h : Consistent st)
    (l : List (System D)) : Consistent (addAll st l) := by
  induction l generalizing st with
  | nil => exact h
  | cons s rest ih => exact ih (consistent_AddSystem h s)

theorem wf_bucket {st : Forest D} (h : WF st) {p : Nat} {b : GoMap (System D)}
    (hb : st.Tree.get p = some b) : b.NodupKeys :=
  h.2.2 _ (GoMap.mem_of_get hb)

theorem wf_getD {st : Forest D} (h : WF st) (p : Nat) :
    ((st.Tree.get p).getD []).NodupKeys := by
  cases hb : st.Tree.get p with
  | none => exact List.nodup_nil
  | some b => exact wf_bucket h hb

theorem wf_tree_set {st : Forest D} (h : WF st) (sys : GoMap (System D))
    (hs : sys.NodupKeys) (p : Nat) (b : GoMap (System D)) (hb : b.NodupKeys) :
    WF (⟨sys, st.Tree.set p b⟩ : Forest D) := by
  refine ⟨hs, GoMap.nodupKeys_set h.2.1 _ _, ?_⟩
  intro e he
  rcases GoMap.mem_set he with rfl | he
  · exact hb
  · exact h.2.2 e he

theorem wf_empty : WF (Forest.empty : Forest D) := by
  refine ⟨List.nodup_nil, List.nodup_nil, ?_⟩
  intro e he
  cases he

theorem wf_DelSystem {st : Forest D} (h : WF st) (id : Nat) : WF (DelSystem st id).2.2 := by
  cases hg : st.Systems.get id with
  | none => rw [DelSystem_of_none hg]; exact h
  | some s =>
    cases hb : st.Tree.get s.ParentSysID with
    | none =>
      rw [DelSystem_of_no_bucket hg hb]
      exact ⟨GoMap.nodupKeys_del h.1 _, h.2.1, h.2.2⟩
    | some b =>
      rw [DelSystem_of_bucket hg hb]
      exact wf_tree_set h _ (GoMap.nodupKeys_del h.1 _) _ _
        (GoMap.nodupKeys_del (wf_bucket h hb) _)

theorem wf_addCommit {st : Forest D} (h : WF st) (s : System D) : WF (addCommit st s).2 := by
  unfold addCommit
  cases addWalk st.Systems s.SysID (st.Systems.length + 1) [s.ParentSysID]
      (st.Systems.get s.ParentSysID) with
  | cycle pid => exact h
  | exhausted => exact h
  | finished hs =>
    exact wf_tree_set h _ (GoMap.nodupKeys_set h.1 _ _) _ _
      (GoMap.nodupKeys_set (wf_getD h _) _ _)

theorem wf_AddSystem [GoPayload D] {st : Forest D} (h : WF st) (s : System D) :
    WF (AddSystem st s).2 := by
  rcases AddSystem_paths st s with ⟨_, _, ⟨_, e⟩ | ⟨_, e⟩⟩ | ⟨_, e⟩ | ⟨old, _, _, e⟩
  · rw [e]; exact h
  · rw [e]; exact h
  · rw [e]; exact wf_addCommit h s
  · rw [e]; exact wf_addCommit (wf_DelSystem h _) s

/-- C5. Index consistency is an invariant of the mutation API: it holds for
the empty forest, and when `Tree[p][c] = n` holds exactly for `Systems[c] = n`
with `n.ParentSysID = p` before a call, it does so after `AddSystem(s)`,
whatever the call returns, and after `DelSystem(id)`. -/
theorem index_consistency_invariant [GoPayload D] (st : Forest D) (h : Consistent st)
    (s : System D) (id : Nat) :
    Consistent (Forest.empty : Forest D) ∧
    Consistent (AddSystem st s).2 ∧
    Consistent (DelSystem st id).2.2 :=
  ⟨consistent_empty, consistent_AddSystem h s, consistent_DelSystem h id⟩

/-- Witness of C5 on the forest of the test: a rejected add, a replacement
and a delete all leave the two maps consistent. -/
theorem index_consistency_invariant_witness :
    Consistent testForest ∧
    (AddSystem testForest ⟨0, 11, "rpc"⟩).1 = .cycleError ∧
    Consistent (Forest.empty : Forest String) ∧
    Consistent (AddSystem testForest ⟨0, 11, "rpc"⟩).2 ∧
    Consistent (DelSystem testForest 33).2.2 :=
  ⟨consistent_addAll consistent_empty _, by decide,
    index_consistency_invariant testForest (consistent_addAll consistent_empty _)
      ⟨0, 11, "rpc"⟩ 33⟩

/-- C8. `DelSystem(id)` returns `(nil, error)` exactly when the flat map has
no node for `id`, and then the forest is unchanged; otherwise it returns the
node that `GetSystem(id)` returned before, with a nil error, and afterwards
`GetSystem(id)` is absent and `getNodeNum()` is one less. -/
theorem DelSystem_fails_iff_absent (st : Forest D) (id : Nat) (hn : st.Systems.NodupKeys) :
    ((DelSystem st id).2.1 = true ↔ GetSystem st id = none) ∧
    ((DelSystem st id).2.1 = true → DelSystem st id = (none, true, st)) ∧
    ((DelSystem st id).2.1 = false →
      (DelSystem st id).1 = GetSystem st id ∧
      (DelSystem st id).1 ≠ none ∧
      GetSystem (DelSystem st id).2.2 id = none ∧
      getNodeNum (DelSystem st id).2.2 = getNodeNum st - 1) := by
  unfold GetSystem getNodeNum
  cases hg : st.Systems.get id with
  | none =>
    have e : DelSystem st id = (none, true, st) := by
      unfold DelSystem
      rw [hg]
    rw [e]
    simp
  | some s =>
    have e : (DelSystem st id).1 = some s ∧ (DelSystem st id).2.1 = false ∧
        (DelSystem st id).2.2.Systems = st.Systems.del id := by
      unfold DelSystem
      rw [hg]
      exact ⟨rfl, rfl, rfl⟩
    rw [e.1, e.2.1, e.2.2]
    have hl := GoMap.length_del_of_get hn hg
    refine ⟨by simp, by simp, fun _ => ⟨rfl, by simp, GoMap.get_del_self _ _, ?_⟩⟩
    omega

/-- Witness of C8 on the forest of the test: deleting the stored node 33
succeeds, deleting the absent identifier 7 fails. -/
theorem DelSystem_fails_iff_absent_witness :
    testForest.Systems.NodupKeys ∧
    (DelSystem testForest 33).1 = some ⟨33, 22, "bbb"⟩ ∧
    DelSystem testForest 7 = (none, true, testForest) ∧
    getNodeNum (DelSystem testForest 33).2.2 = 6 := by
  have h := DelSystem_fails_iff_absent testForest 33 (by decide)
  have h7 := DelSystem_fails_iff_absent testForest 7 (by decide)
  exact ⟨by decide, by decide, h7.2.1 (by decide), by rw [(h.2.2 (by decide)).2.2.2]; decide⟩

end Invariants

/-! ## Replacement -/

section Replacement

/-- C6. Replacement semantics fail on the code for a self-parented
replacement: the consistent forest holding `{1, 0, "a"}` accepts
`AddSystem({1, 1, "b"})` with nil and stores the node, and then
`GetChildSystems(1)` does not return a map holding the node: it finds child
identifier 1 equal to the start identifier and takes the `log.Fatalf`
branch. -/
theorem replace_by_self_parent_breaks_GetChildSystems :
    Consistent soloForest ∧
    GetSystem soloForest 1 = some ⟨1, 0, "a"⟩ ∧
    (AddSystem soloForest ⟨1, 1, "b"⟩).1 = .nil ∧
    GetSystem (AddSystem soloForest ⟨1, 1, "b"⟩).2 1 = some ⟨1, 1, "b"⟩ ∧
    get2 (AddSystem soloForest ⟨1, 1, "b"⟩).2.Tree 1 1 = some ⟨1, 1, "b"⟩ ∧
    GetChildSystems (AddSystem soloForest ⟨1, 1, "b"⟩).2 1 = none :=
  ⟨consistent_addAll consistent_empty _, by decide, by decide, by decide, by decide, by decide⟩

end Replacement

/-! ## The global cycle audit -/

section Audit

variable {D : Type}

theorem circleWalk_none (sys : GoMap (System D)) (done : List Nat) (fuel : Nat)
    (history : List Nat) : circleWalk sys done fuel history none = .finished history := by
  cases fuel <;> rfl

/-- Specification of the inner loop of `checkCircle`, when no identifier of
`done` starts a walk that revisits: the loop never runs out of fuel, reports
a cycle only when the walk from the current identifier revisits, and
otherwise returns a history that extends the given one and holds no
identifier whose walk revisits. -/
theorem circleWalk_spec (m : GoMap (System D)) (done : List Nat)
    (hdone : ∀ d ∈ done, ¬ Revisits m d) :
    ∀ (fuel : Nat) (history : List Nat) (cur : Nat),
      (∀ h ∈ history, Reach m h cur) → history.Nodup →
      (∀ h ∈ history, (m.get cur).isSome = true → (m.get h).isSome = true) →
      m.length < fuel + history.length →
      (Revisits m cur ∧ ∃ pid, circleWalk m done fuel history (m.get cur) = .cycle pid) ∨
      (∃ hs, circleWalk m done fuel history (m.get cur) = .finished hs ∧
        (∀ h ∈ history, h ∈ hs) ∧ ∀ h ∈ hs, ¬ Revisits m h) := by
  intro fuel
  induction fuel with
  | zero =>
    intro history cur hreach hnd hsome hfuel
    cases hg : m.get cur with
    | none =>
      right
      refine ⟨history, circleWalk_none _ _ _ _, fun h hh => hh, fun h hh => ?_⟩
      exact fun hr => not_revisits_of_get_none hg ((revisits_of_reach (hreach h hh)).mp hr)
    | some n =>
      exfalso
      have := GoMap.length_le_of_nodup_stored hnd (fun a ha => hsome a ha (by simp [hg]))
      omega
  | succ fuel ih =>
    intro history cur hreach hnd hsome hfuel
    cases hg : m.get cur with
    | none =>
      right
      refine ⟨history, circleWalk_none _ _ _ _, fun h hh => hh, fun h hh => ?_⟩
      exact fun hr => not_revisits_of_get_none hg ((revisits_of_reach (hreach h hh)).mp hr)
    | some n =>
      by_cases hd : n.ParentSysID ∈ done
      · right
        refine ⟨history, by simp [circleWalk, hd], fun h hh => hh, fun h hh hr => ?_⟩
        exact hdone _ hd ((revisits_step hg).mp ((revisits_of_reach (hreach h hh)).mp hr))
      · by_cases hmem : n.ParentSysID ∈ history
        · left
          refine ⟨?_, n.ParentSysID, by simp [circleWalk, hd, hmem]⟩
          exact (revisits_step hg).mpr (revisits_of_back_edge hg rfl (hreach _ hmem))
        · have hstep : circleWalk m done (fuel + 1) history (some n) =
              circleWalk m done fuel (n.ParentSysID :: history) (m.get n.ParentSysID) := by
            simp [circleWalk, hd, hmem]
          rw [hstep]
          have hcur : (m.get cur).isSome = true := by simp [hg]
          have := ih (n.ParentSysID :: history) n.ParentSysID
            (by
              intro h hh
              rcases List.mem_cons.mp hh with rfl | hh
              · exact Reach.refl m _
              · exact (hreach h hh).trans (Reach.step hg))
            (List.nodup_cons.mpr ⟨hmem, hnd⟩)
            (by
              intro h hh _
              rcases List.mem_cons.mp hh with rfl | hh
              · assumption
              · exact hsome h hh hcur)
            (by simp only [List.length_cons]; omega)
          rcases this with ⟨h1, h2⟩ | ⟨hs, h1, h2, h3⟩
          · exact Or.inl ⟨(revisits_step hg).mpr h1, h2⟩
          · exact Or.inr ⟨hs, h1, fun h hh => h2 h (List.mem_cons_of_mem _ hh), h3⟩

theorem isValid_eq_true_iff (s : System D) : s.isValid = true ↔ s.SysID ≠ s.ParentSysID := by
  unfold System.isValid
  by_cases h : s.SysID = s.ParentSysID <;> simp [h]

/-- Specification of the outer loop of `checkCircle` over entries of a flat
map keyed by identifier. -/
theorem circleLoop_spec (m : GoMap (System D)) :
    ∀ (rest : List (Nat × System D)) (done : List Nat),
      (∀ e ∈ rest, m.get e.1 = some e.2 ∧ e.2.SysID = e.1) →
      (∀ d ∈ done, ¬ Revisits m d) →
      (circleLoop m rest done = .cycleError ∧ ∃ e ∈ rest, Revisits m e.1) ∨
      (circleLoop m rest done = .nil ∧ ∀ e ∈ rest, ¬ Revisits m e.1) := by
  intro rest
  induction rest with
  | nil =>
    intro done _ _
    right
    exact ⟨rfl, fun e he => by cases he⟩
  | cons x rest ih =>
    obtain ⟨id, s⟩ := x
    intro done hrest hdone
    have hx := hrest (id, s) (List.mem_cons_self _ _)
    simp only at hx
    obtain ⟨hget, hkey⟩ := hx
    have hrest' : ∀ e ∈ rest, m.get e.1 = some e.2 ∧ e.2.SysID = e.1 :=
      fun e he => hrest e (List.mem_cons_of_mem _ he)
    have lift : ∀ done', (∀ d ∈ done', ¬ Revisits m d) → ¬ Revisits m id →
        (circleLoop m rest done' = .cycleError ∧ ∃ e ∈ (id, s) :: rest, Revisits m e.1) ∨
        (circleLoop m rest done' = .nil ∧ ∀ e ∈ (id, s) :: rest, ¬ Revisits m e.1) := by
      intro done' hd' hid
      rcases ih done' hrest' hd' with ⟨h1, e, he, hr⟩ | ⟨h1, h2⟩
      · exact Or.inl ⟨h1, e, List.mem_cons_of_mem _ he, hr⟩
      · refine Or.inr ⟨h1, fun e he => ?_⟩
        rcases List.mem_cons.mp he with rfl | he
        · exact hid
        · exact h2 e he
    by_cases hin : id ∈ done
    · have e : circleLoop m ((id, s) :: rest) done = circleLoop m rest done := by
        simp [circleLoop, hin]
      rw [e]
      exact lift done hdone (hdone id hin)
    · by_cases hv : s.isValid = true
      · have hne : id ≠ s.ParentSysID := by
          rw [← hkey]; exact (isValid_eq_true_iff s).mp hv
        by_cases hp : s.ParentSysID ∈ done
        · have e : circleLoop m ((id, s) :: rest) done = circleLoop m rest (id :: done) := by
            simp [circleLoop, hin, hv, hp]
          rw [e]
          have hid : ¬ Revisits m id := fun hr => hdone _ hp ((revisits_step hget).mp hr)
          refine lift (id :: done) ?_ hid
          intro d hd
          rcases List.mem_cons.mp hd with rfl | hd
          · exact hid
          · exact hdone d hd
        · have hw := circleWalk_spec m done hdone (m.length + 1) [s.ParentSysID, id]
            s.ParentSysID
            (by
              intro h hh
              simp only [List.mem_cons, List.mem_singleton, List.not_mem_nil, or_false] at hh
              rcases hh with rfl | rfl
              · exact Reach.refl m _
              · exact Reach.step hget)
            (by
              simp only [List.nodup_cons, List.mem_singleton, List.not_mem_nil,
                not_false_eq_true, List.nodup_nil, and_true]
              exact fun e => hne e.symm)
            (by
              intro h hh hs
              simp only [List.mem_cons, List.mem_singleton, List.not_mem_nil, or_false] at hh
              rcases hh with rfl | rfl
              · exact hs
              · simp [hget])
            (by simp only [List.length_cons, List.length_nil]; omega)
          rcases hw with ⟨hr, pid, hc⟩ | ⟨hs, hc, hsub, hall⟩
          · left
            refine ⟨?_, (id, s), List.mem_cons_self _ _, (revisits_step hget).mpr hr⟩
            simp [circleLoop, hin, hv, hp, hc]
          · have e : circleLoop m ((id, s) :: rest) done = circleLoop m rest (hs ++ done) := by
              simp [circleLoop, hin, hv, hp, hc]
            rw [e]
            have hid : ¬ Revisits m id := hall id (hsub id (by simp))
            refine lift (hs ++ done) ?_ hid
            intro d hd
            rcases List.mem_append.mp hd with hd | hd
            · exact hall d hd
            · exact hdone d hd
      · left
        have hv' : s.isValid = false := by
          cases h : s.isValid with
          | false => rfl
          | true => exact absurd h hv
        refine ⟨by simp [circleLoop, hin, hv'], (id, s), List.mem_cons_self _ _, ?_⟩
        have hself : s.SysID = s.ParentSysID := by
          by_contra hne
          exact hv ((isValid_eq_true_iff s).mpr hne)
        refine revisits_of_loop (t := 0) ?_
        rw [chainAt_of_get hget, ← hself, hkey]
        rfl

/-- C7. The global cycle audit is correct for every order of iteration: on a
flat map keyed by identifier, `checkCircle` visiting the entries in any order
returns a non-nil error exactly when some stored node is its own parent or
starts an upward walk that revisits an identifier, and returns nil
otherwise; so two orders of iteration never disagree. -/
theorem checkCircle_correct (st : Forest D) (order order' : List (Nat × System D))
    (hn : st.Systems.NodupKeys) (hk : KeyedByID st.Systems)
    (hp : order.Perm st.Systems) (hp' : order'.Perm st.Systems) :
    (checkCircleIn st order = .cycleError ↔
      ∃ k n, st.Systems.get k = some n ∧
        (n.SysID = n.ParentSysID ∨ Revisits st.Systems k)) ∧
    (checkCircleIn st order = .cycleError ∨ checkCircleIn st order = .nil) ∧
    checkCircleIn st order' = checkCircleIn st order ∧
    checkCircle st = checkCircleIn st order := by
  have main : ∀ o : List (Nat × System D), o.Perm st.Systems →
      (checkCircleIn st o = .cycleError ∧
        ∃ k n, st.Systems.get k = some n ∧
          (n.SysID = n.ParentSysID ∨ Revisits st.Systems k)) ∨
      (checkCircleIn st o = .nil ∧
        ¬ ∃ k n, st.Systems.get k = some n ∧
          (n.SysID = n.ParentSysID ∨ Revisits st.Systems k)) := by
    intro o ho
    have hent : ∀ e ∈ o, st.Systems.get e.1 = some e.2 ∧ e.2.SysID = e.1 := by
      intro e he
      have hm : e ∈ st.Systems := ho.subset he
      exact ⟨GoMap.get_of_mem hn hm, hk e hm⟩
    rcases circleLoop_spec st.Systems o [] hent (fun d hd => by cases hd) with
      ⟨h1, e, he, hr⟩ | ⟨h1, h2⟩
    · exact Or.inl ⟨h1, e.1, e.2, (hent e he).1, Or.inr hr⟩
    · refine Or.inr ⟨h1, ?_⟩
      rintro ⟨k, n, hg, hbad⟩
      have hm : (k, n) ∈ o := ho.symm.subset (GoMap.mem_of_get hg)
      have hnr := h2 (k, n) hm
      rcases hbad with hself | hr
      · apply hnr
        refine revisits_of_loop (t := 0) ?_
        have hkey : n.SysID = k := hk (k, n) (GoMap.mem_of_get hg)
        rw [chainAt_of_get hg, ← hself, hkey]
        rfl
      · exact hnr hr
  have hself : checkCircle st = checkCircleIn st st.Systems := rfl
  rcases main order hp with ⟨h1, h2⟩ | ⟨h1, h2⟩ <;>
    rcases main order' hp' with ⟨h3, h4⟩ | ⟨h3, h4⟩ <;>
    rcases main st.Systems (List.Perm.refl _) with ⟨h5, h6⟩ | ⟨h5, h6⟩
  all_goals first
    | exact absurd h2 h4
    | exact absurd h4 h2
    | exact absurd h2 h6
    | exact absurd h6 h2
    | skip
  · rw [hself, h1, h3, h5]
    exact ⟨⟨fun _ => h2, fun _ => rfl⟩, Or.inl rfl, rfl, rfl⟩
  · rw [hself, h1, h3, h5]
    exact ⟨⟨fun h => AddResult.noConfusion h, fun h => absurd h h2⟩, Or.inr rfl, rfl, rfl⟩

/-- Witness of C7 on the flat map of the test, where `11 <- 33`, `33 <- 22`,
`22 <- 11` is a cycle: the audit fails in the stored order and in the
reverse order. -/
theorem checkCircle_correct_witness :
    bulkForest.Systems.NodupKeys ∧ KeyedByID bulkForest.Systems ∧
    checkCircle bulkForest = .cycleError ∧
    checkCircleIn bulkForest bulkForest.Systems.reverse = .cycleError ∧
    ∃ k n, bulkForest.Systems.get k = some n ∧
      (n.SysID = n.ParentSysID ∨ Revisits bulkForest.Systems k) := by
  have h := checkCircle_correct bulkForest bulkForest.Systems.reverse bulkForest.Systems
    (by decide) (by decide) (List.reverse_perm _) (List.Perm.refl _)
  have he : checkCircleIn bulkForest bulkForest.Systems.reverse = .cycleError := by decide
  exact ⟨by decide, by decide, by decide, he, h.1.mp he⟩

end Audit

/-! ## The breadth-first loop of `getChilds` -/

section Scan

variable {D : Type}

/-- Scan of one bucket whose keys are new: nothing is fatal, the keys go to
the end of the queue and the entries to the end of the history. -/
theorem scanBucket_some (sysID : Nat) :
    ∀ (b : GoMap (System D)) (queue : List Nat) (history : GoMap (System D)),
      sysID ∉ b.keys → (history.keys ++ b.keys).Nodup →
      scanBucket sysID b queue history = some (queue ++ b.keys, history ++ b) := by
  intro b
  induction b with
  | nil =>
    intro queue history _ _
    simp [scanBucket, GoMap.keys]
  | cons x rest ih =>
    obtain ⟨cid, child⟩ := x
    intro queue history hid hnd
    have hcid : cid ≠ sysID := by
      intro e
      apply hid
      simp [GoMap.keys, e]
    have hrest : sysID ∉ GoMap.keys rest := by
      intro hmem
      apply hid
      simp only [GoMap.keys, List.map_cons, List.mem_cons]
      exact Or.inr hmem
    have hnew : cid ∉ history.keys := by
      intro hmem
      have := (List.nodup_append.mp hnd).2.2
      exact this hmem (by simp [GoMap.keys])
    have hnone : history.get cid = none := GoMap.get_eq_none_of_not_mem_keys hnew
    have hnd' : (GoMap.keys (history ++ [(cid, child)]) ++ GoMap.keys rest).Nodup := by
      rw [GoMap.keys_append]
      simpa [GoMap.keys, List.append_assoc] using hnd
    have := ih (queue ++ [cid]) (history ++ [(cid, child)]) hrest hnd'
    simp only [scanBucket, hcid, hnone, Option.isSome_none, Bool.false_eq_true, or_self,
      if_false, GoMap.set_of_get_none child hnone]
    rw [this]
    simp [GoMap.keys, List.append_assoc]

/-- Scan of one level whose buckets hold new keys only. -/
theorem scanLevel_some (tree : GoMap (GoMap (System D))) (sysID : Nat) :
    ∀ (level queue : List Nat) (history : GoMap (System D)),
      sysID ∉ (levelEntries tree level).keys →
      (history.keys ++ (levelEntries tree level).keys).Nodup →
      scanLevel tree sysID level queue history =
        some (queue ++ (levelEntries tree level).keys, history ++ levelEntries tree level) := by
  intro level
  induction level with
  | nil =>
    intro queue history _ _
    simp [scanLevel, levelEntries, GoMap.keys]
  | cons p level ih =>
    intro queue history hid hnd
    simp only [levelEntries, GoMap.keys_append, List.mem_append, not_or] at hid hnd
    have h1 : (history.keys ++ (bucketOf tree p).keys).Nodup := by
      rw [← List.append_assoc] at hnd
      exact (List.nodup_append.mp hnd).1
    have hb := scanBucket_some sysID (bucketOf tree p) queue history hid.1 h1
    have h2 : (GoMap.keys (history ++ bucketOf tree p) ++
        (levelEntries tree level).keys).Nodup := by
      rw [GoMap.keys_append, List.append_assoc]
      exact hnd
    have := ih (queue ++ (bucketOf tree p).keys) (history ++ bucketOf tree p) hid.2 h2
    simp only [scanLevel, hb]
    rw [this]
    simp [levelEntries, GoMap.keys_append, List.append_assoc]

theorem levelEntries_single (tree : GoMap (GoMap (System D))) (p : Nat) :
    levelEntries tree [p] = bucketOf tree p := by
  simp [levelEntries]

theorem get_bucketOf (tree : GoMap (GoMap (System D))) (p c : Nat) :
    (bucketOf tree p).get c = get2 tree p c :=
  get2_getD tree p c

theorem mem_keys_bucketOf {tree : GoMap (GoMap (System D))} {p c : Nat}
    (h : c ∈ (bucketOf tree p).keys) : ∃ n, get2 tree p c = some n := by
  have := GoMap.get_isSome_of_mem_keys h
  rw [get_bucketOf] at this
  cases hg : get2 tree p c with
  | none => simp [hg] at this
  | some n => exact ⟨n, rfl⟩

theorem wf_bucketOf {st : Forest D} (h : WF st) (p : Nat) : (bucketOf st.Tree p).NodupKeys :=
  wf_getD h p

/-- What `GetChildSystems` returns when the bucket of the identifier does not
list the identifier itself: the bucket. -/
theorem GetChildSystems_eq_bucket {st : Forest D} (hwf : WF st) {id : Nat}
    (hid : id ∉ (bucketOf st.Tree id).keys) :
    GetChildSystems st id = some (bucketOf st.Tree id) := by
  have hs := scanLevel_some st.Tree id [id] [] [] (by rw [levelEntries_single]; exact hid)
    (by
      rw [levelEntries_single]
      simpa [GoMap.keys] using wf_bucketOf hwf id)
  rw [levelEntries_single] at hs
  unfold GetChildSystems getChilds
  have e : (if (1 : Int) ≤ 0 then (2147483647 : Int) else 1).toNat = 0 + 1 := by decide
  simp only [e, floorLoop, hs, List.nil_append]
  by_cases hne : (bucketOf st.Tree id).keys = []
  · simp [hne]
  · simp [hne]

/-- C10. `GetChildSystems` returns exactly the direct children: in a
consistent forest keyed by identifier in which no node is its own parent,
for every identifier `id`, with or without a node, it returns a map that
sends `c` to `n` exactly when `Systems[c] = n` and `n.ParentSysID = id`.  So
its keys are the identifiers of those nodes, it is empty when there are
none, and no grandchild is in it. -/
theorem GetChildSystems_direct_children (st : Forest D) (id : Nat) (hwf : WF st)
    (hc : Consistent st) (hk : KeyedByID st.Systems)
    (hv : ∀ k n, st.Systems.get k = some n → n.SysID ≠ n.ParentSysID) :
    ∃ M, GetChildSystems st id = some M ∧ M.NodupKeys ∧
      (∀ c n, M.get c = some n ↔ (st.Systems.get c = some n ∧ n.ParentSysID = id)) ∧
      (∀ n, M.get n.SysID = some n ↔
        ((∃ k, st.Systems.get k = some n) ∧ n.ParentSysID = id)) ∧
      (M = [] ↔ ¬ ∃ c n, st.Systems.get c = some n ∧ n.ParentSysID = id) ∧
      (∀ c n p, st.Systems.get c = some n → st.Systems.get n.ParentSysID = some p →
        p.ParentSysID = id → M.get c = none) := by
  have hself : ∀ k n, st.Systems.get k = some n → n.ParentSysID ≠ k := by
    intro k n hg e
    have := hk (k, n) (GoMap.mem_of_get hg)
    simp only at this
    exact hv k n hg (this.trans e.symm)
  have hid : id ∉ (bucketOf st.Tree id).keys := by
    intro hmem
    obtain ⟨n, hn⟩ := mem_keys_bucketOf hmem
    have := (hc _ _ _).mp hn
    exact hself id n this.1 this.2
  have hiff : ∀ c n, (bucketOf st.Tree id).get c = some n ↔
      (st.Systems.get c = some n ∧ n.ParentSysID = id) := by
    intro c n
    rw [get_bucketOf]
    exact hc _ _ _
  refine ⟨bucketOf st.Tree id, GetChildSystems_eq_bucket hwf hid, wf_bucketOf hwf id, hiff,
    ?_, ?_, ?_⟩
  · intro n
    rw [hiff]
    constructor
    · rintro ⟨h1, h2⟩
      exact ⟨⟨_, h1⟩, h2⟩
    · rintro ⟨⟨k, h1⟩, h2⟩
      have := hk (k, n) (GoMap.mem_of_get h1)
      simp only at this
      rw [this]
      exact ⟨h1, h2⟩
  · constructor
    · rintro he ⟨c, n, h1, h2⟩
      have := (hiff c n).mpr ⟨h1, h2⟩
      rw [he] at this
      cases this
    · intro hnone
      apply GoMap.eq_nil_of_get_none
      intro k
      cases hg : (bucketOf st.Tree id).get k with
      | none => rfl
      | some n => exact absurd ⟨k, n, (hiff k n).mp hg⟩ hnone
  · intro c n p hg hgp hpid
    cases hm : (bucketOf st.Tree id).get c with
    | none => rfl
    | some n' =>
      exfalso
      have h1 := (hiff c n').mp hm
      rw [hg] at h1
      obtain ⟨e, h2⟩ := h1
      cases e
      rw [h2] at hgp
      exact hself id p hgp hpid

theorem valid_of_forall_mem {m : GoMap (System D)}
    (h : ∀ e ∈ m, e.2.SysID ≠ e.2.ParentSysID) :
    ∀ k n, m.get k = some n → n.SysID ≠ n.ParentSysID :=
  fun k n hg => h (k, n) (GoMap.mem_of_get hg)

/-- Witness of C10 on the forest of the test: the children of 11 are 22 and
55, and 33, a child of 22, is not among them. -/
theorem GetChildSystems_direct_children_witness :
    WF testForest ∧ Consistent testForest ∧ KeyedByID testForest.Systems ∧
    ∃ M, GetChildSystems testForest 11 = some M ∧ M.keys = [22, 55] ∧
      (∀ c n, M.get c = some n ↔ (testForest.Systems.get c = some n ∧ n.ParentSysID = 11)) ∧
      M.get 33 = none := by
  have hcons : Consistent testForest := consistent_addAll consistent_empty _
  obtain ⟨M, h1, _, h3, _, _, h6⟩ := GetChildSystems_direct_children testForest 11
    (by decide) hcons (by decide) (valid_of_forall_mem (by decide))
  refine ⟨by decide, hcons, by decide, M, h1, ?_, h3, ?_⟩
  · have e : GetChildSystems testForest 11 =
        some [(22, ⟨22, 11, "aaa"⟩), (55, ⟨55, 11, "cccc"⟩)] := by decide
    rw [e] at h1
    cases h1
    rfl
  · exact h6 33 ⟨33, 22, "bbb"⟩ ⟨22, 11, "aaa"⟩ (by decide) (by decide) rfl

end Scan

/-! ## The breadth-first loop on a consistent acyclic forest -/

section Levels

variable {D : Type}

theorem mem_keys_levelEntries {tree : GoMap (GoMap (System D))} {level : List Nat} {c : Nat} :
    c ∈ (levelEntries tree level).keys ↔ ∃ p ∈ level, c ∈ (bucketOf tree p).keys := by
  induction level with
  | nil => simp [levelEntries, GoMap.keys]
  | cons p level ih =>
    simp only [levelEntries, GoMap.keys_append, List.mem_append, ih, List.mem_cons,
      exists_eq_or_imp]

/-- Child listed in the bucket of `p` is one parent link below `p`. -/
theorem chainAt_child {st : Forest D} (hc : Consistent st) {p c id k : Nat}
    (hmem : c ∈ (bucketOf st.Tree p).keys) (hp : chainAt st.Systems p k = some id) :
    chainAt st.Systems c (k + 1) = some id := by
  obtain ⟨n, hn⟩ := mem_keys_bucketOf hmem
  obtain ⟨hg, hpar⟩ := (hc _ _ _).mp hn
  rw [chainAt_of_get hg, hpar]
  exact hp

/-- Two buckets of a consistent forest share no key: a node has one parent. -/
theorem bucket_parent_unique {st : Forest D} (hc : Consistent st) {p p' c : Nat}
    (h : c ∈ (bucketOf st.Tree p).keys) (h' : c ∈ (bucketOf st.Tree p').keys) : p = p' := by
  obtain ⟨n, hn⟩ := mem_keys_bucketOf h
  obtain ⟨n', hn'⟩ := mem_keys_bucketOf h'
  obtain ⟨hg, hpar⟩ := (hc _ _ _).mp hn
  obtain ⟨hg', hpar'⟩ := (hc _ _ _).mp hn'
  rw [hg] at hg'
  cases hg'
  exact hpar.symm.trans hpar'

theorem nodup_levelEntries {st : Forest D} (hwf : WF st) (hc : Consistent st) :
    ∀ level : List Nat, level.Nodup → (levelEntries st.Tree level).keys.Nodup := by
  intro level
  induction level with
  | nil => intro _; exact List.nodup_nil
  | cons p level ih =>
    intro hnd
    obtain ⟨hp, hnd'⟩ := List.nodup_cons.mp hnd
    simp only [levelEntries, GoMap.keys_append]
    refine List.nodup_append.mpr ⟨wf_bucketOf hwf p, ih hnd', ?_⟩
    intro c h1 h2
    obtain ⟨p', hp', h3⟩ := mem_keys_levelEntries.mp h2
    exact hp (bucket_parent_unique hc h1 h3 ▸ hp')

/-- Identifier met again `t + 1` links further up starts a walk that revisits. -/
theorem revisits_of_two_levels {m : GoMap (System D)} {c id j k : Nat} (hjk : j < k)
    (hj : chainAt m c j = some id) (hk : chainAt m c k = some id) : Revisits m id := by
  obtain ⟨t, rfl⟩ : ∃ t, k = j + (t + 1) := ⟨k - j - 1, by omega⟩
  rw [chainAt_add m c j (t + 1) hj] at hk
  exact revisits_of_loop hk

/-- One iteration of the breadth-first loop keeps the invariant and scans
without meeting the start identifier or a collected one. -/
theorem levelInv_step {st : Forest D} (hwf : WF st) (hc : Consistent st)
    (hac : Acyclic st.Systems) {id k : Nat} {level : List Nat} {history : GoMap (System D)}
    (h : LevelInv st id k level history) :
    scanLevel st.Tree id level [] history =
      some ((levelEntries st.Tree level).keys, history ++ levelEntries st.Tree level) ∧
    LevelInv st id (k + 1) (levelEntries st.Tree level).keys
      (history ++ levelEntries st.Tree level) := by
  obtain ⟨h1, h2, h3, h4⟩ := h
  have hnext : ∀ c ∈ (levelEntries st.Tree level).keys,
      chainAt st.Systems c (k + 1) = some id := by
    intro c hmem
    obtain ⟨p, hp, hcp⟩ := mem_keys_levelEntries.mp hmem
    exact chainAt_child hc hcp (h2 p hp)
  have hid : id ∉ (levelEntries st.Tree level).keys := by
    intro hmem
    exact acyclic_all hac id (revisits_of_loop (hnext id hmem))
  have hnd : (history.keys ++ (levelEntries st.Tree level).keys).Nodup := by
    refine List.nodup_append.mpr ⟨h3, nodup_levelEntries hwf hc level h1, ?_⟩
    intro c hc1 hc2
    obtain ⟨j, _, hjk, hj⟩ := h4 c hc1
    exact acyclic_all hac id (revisits_of_two_levels (by omega) hj (hnext c hc2))
  have hs := scanLevel_some st.Tree id level [] history hid hnd
  rw [List.nil_append] at hs
  refine ⟨hs, nodup_levelEntries hwf hc level h1, hnext, ?_, ?_⟩
  · unfold GoMap.NodupKeys
    rw [GoMap.keys_append]
    exact hnd
  · intro c hmem
    rw [GoMap.keys_append] at hmem
    rcases List.mem_append.mp hmem with hmem | hmem
    · obtain ⟨j, hj1, hjk, hj⟩ := h4 c hmem
      exact ⟨j, hj1, by omega, hj⟩
    · exact ⟨k + 1, by omega, by omega, hnext c hmem⟩

theorem levelInv_start (st : Forest D) (id : Nat) : LevelInv st id 0 [id] [] := by
  refine ⟨List.nodup_singleton _, ?_, List.nodup_nil, ?_⟩
  · intro x hx
    rw [List.mem_singleton.mp hx]
    rfl
  · intro c hc
    cases hc

/-- On a consistent acyclic forest the breadth-first loop returns: its
fatal branch is not taken, whatever the bound on the floors. -/
theorem floorLoop_returns {st : Forest D} (hwf : WF st) (hc : Consistent st)
    (hac : Acyclic st.Systems) (id : Nat) :
    ∀ (left k : Nat) (level : List Nat) (history : GoMap (System D)),
      LevelInv st id k level history →
      ∃ r, floorLoop st.Tree id left level history (k : Int) = some r := by
  intro left
  induction left with
  | zero =>
    intro k level history _
    exact ⟨_, rfl⟩
  | succ left ih =>
    intro k level history h
    obtain ⟨hs, hinv⟩ := levelInv_step hwf hc hac h
    by_cases hne : (levelEntries st.Tree level).keys = []
    · exact ⟨(history ++ levelEntries st.Tree level, (k : Int)), by
        simp [floorLoop, hs, hne]⟩
    · obtain ⟨r, hr⟩ := ih (k + 1) _ _ hinv
      refine ⟨r, ?_⟩
      simp only [floorLoop, hs, ne_eq, hne, not_false_eq_true, if_true]
      rw [← hr]
      simp

theorem getChilds_returns {st : Forest D} (hwf : WF st) (hc : Consistent st)
    (hac : Acyclic st.Systems) (id : Nat) (maxFloor : Int) :
    ∃ r, getChilds st id maxFloor = some r := by
  unfold getChilds
  exact floorLoop_returns hwf hc hac id _ 0 [id] [] (levelInv_start st id)

theorem scanBucket_queue {sysID : Nat} :
    ∀ (b : GoMap (System D)) (queue : List Nat) (history : GoMap (System D))
      (queue' : List Nat) (history' : GoMap (System D)),
      scanBucket sysID b queue history = some (queue', history') →
      ∀ x ∈ queue', x ∈ queue ∨ x ∈ b.keys := by
  intro b
  induction b with
  | nil =>
    intro queue history queue' history' h x hx
    simp only [scanBucket, Option.some.injEq, Prod.mk.injEq] at h
    exact Or.inl (h.1 ▸ hx)
  | cons e rest ih =>
    obtain ⟨cid, child⟩ := e
    intro queue history queue' history' h x hx
    by_cases hbad : cid = sysID ∨ (history.get cid).isSome = true
    · simp [scanBucket, hbad] at h
    · simp only [scanBucket, hbad, if_false] at h
      rcases ih _ _ _ _ h x hx with h1 | h1
      · rcases List.mem_append.mp h1 with h2 | h2
        · exact Or.inl h2
        · right
          simp only [List.mem_singleton] at h2
          simp [GoMap.keys, h2]
      · right
        simp only [GoMap.keys, List.map_cons, List.mem_cons]
        exact Or.inr h1

theorem scanLevel_queue (tree : GoMap (GoMap (System D))) (sysID : Nat) :
    ∀ (level queue : List Nat) (history : GoMap (System D))
      (queue' : List Nat) (history' : GoMap (System D)),
      scanLevel tree sysID level queue history = some (queue', history') →
      ∀ x ∈ queue', x ∈ queue ∨ ∃ p ∈ level, x ∈ (bucketOf tree p).keys := by
  intro level
  induction level with
  | nil =>
    intro queue history queue' history' h x hx
    simp only [scanLevel, Option.some.injEq, Prod.mk.injEq] at h
    exact Or.inl (h.1 ▸ hx)
  | cons p level ih =>
    intro queue history queue' history' h x hx
    cases hb : scanBucket sysID (bucketOf tree p) queue history with
    | none => simp [scanLevel, hb] at h
    | some r =>
      obtain ⟨q1, h1⟩ := r
      simp only [scanLevel, hb] at h
      rcases ih _ _ _ _ h x hx with h2 | ⟨p', hp', h2⟩
      · rcases scanBucket_queue _ _ _ _ _ hb x h2 with h3 | h3
        · exact Or.inl h3
        · exact Or.inr ⟨p, List.mem_cons_self _ _, h3⟩
      · exact Or.inr ⟨p', List.mem_cons_of_mem _ hp', h2⟩

theorem scanLevel_congr (tree tree' : GoMap (GoMap (System D))) (sysID : Nat) :
    ∀ (level queue : List Nat) (history : GoMap (System D)),
      (∀ p ∈ level, bucketOf tree' p = bucketOf tree p) →
      scanLevel tree' sysID level queue history = scanLevel tree sysID level queue history := by
  intro level
  induction level with
  | nil => intro queue history _; rfl
  | cons p level ih =>
    intro queue history h
    simp only [scanLevel, h p (List.mem_cons_self _ _)]
    cases scanBucket sysID (bucketOf tree p) queue history with
    | none => rfl
    | some r => exact ih _ _ (fun q hq => h q (List.mem_cons_of_mem _ hq))

/-- The breadth-first loop reads only the buckets of a set of identifiers
that holds the level and is closed under the child links of the adjacency
map; two adjacency maps that agree there give the same result. -/
theorem floorLoop_congr (tree tree' : GoMap (GoMap (System D))) (sysID : Nat)
    (S : Nat → Prop) (hS : ∀ p, S p → bucketOf tree' p = bucketOf tree p)
    (hcl : ∀ p c, S p → c ∈ (bucketOf tree p).keys → S c) :
    ∀ (left : Nat) (level : List Nat) (history : GoMap (System D)) (curFloor : Int),
      (∀ x ∈ level, S x) →
      floorLoop tree' sysID left level history curFloor =
        floorLoop tree sysID left level history curFloor := by
  intro left
  induction left with
  | zero => intro level history curFloor _; rfl
  | succ left ih =>
    intro level history curFloor hl
    have e := scanLevel_congr tree tree' sysID level [] history (fun p hp => hS p (hl p hp))
    simp only [floorLoop, e]
    cases hs : scanLevel tree sysID level [] history with
    | none => rfl
    | some r =>
      obtain ⟨next, history'⟩ := r
      simp only
      by_cases hne : next = []
      · simp [hne]
      · simp only [ne_eq, hne, not_false_eq_true, if_true]
        apply ih
        intro x hx
        rcases scanLevel_queue tree sysID level [] history next history' hs x hx with h1 | h1
        · cases h1
        · obtain ⟨p, hp, hxp⟩ := h1
          exact hcl p x (hl p hp) hxp

end Levels

/-! ## Delete does not cascade -/

section DeleteFrame

variable {D : Type}

theorem not_mem_keys_del {V : Type} {m : GoMap V} {k a : Nat} (h : a ∉ m.keys) :
    a ∉ (m.del k).keys :=
  fun hmem => h ((GoMap.keys_del_sublist m k).subset hmem)

/-- In an acyclic consistent forest no bucket lists its own identifier. -/
theorem not_mem_own_bucket {st : Forest D} (hc : Consistent st) (hac : Acyclic st.Systems)
    (p : Nat) : p ∉ (bucketOf st.Tree p).keys := by
  intro hmem
  obtain ⟨n, hn⟩ := mem_keys_bucketOf hmem
  obtain ⟨hg, hpar⟩ := (hc _ _ _).mp hn
  exact acyclic_all hac p (revisits_of_back_edge hg hpar (Reach.refl _ _))

/-- C9. Delete does not cascade: in a consistent acyclic forest, deleting a
stored node `X` succeeds and returns `X`; it changes the flat map at
`X.SysID` only and the adjacency map at `Tree[X.ParentSysID][X.SysID]` only,
so no bucket appears or disappears and the bucket `Tree[X.SysID]` is
untouched; `getChilds(X.SysID, k)` returns, for every bound `k` (0 is the
unbounded query), the same result as before; and
`GetChildSystems(X.ParentSysID)` is the former result without `X`. -/
theorem DelSystem_does_not_cascade (st : Forest D) (X : System D) (hwf : WF st)
    (hc : Consistent st) (hac : Acyclic st.Systems)
    (hX : st.Systems.get X.SysID = some X) :
    (DelSystem st X.SysID).1 = some X ∧ (DelSystem st X.SysID).2.1 = false ∧
    (∀ k, k ≠ X.SysID → (DelSystem st X.SysID).2.2.Systems.get k = st.Systems.get k) ∧
    (DelSystem st X.SysID).2.2.Systems.get X.SysID = none ∧
    (∀ p c, ¬ (p = X.ParentSysID ∧ c = X.SysID) →
      get2 (DelSystem st X.SysID).2.2.Tree p c = get2 st.Tree p c) ∧
    get2 (DelSystem st X.SysID).2.2.Tree X.ParentSysID X.SysID = none ∧
    (∀ p, ((DelSystem st X.SysID).2.2.Tree.get p).isSome = (st.Tree.get p).isSome) ∧
    (DelSystem st X.SysID).2.2.Tree.get X.SysID = st.Tree.get X.SysID ∧
    (∀ k, ∃ r, getChilds st X.SysID k = some r ∧
      getChilds (DelSystem st X.SysID).2.2 X.SysID k = some r) ∧
    (∃ M, GetChildSystems st X.ParentSysID = some M ∧
      GetChildSystems (DelSystem st X.SysID).2.2 X.ParentSysID = some (M.del X.SysID)) := by
  have hs : get2 st.Tree X.ParentSysID X.SysID = some X := (hc _ _ _).mpr ⟨hX, rfl⟩
  have hne : X.SysID ≠ X.ParentSysID := by
    intro e
    exact acyclic_all hac X.SysID (revisits_of_back_edge hX e.symm (Reach.refl _ _))
  cases hb : st.Tree.get X.ParentSysID with
  | none =>
    rw [get2, hb] at hs
    cases hs
  | some b =>
    have hbo : bucketOf st.Tree X.ParentSysID = b := by
      unfold bucketOf
      rw [hb]
      rfl
    have hwf' : WF (⟨st.Systems.del X.SysID,
        st.Tree.set X.ParentSysID (b.del X.SysID)⟩ : Forest D) := by
      have := wf_DelSystem hwf X.SysID
      rw [DelSystem_of_bucket hX hb] at this
      exact this
    rw [DelSystem_of_bucket hX hb]
    have hbucket : ∀ p, p ≠ X.ParentSysID →
        bucketOf (st.Tree.set X.ParentSysID (b.del X.SysID)) p = bucketOf st.Tree p := by
      intro p hp
      unfold bucketOf
      rw [GoMap.get_set_ne _ _ _ hp]
    have hbucket' : bucketOf (st.Tree.set X.ParentSysID (b.del X.SysID)) X.ParentSysID =
        b.del X.SysID := by
      unfold bucketOf
      rw [GoMap.get_set_self]
      rfl
    refine ⟨rfl, rfl, fun k hk => GoMap.get_del_ne _ _ hk, GoMap.get_del_self _ _, ?_, ?_,
      ?_, GoMap.get_set_ne _ _ _ hne, ?_, ?_⟩
    all_goals dsimp only
    · intro p c hpc
      rw [get2_set]
      by_cases hp : p = X.ParentSysID
      · subst hp
        have hcx : c ≠ X.SysID := fun e => hpc ⟨rfl, e⟩
        simp only [if_true]
        rw [GoMap.get_del_ne _ _ hcx, get2_of_get hb]
      · simp [hp]
    · rw [get2_set]
      simp [GoMap.get_del_self]
    · intro p
      rw [GoMap.get_set]
      by_cases hp : p = X.ParentSysID
      · simp [hp, hb]
      · simp [hp]
    · intro k
      obtain ⟨r, hr⟩ := getChilds_returns hwf hc hac X.SysID k
      refine ⟨r, hr, ?_⟩
      rw [← hr]
      unfold getChilds
      apply floorLoop_congr st.Tree _ X.SysID (fun p => Reach st.Systems p X.SysID)
      · intro p hp
        apply hbucket
        intro e
        subst e
        exact acyclic_all hac _ (revisits_of_back_edge hX rfl hp)
      · intro p c hp hcmem
        obtain ⟨n, hn⟩ := mem_keys_bucketOf hcmem
        obtain ⟨hg, hpar⟩ := (hc _ _ _).mp hn
        exact (hpar ▸ Reach.step hg).trans hp
      · intro x hx
        rw [List.mem_singleton.mp hx]
        exact Reach.refl _ _
    · have hown := not_mem_own_bucket hc hac X.ParentSysID
      refine ⟨b, ?_, ?_⟩
      · rw [← hbo]
        exact GetChildSystems_eq_bucket hwf hown
      · have hown' : X.ParentSysID ∉
            (bucketOf (st.Tree.set X.ParentSysID (b.del X.SysID)) X.ParentSysID).keys := by
          rw [hbucket']
          rw [hbo] at hown
          exact not_mem_keys_del hown
        have h2 := GetChildSystems_eq_bucket hwf' hown'
        dsimp only at h2
        rw [hbucket'] at h2
        exact h2

/-- Witness of C9 on the forest of the test after node 55 moved under 22:
deleting node 33 leaves 44 and 55 under 22, and after deleting 222 as well
`GetChildSystems(22)` still has 2 entries. -/
theorem DelSystem_does_not_cascade_witness :
    WF testForest2 ∧ Consistent testForest2 ∧ Acyclic testForest2.Systems ∧
    (DelSystem testForest2 33).1 = some ⟨33, 22, "bbb"⟩ ∧
    (∃ r, getChilds testForest2 33 0 = some r ∧
      getChilds (DelSystem testForest2 33).2.2 33 0 = some r) ∧
    (∃ M, GetChildSystems testForest2 22 = some M ∧ M.length = 3 ∧
      GetChildSystems (DelSystem testForest2 33).2.2 22 = some (M.del 33)) ∧
    (GetChildSystems (DelSystem (DelSystem testForest2 33).2.2 222).2.2 22).map List.length =
      some 2 := by
  have hcons : Consistent testForest2 :=
    consistent_AddSystem (consistent_addAll consistent_empty _) _
  have hac : Acyclic testForest2.Systems := acyclic_of_rank testRank (by decide)
  have h := DelSystem_does_not_cascade testForest2 ⟨33, 22, "bbb"⟩ (by decide) hcons hac
    (by decide)
  obtain ⟨h1, _, _, _, _, _, _, _, h9, M, hM, hM'⟩ := h
  refine ⟨by decide, hcons, hac, h1, h9 0, ⟨M, hM, ?_, hM'⟩, by decide⟩
  have e : GetChildSystems testForest2 22 =
      some [(33, ⟨33, 22, "bbb"⟩), (44, ⟨44, 22, "dddd"⟩), (55, ⟨55, 22, "rpc"⟩)] := by decide
  rw [e] at hM
  cases hM
  rfl

end DeleteFrame

/-! ## Replacement by a node that is not its own parent -/

section ReplaceValid

variable {D : Type}

theorem scanBucket_fatal_of_mem (sysID : Nat) :
    ∀ (b : GoMap (System D)) (queue : List Nat) (history : GoMap (System D)),
      sysID ∈ b.keys → scanBucket sysID b queue history = none := by
  intro b
  induction b with
  | nil =>
    intro queue history h
    simp [GoMap.keys] at h
  | cons e rest ih =>
    obtain ⟨cid, child⟩ := e
    intro queue history h
    by_cases hbad : cid = sysID ∨ (history.get cid).isSome = true
    · simp [scanBucket, hbad]
    · simp only [scanBucket, hbad, if_false]
      apply ih
      simp only [GoMap.keys, List.map_cons, List.mem_cons] at h
      rcases h with h | h
      · exact absurd (Or.inl h.symm) hbad
      · exact h

/-- When `GetChildSystems` returns, it returns the bucket of the identifier. -/
theorem GetChildSystems_some {st : Forest D} (hwf : WF st) {id : Nat} {M : GoMap (System D)}
    (h : GetChildSystems st id = some M) : M = bucketOf st.Tree id := by
  by_cases hid : id ∈ (bucketOf st.Tree id).keys
  · exfalso
    have hb := scanBucket_fatal_of_mem id (bucketOf st.Tree id) [] ([] : GoMap (System D)) hid
    have e : (if (1 : Int) ≤ 0 then (2147483647 : Int) else 1).toNat = 0 + 1 := by decide
    unfold GetChildSystems getChilds at h
    simp only [e, floorLoop, scanLevel, hb] at h
    cases h
  · rw [GetChildSystems_eq_bucket hwf hid] at h
    cases h
    rfl

theorem addCommit_nil {st : Forest D} {s : System D} (h : (addCommit st s).1 = .nil) :
    (∃ hs, addWalk st.Systems s.SysID (st.Systems.length + 1) [s.ParentSysID]
      (st.Systems.get s.ParentSysID) = .finished hs) ∧
    (addCommit st s).2 =
      ⟨st.Systems.set s.SysID s,
        st.Tree.set s.ParentSysID ((bucketOf st.Tree s.ParentSysID).set s.SysID s)⟩ := by
  unfold addCommit at h ⊢
  cases hw : addWalk st.Systems s.SysID (st.Systems.length + 1) [s.ParentSysID]
      (st.Systems.get s.ParentSysID) with
  | cycle pid => rw [hw] at h; cases h
  | exhausted => rw [hw] at h; cases h
  | finished hs => exact ⟨⟨hs, rfl⟩, rfl⟩

/-- Replacement semantics for a replacement that is not its own parent: in a
consistent forest that stores `n`, when `AddSystem(n')` with the identifier
of `n` returns nil, `n'` is what `GetSystem` returns, `GetChildSystems` of
the new parent returns a map that holds `n'`, the number of nodes is
unchanged, and what `GetChildSystems` of a different old parent returns
does not hold the identifier. -/
theorem AddSystem_replace_of_valid [GoPayload D] [ComparablePayload D] (st : Forest D) (n n' : System D)
    (hwf : WF st) (hc : Consistent st) (hn : st.Systems.get n.SysID = some n)
    (hid : n'.SysID = n.SysID) (hne : n' ≠ n) (hv : n'.SysID ≠ n'.ParentSysID)
    (hnil : (AddSystem st n').1 = .nil) :
    GetSystem (AddSystem st n').2 n.SysID = some n' ∧
    (∃ M, GetChildSystems (AddSystem st n').2 n'.ParentSysID = some M ∧
      M.get n.SysID = some n') ∧
    getNodeNum (AddSystem st n').2 = getNodeNum st ∧
    (n'.ParentSysID ≠ n.ParentSysID →
      ∀ M, GetChildSystems (AddSystem st n').2 n.ParentSysID = some M →
        M.get n.SysID = none) := by
  have hwf2 := wf_AddSystem hwf n'
  have hn' : st.Systems.get n'.SysID = some n := by rw [hid]; exact hn
  rcases AddSystem_cases st n' with ⟨h1, _⟩ | ⟨h1, _⟩ | ⟨old, hold, _, e⟩
  · rw [hn'] at h1
    cases h1
    exact absurd rfl hne
  · rw [hn'] at h1
    cases h1
  · rw [e] at hnil hwf2 ⊢
    have hc1 : Consistent (DelSystem st n'.SysID).2.2 := consistent_DelSystem hc _
    have hs1 : (DelSystem st n'.SysID).2.2.Systems = st.Systems.del n'.SysID :=
      DelSystem_systems hold
    have hnone : (DelSystem st n'.SysID).2.2.Systems.get n'.SysID = none := by
      rw [hs1]; exact GoMap.get_del_self _ _
    obtain ⟨⟨hs, hw⟩, hst⟩ := addCommit_nil hnil
    rw [hst] at hwf2 ⊢
    have hown : n'.ParentSysID ∉
        (bucketOf (DelSystem st n'.SysID).2.2.Tree n'.ParentSysID).keys := by
      intro hmem
      obtain ⟨g, hg⟩ := mem_keys_bucketOf hmem
      obtain ⟨hg1, hg2⟩ := (hc1 _ _ _).mp hg
      rw [hg1] at hw
      simp [addWalk, hg2] at hw
    have hbk : ∀ (t : GoMap (GoMap (System D))) (b : GoMap (System D)) (p : Nat),
        bucketOf (t.set p b) p = b := by
      intro t b p
      unfold bucketOf
      rw [GoMap.get_set_self]
      rfl
    refine ⟨?_, ?_, ?_, ?_⟩
    · unfold GetSystem
      rw [← hid]
      exact GoMap.get_set_self _ _ _
    · refine ⟨_, GetChildSystems_eq_bucket hwf2 ?_, ?_⟩
      · dsimp only
        rw [hbk, GoMap.mem_keys_set]
        rintro (h | h)
        · exact hv h.symm
        · exact hown h
      · dsimp only
        rw [hbk, ← hid]
        exact GoMap.get_set_self _ _ _
    · unfold getNodeNum
      dsimp only
      rw [hs1, GoMap.length_set_of_get_none n' (GoMap.get_del_self _ _)]
      have := GoMap.length_del_of_get hwf.1 hold
      omega
    · intro hp M hM
      have := GetChildSystems_some hwf2 hM
      dsimp only at this
      have hb : bucketOf ((DelSystem st n'.SysID).2.2.Tree.set n'.ParentSysID
          ((bucketOf (DelSystem st n'.SysID).2.2.Tree n'.ParentSysID).set n'.SysID n'))
          n.ParentSysID = bucketOf (DelSystem st n'.SysID).2.2.Tree n.ParentSysID := by
        unfold bucketOf
        rw [GoMap.get_set_ne _ _ _ (fun e => hp e.symm)]
      rw [this, hb, get_bucketOf, ← hid]
      cases hg : get2 (DelSystem st n'.SysID).2.2.Tree n.ParentSysID n'.SysID with
      | none => rfl
      | some g =>
        have := ((hc1 _ _ _).mp hg).1
        rw [hnone] at this
        cases this

end ReplaceValid

/-! ## Duplicate re-add -/

section Duplicate

variable {D : Type}

/-- Every way `AddSystem` stops at its duplicate test, for every payload
type.  The duplicate-add diagnostic path (the `log.Fatalf` of line 118) is
taken exactly when the flat map stores, at `s.SysID`, a node with the
`SysID` and the `ParentSysID` of `s` whose payload Go's `!=` finds not
different from that of `s`.  The call panics exactly when that comparison
panics.  On both paths the two maps are unchanged, and neither is the cycle
error. -/
theorem AddSystem_duplicate_paths [GoPayload D] (st : Forest D) (s : System D) :
    ((AddSystem st s).1 = .fatal ↔
      ∃ old, st.Systems.get s.SysID = some old ∧ old.SysID = s.SysID ∧
        old.ParentSysID = s.ParentSysID ∧
        GoPayload.ne old.UsrData s.UsrData = some false) ∧
    ((AddSystem st s).1 = .panicked ↔
      ∃ old, st.Systems.get s.SysID = some old ∧ old.SysID = s.SysID ∧
        old.ParentSysID = s.ParentSysID ∧
        GoPayload.ne old.UsrData s.UsrData = none) ∧
    ((AddSystem st s).1 = .fatal ∨ (AddSystem st s).1 = .panicked →
      (AddSystem st s).2 = st) := by
  have hcommit : ∀ st1 : Forest D,
      (addCommit st1 s).1 ≠ .fatal ∧ (addCommit st1 s).1 ≠ .panicked := by
    intro st1
    unfold addCommit
    cases addWalk st1.Systems s.SysID (st1.Systems.length + 1) [s.ParentSysID]
        (st1.Systems.get s.ParentSysID) <;>
      exact ⟨fun h => AddResult.noConfusion h, fun h => AddResult.noConfusion h⟩
  rcases AddSystem_paths st s with ⟨old, hg, ⟨he, e⟩ | ⟨he, e⟩⟩ | ⟨hg, e⟩ | ⟨old, hg, he, e⟩
  · have hp := (isEqualTo_spec old s).2.1.mp he
    rw [e, hg]
    refine ⟨⟨fun h => AddResult.noConfusion h, ?_⟩, ⟨fun _ => ⟨old, rfl, hp⟩, fun _ => rfl⟩,
      fun _ => rfl⟩
    rintro ⟨o, ho, _, _, hne⟩
    cases ho
    rw [hp.2.2] at hne
    cases hne
  · have hp := (isEqualTo_spec old s).1.mp he
    rw [e, hg]
    refine ⟨⟨fun _ => ⟨old, rfl, hp⟩, fun _ => rfl⟩, ⟨fun h => AddResult.noConfusion h, ?_⟩,
      fun _ => rfl⟩
    rintro ⟨o, ho, _, _, hne⟩
    cases ho
    rw [hp.2.2] at hne
    cases hne
  · rw [e, hg]
    refine ⟨⟨fun h => absurd h (hcommit st).1, ?_⟩, ⟨fun h => absurd h (hcommit st).2, ?_⟩, ?_⟩
    · rintro ⟨o, ho, _⟩
      cases ho
    · rintro ⟨o, ho, _⟩
      cases ho
    · rintro (h | h)
      · exact absurd h (hcommit st).1
      · exact absurd h (hcommit st).2
  · have hp := (isEqualTo_spec old s).2.2.mp he
    rw [e, hg]
    refine ⟨⟨fun h => absurd h (hcommit _).1, ?_⟩, ⟨fun h => absurd h (hcommit _).2, ?_⟩, ?_⟩
    · rintro ⟨o, ho, h1, h2, h3⟩
      cases ho
      rcases hp with h | h | h
      · exact absurd h1 h
      · exact absurd h2 h
      · rw [h3] at h
        cases h
    · rintro ⟨o, ho, h1, h2, h3⟩
      cases ho
      rcases hp with h | h | h
      · exact absurd h1 h
      · exact absurd h2 h
      · rw [h3] at h
        cases h
    · rintro (h | h)
      · exact absurd h (hcommit _).1
      · exact absurd h (hcommit _).2

/-- Duplicate re-add on a comparable payload type: `AddSystem(s)` takes its
duplicate-add diagnostic path (the `log.Fatalf` of line 118) exactly when the
flat map stores, at `s.SysID`, a node equal to `s` in `SysID`, `ParentSysID`
and `UsrData`; never for a new identifier and never for a stored node that
differs.  On that path the two maps are unchanged and no cycle error is
reported, and the call never panics. -/
theorem AddSystem_duplicate_iff [GoPayload D] [ComparablePayload D] (st : Forest D)
    (s : System D) :
    (AddSystem st s).1 ≠ .panicked ∧
    ((AddSystem st s).1 = .fatal ↔ st.Systems.get s.SysID = some s) ∧
    (st.Systems.get s.SysID = some s →
      AddSystem st s = (.fatal, st) ∧ (AddSystem st s).1 ≠ .cycleError) ∧
    (st.Systems.get s.SysID = none → (AddSystem st s).1 ≠ .fatal) ∧
    (∀ old, st.Systems.get s.SysID = some old →
      (old.ParentSysID ≠ s.ParentSysID ∨ old.UsrData ≠ s.UsrData) →
      (AddSystem st s).1 ≠ .fatal) := by
  have hcommit : ∀ st1 : Forest D, (addCommit st1 s).1 ≠ .fatal := by
    intro st1
    unfold addCommit
    cases addWalk st1.Systems s.SysID (st1.Systems.length + 1) [s.ParentSysID]
        (st1.Systems.get s.ParentSysID) <;> exact fun h => AddResult.noConfusion h
  have hiff : (AddSystem st s).1 = .fatal ↔ st.Systems.get s.SysID = some s := by
    rcases AddSystem_cases st s with ⟨h1, e⟩ | ⟨h1, e⟩ | ⟨old, h1, h2, e⟩
    · rw [e]
      exact ⟨fun _ => h1, fun _ => rfl⟩
    · rw [e, h1]
      exact ⟨fun h => absurd h (hcommit st), fun h => Option.noConfusion h⟩
    · rw [e, h1]
      refine ⟨fun h => absurd h (hcommit _), fun h => ?_⟩
      cases h
      exact absurd rfl h2
  refine ⟨?_, hiff, ?_, ?_, ?_⟩
  · intro hp
    obtain ⟨old, _, _, _, hne⟩ := (AddSystem_duplicate_paths st s).2.1.mp hp
    by_cases h : old.UsrData = s.UsrData
    · rw [h, ComparablePayload.ne_self] at hne
      cases hne
    · rw [ComparablePayload.ne_of_ne _ _ h] at hne
      cases hne
  · intro h
    rcases AddSystem_cases st s with ⟨_, e⟩ | ⟨h1, _⟩ | ⟨old, h1, h2, _⟩
    · rw [e]
      exact ⟨rfl, fun h => AddResult.noConfusion h⟩
    · rw [h] at h1
      cases h1
    · rw [h] at h1
      cases h1
      exact absurd rfl h2
  · intro h hf
    rw [hiff.mp hf] at h
    cases h
  · intro old hold hdiff hf
    rw [hiff.mp hf] at hold
    cases hold
    rcases hdiff with h | h <;> exact h rfl

/-- On the forest of the test, whose payloads are strings, adding
`{22, 11, "aaa"}` again is the duplicate; the same identifier with another
payload is not. -/
theorem AddSystem_duplicate_iff_witness :
    testForest.Systems.get 22 = some ⟨22, 11, "aaa"⟩ ∧
    AddSystem testForest ⟨22, 11, "aaa"⟩ = (.fatal, testForest) ∧
    (AddSystem testForest ⟨22, 11, "aaa"⟩).1 ≠ .cycleError ∧
    (AddSystem testForest ⟨22, 11, "zzz"⟩).1 ≠ .fatal :=
  ⟨by decide,
    ((AddSystem_duplicate_iff testForest ⟨22, 11, "aaa"⟩).2.2.1 (by decide)).1,
    ((AddSystem_duplicate_iff testForest ⟨22, 11, "aaa"⟩).2.2.1 (by decide)).2,
    (AddSystem_duplicate_iff testForest ⟨22, 11, "zzz"⟩).2.2.2.2 ⟨22, 11, "aaa"⟩ (by decide)
      (Or.inr (by decide))⟩

/-- C16. Duplicate re-add does not hold on the code for a payload of an
uncomparable dynamic type.  The forest stores the single node `objNode`,
whose payload is a decoded JSON object, a Go map.  `AddSystem` of that same
node finds the stored node, compares the two payloads at line 28, and the
comparison panics: the duplicate-add diagnostic path (the `log.Fatalf` of
line 118) is not taken, where the claim says it is taken for every stored
node.  With the string payloads of the test the same re-add does take that
path. -/
theorem duplicate_readd_of_map_payload_not_diagnosed :
    GetSystem objForest 1 = some objNode ∧
    objNode.isEqualTo objNode = none ∧
    AddSystem objForest objNode = (.panicked, objForest) ∧
    (AddSystem objForest objNode).1 ≠ .fatal ∧
    AddSystem testForest ⟨22, 11, "aaa"⟩ = (.fatal, testForest) :=
  ⟨rfl, rfl, rfl, by decide, by decide⟩

end Duplicate

/-! ## Depth -/

section Depth

variable {D : Type}

theorem deepWalk_none (sys : GoMap (System D)) (fuel : Nat) (history : List Nat) (deep : Int) :
    deepWalk sys fuel history deep none = .value deep := by
  cases fuel <;> rfl

theorem keyed_get {m : GoMap (System D)} (hk : KeyedByID m) {k : Nat} {n : System D}
    (h : m.get k = some n) : n.SysID = k :=
  hk (k, n) (GoMap.mem_of_get h)

theorem chainAt_succ_none {m : GoMap (System D)} {x z : Nat} {d : Nat}
    (h : chainAt m x d = some z) (hz : m.get z = none) : chainAt m x (d + 1) = none := by
  rw [chainAt_add m x d 1 h, chainAt_of_get_none hz]

theorem chainAt_none_mono {m : GoMap (System D)} {x : Nat} {i : Nat}
    (h : chainAt m x i = none) : ∀ j, i ≤ j → chainAt m x j = none := by
  intro j hij
  obtain ⟨t, rfl⟩ : ∃ t, j = i + t := ⟨j - i, by omega⟩
  clear hij
  induction t with
  | zero => exact h
  | succ t ih =>
    have e : i + (t + 1) = (i + t) + 1 := by omega
    rw [e]
    show (match chainAt m x (i + t) with
      | none => none
      | some y =>
        match m.get y with
        | none => none
        | some n => some n.ParentSysID) = none
    rw [ih]

/-- Number of links up to the first identifier without a node is unique. -/
theorem chain_end_unique {m : GoMap (System D)} {x z z' : Nat} {d d' : Nat}
    (h : chainAt m x d = some z) (hz : m.get z = none)
    (h' : chainAt m x d' = some z') (hz' : m.get z' = none) : d' = d := by
  rcases Nat.lt_trichotomy d d' with hlt | heq | hgt
  · have := chainAt_none_mono (chainAt_succ_none h hz) d' (by omega)
    rw [this] at h'
    cases h'
  · exact heq.symm
  · have := chainAt_none_mono (chainAt_succ_none h' hz') d (by omega)
    rw [this] at h
    cases h

/-- Specification of the loop of `getNodeDeep` on an acyclic flat map keyed
by identifier: it never runs out of fuel, never takes the fatal branch, and
adds to the counter the number of links from the current identifier to the
first identifier without a node. -/
theorem deepWalk_spec (m : GoMap (System D)) (hac : ∀ x, ¬ Revisits m x) (hk : KeyedByID m) :
    ∀ (fuel : Nat) (history : List Nat) (cur : Nat) (deep : Int),
      (∀ h ∈ history, ∃ t, chainAt m h (t + 1) = some cur) → history.Nodup →
      (∀ h ∈ history, (m.get h).isSome = true) →
      m.length < fuel + history.length →
      ∃ (e : Nat) (z : Nat), deepWalk m fuel history deep (m.get cur) = .value (deep + (e : Int)) ∧
        chainAt m cur e = some z ∧ m.get z = none := by
  intro fuel
  induction fuel with
  | zero =>
    intro history cur deep _ hnd hsome hfuel
    exfalso
    have := GoMap.length_le_of_nodup_stored hnd hsome
    omega
  | succ fuel ih =>
    intro history cur deep hreach hnd hsome hfuel
    cases hg : m.get cur with
    | none => exact ⟨0, cur, by simp [deepWalk_none], rfl, hg⟩
    | some n =>
      have hid : n.SysID = cur := keyed_get hk hg
      have hnew : cur ∉ history := by
        intro hmem
        obtain ⟨t, ht⟩ := hreach cur hmem
        exact hac cur (revisits_of_loop ht)
      have hstep : deepWalk m (fuel + 1) history deep (some n) =
          deepWalk m fuel (cur :: history) (deep + 1) (m.get n.ParentSysID) := by
        simp [deepWalk, hid, hnew]
      obtain ⟨e, z, h1, h2, h3⟩ := ih (cur :: history) n.ParentSysID (deep + 1)
        (by
          intro h hh
          rcases List.mem_cons.mp hh with rfl | hh
          · exact ⟨0, by rw [chainAt_of_get hg]; rfl⟩
          · obtain ⟨t, ht⟩ := hreach h hh
            refine ⟨t + 1, ?_⟩
            rw [chainAt_add m h (t + 1) 1 ht, chainAt_of_get hg]
            rfl)
        (List.nodup_cons.mpr ⟨hnew, hnd⟩)
        (by
          intro h hh
          rcases List.mem_cons.mp hh with rfl | hh
          · simp [hg]
          · exact hsome h hh)
        (by simp only [List.length_cons]; omega)
      refine ⟨e + 1, z, ?_, ?_, h3⟩
      · rw [hstep, h1]
        congr 1
        push_cast
        ring
      · rw [chainAt_of_get hg]
        exact h2

/-- C13. Depth: on a forest whose flat map is acyclic and keyed by
identifier, `getNodeDeep(id)` is -1 when `id` has no node and no bucket, 0
when it has no node but a bucket, and otherwise the number `d` of
`ParentSysID` links followed from the node until an identifier with no node is
reached (that number is unique and at least 1; it is 1 when the parent has no
node). -/
theorem getNodeDeep_spec (st : Forest D) (id : Nat) (hac : Acyclic st.Systems)
    (hk : KeyedByID st.Systems) :
    (st.Systems.get id = none → st.Tree.get id = none → getNodeDeep st id = .value (-1)) ∧
    (st.Systems.get id = none → st.Tree.get id ≠ none → getNodeDeep st id = .value 0) ∧
    (∀ n, st.Systems.get id = some n →
      ∃ (d : Nat) (z : Nat), getNodeDeep st id = .value (d : Int) ∧ 1 ≤ d ∧
        chainAt st.Systems id d = some z ∧ st.Systems.get z = none ∧
        ∀ d' z', chainAt st.Systems id d' = some z' → st.Systems.get z' = none → d' = d) ∧
    (∀ n, st.Systems.get id = some n → st.Systems.get n.ParentSysID = none →
      getNodeDeep st id = .value 1) := by
  refine ⟨?_, ?_, ?_, ?_⟩
  · intro h1 h2
    simp [getNodeDeep, h1, h2]
  · intro h1 h2
    cases hb : st.Tree.get id with
    | none => exact absurd hb h2
    | some b => simp [getNodeDeep, h1, hb]
  · intro n hg
    have hid : n.SysID = id := keyed_get hk hg
    obtain ⟨e, z, h1, h2, h3⟩ := deepWalk_spec st.Systems (acyclic_all hac) hk
      (st.Systems.length + 1) [id] n.ParentSysID 1
      (by
        intro h hh
        rw [List.mem_singleton.mp hh]
        exact ⟨0, by rw [chainAt_of_get hg]; rfl⟩)
      (List.nodup_singleton _)
      (by
        intro h hh
        rw [List.mem_singleton.mp hh]
        simp [hg])
      (by simp only [List.length_singleton]; omega)
    have hc : chainAt st.Systems id (e + 1) = some z := by
      rw [chainAt_of_get hg]; exact h2
    refine ⟨e + 1, z, ?_, by omega, hc, h3, fun d' z' h h' => chain_end_unique hc h3 h h'⟩
    unfold getNodeDeep
    rw [hg]
    simp only [hid]
    rw [h1]
    congr 1
    push_cast
    ring
  · intro n hg hp
    unfold getNodeDeep
    rw [hg]
    simp only [hp, deepWalk_none]

/-- Witness of C13 on the chain anchor 0, `A = 1`, `B = 2`, `C = 3` of the
spec: `getNodeDeep(C) = 3`, `getNodeDeep(A) = 1`, the anchor has depth 0 and
an unknown identifier has depth -1. -/
theorem getNodeDeep_spec_witness :
    Acyclic abcForest.Systems ∧ KeyedByID abcForest.Systems ∧
    getNodeDeep abcForest 3 = .value 3 ∧ getNodeDeep abcForest 1 = .value 1 ∧
    getNodeDeep abcForest 0 = .value 0 ∧ getNodeDeep abcForest 9 = .value (-1) ∧
    ∃ (d : Nat) (z : Nat), getNodeDeep abcForest 3 = .value (d : Int) ∧ 1 ≤ d ∧
      chainAt abcForest.Systems 3 d = some z ∧ abcForest.Systems.get z = none ∧
      ∀ d' z', chainAt abcForest.Systems 3 d' = some z' →
        abcForest.Systems.get z' = none → d' = d := by
  have hac : Acyclic abcForest.Systems := acyclic_of_rank (fun x => x) (by decide)
  have h := getNodeDeep_spec abcForest 3 hac (by decide)
  exact ⟨hac, by decide, by decide, by decide, by decide, by decide,
    h.2.2.1 ⟨3, 2, "C"⟩ (by decide)⟩

end Depth

/-! ## The defensive branches -/

section Defensive

variable {D : Type}

/-- On an acyclic flat map keyed by identifier `getNodeDeep` returns a depth. -/
theorem getNodeDeep_returns {st : Forest D} (hac : Acyclic st.Systems)
    (hk : KeyedByID st.Systems) (id : Nat) : ∃ d, getNodeDeep st id = .value d := by
  cases hg : st.Systems.get id with
  | none =>
    unfold getNodeDeep
    rw [hg]
    by_cases hb : (st.Tree.get id).isSome = true
    · exact ⟨0, by simp [hb]⟩
    · exact ⟨-1, by simp [hb]⟩
  | some n =>
    have hid : n.SysID = id := keyed_get hk hg
    obtain ⟨e, z, h1, _, _⟩ := deepWalk_spec st.Systems (acyclic_all hac) hk
      (st.Systems.length + 1) [id] n.ParentSysID 1
      (by
        intro h hh
        rw [List.mem_singleton.mp hh]
        exact ⟨0, by rw [chainAt_of_get hg]; rfl⟩)
      (List.nodup_singleton _)
      (by
        intro h hh
        rw [List.mem_singleton.mp hh]
        simp [hg])
      (by simp only [List.length_singleton]; omega)
    refine ⟨1 + (e : Int), ?_⟩
    unfold getNodeDeep
    rw [hg]
    simp only [hid]
    exact h1

/-- C17. The defensive cycle branches are unreachable on a well-formed
forest: when the two maps are consistent and the flat map is acyclic (and
keyed by identifier, each map holding each key once), `getChilds(id, k)`
returns for every identifier and bound, so it never meets a child equal to
the start or already collected, and `getNodeDeep(id)` returns a depth, so it
never meets an ancestor already visited. -/
theorem defensive_branches_unreachable (st : Forest D) (id : Nat) (k : Int) (hwf : WF st)
    (hc : Consistent st) (hac : Acyclic st.Systems) (hk : KeyedByID st.Systems) :
    (∃ r, getChilds st id k = some r) ∧ getChilds st id k ≠ none ∧
    (∃ d, getNodeDeep st id = .value d) ∧ getNodeDeep st id ≠ .fatal := by
  obtain ⟨r, hr⟩ := getChilds_returns hwf hc hac id k
  obtain ⟨d, hd⟩ := getNodeDeep_returns hac hk id
  refine ⟨⟨r, hr⟩, ?_, ⟨d, hd⟩, ?_⟩
  · rw [hr]
    exact fun h => Option.noConfusion h
  · rw [hd]
    exact fun h => DeepResult.noConfusion h

/-- Witness of C17 on the forest of the test. -/
theorem defensive_branches_unreachable_witness :
    WF testForest ∧ Consistent testForest ∧ Acyclic testForest.Systems ∧
    KeyedByID testForest.Systems ∧
    (∃ r, getChilds testForest 11 0 = some r) ∧ getChilds testForest 11 0 ≠ none ∧
    (∃ d, getNodeDeep testForest 33 = .value d) ∧ getNodeDeep testForest 33 ≠ .fatal :=
  ⟨by decide, consistent_addAll consistent_empty _, acyclic_of_rank testRank (by decide),
    by decide,
    defensive_branches_unreachable testForest 11 0 (by decide)
      (consistent_addAll consistent_empty _) (acyclic_of_rank testRank (by decide))
      (by decide) |>.1,
    by decide,
    defensive_branches_unreachable testForest 33 0 (by decide)
      (consistent_addAll consistent_empty _) (acyclic_of_rank testRank (by decide))
      (by decide) |>.2.2⟩

end Defensive

/-! ## Totality of the walks -/

section Totality

variable {D : Type}

/-- The loop of `AddSystem` never uses up its fuel, whatever the flat map. -/
theorem addWalk_total (m : GoMap (System D)) (sid : Nat) :
    ∀ (fuel : Nat) (history : List Nat) (cur : Nat),
      history.Nodup →
      (∀ h ∈ history, (m.get cur).isSome = true → (m.get h).isSome = true) →
      m.length < fuel + history.length →
      addWalk m sid fuel history (m.get cur) ≠ .exhausted := by
  intro fuel
  induction fuel with
  | zero =>
    intro history cur hnd hsome hfuel
    cases hg : m.get cur with
    | none => rw [addWalk_none]; exact fun h => WalkResult.noConfusion h
    | some n =>
      exfalso
      have := GoMap.length_le_of_nodup_stored hnd (fun a ha => hsome a ha (by simp [hg]))
      omega
  | succ fuel ih =>
    intro history cur hnd hsome hfuel
    cases hg : m.get cur with
    | none => rw [addWalk_none]; exact fun h => WalkResult.noConfusion h
    | some n =>
      by_cases hbad : n.ParentSysID = sid ∨ n.ParentSysID ∈ history
      · simp [addWalk, hbad]
      · have hstep : addWalk m sid (fuel + 1) history (some n) =
            addWalk m sid fuel (n.ParentSysID :: history) (m.get n.ParentSysID) := by
          simp [addWalk, hbad]
        rw [hstep]
        have hcur : (m.get cur).isSome = true := by simp [hg]
        refine ih _ _ (List.nodup_cons.mpr ⟨fun h => hbad (Or.inr h), hnd⟩) ?_
          (by simp only [List.length_cons]; omega)
        intro h hh hs
        rcases List.mem_cons.mp hh with rfl | hh
        · exact hs
        · exact hsome h hh hcur

theorem addCommit_total (st : Forest D) (s : System D) : (addCommit st s).1 ≠ .exhausted := by
  have := addWalk_total st.Systems s.SysID (st.Systems.length + 1) [s.ParentSysID]
    s.ParentSysID (List.nodup_singleton _)
    (by intro h hh hs; rw [List.mem_singleton.mp hh]; exact hs)
    (by simp only [List.length_singleton]; omega)
  unfold addCommit
  cases hw : addWalk st.Systems s.SysID (st.Systems.length + 1) [s.ParentSysID]
      (st.Systems.get s.ParentSysID) with
  | cycle pid => exact fun h => AddResult.noConfusion h
  | exhausted => exact absurd hw this
  | finished hs => exact fun h => AddResult.noConfusion h

theorem AddSystem_total [GoPayload D] (st : Forest D) (s : System D) :
    (AddSystem st s).1 ≠ .exhausted := by
  rcases AddSystem_paths st s with ⟨_, _, ⟨_, e⟩ | ⟨_, e⟩⟩ | ⟨_, e⟩ | ⟨old, _, _, e⟩
  · rw [e]; exact fun h => AddResult.noConfusion h
  · rw [e]; exact fun h => AddResult.noConfusion h
  · rw [e]; exact addCommit_total st s
  · rw [e]; exact addCommit_total _ s

/-- The inner loop of `checkCircle` never uses up its fuel, whatever the flat
map: all identifiers of the history but the first one put in are distinct
stored keys. -/
theorem circleWalk_total (m : GoMap (System D)) (done : List Nat) :
    ∀ (fuel : Nat) (front : List Nat) (base cur : Nat),
      front.Nodup →
      (∀ h ∈ front, (m.get cur).isSome = true → (m.get h).isSome = true) →
      m.length < fuel + front.length →
      circleWalk m done fuel (front ++ [base]) (m.get cur) ≠ .exhausted := by
  intro fuel
  induction fuel with
  | zero =>
    intro front base cur hnd hsome hfuel
    cases hg : m.get cur with
    | none => rw [circleWalk_none]; exact fun h => WalkResult.noConfusion h
    | some n =>
      exfalso
      have := GoMap.length_le_of_nodup_stored hnd (fun a ha => hsome a ha (by simp [hg]))
      omega
  | succ fuel ih =>
    intro front base cur hnd hsome hfuel
    cases hg : m.get cur with
    | none => rw [circleWalk_none]; exact fun h => WalkResult.noConfusion h
    | some n =>
      by_cases hd : n.ParentSysID ∈ done
      · simp [circleWalk, hd]
      · by_cases hmem : n.ParentSysID ∈ front ++ [base]
        · simp [circleWalk, hd, hmem]
        · have hstep : circleWalk m done (fuel + 1) (front ++ [base]) (some n) =
              circleWalk m done fuel ((n.ParentSysID :: front) ++ [base])
                (m.get n.ParentSysID) := by
            simp only [circleWalk, hd, hmem, if_false, List.cons_append]
          rw [hstep]
          have hcur : (m.get cur).isSome = true := by simp [hg]
          refine ih _ _ _
            (List.nodup_cons.mpr ⟨fun h => hmem (List.mem_append_left _ h), hnd⟩) ?_
            (by simp only [List.length_cons]; omega)
          intro h hh hs
          rcases List.mem_cons.mp hh with rfl | hh
          · exact hs
          · exact hsome h hh hcur

theorem circleLoop_total (m : GoMap (System D)) :
    ∀ (rest : List (Nat × System D)) (done : List Nat),
      circleLoop m rest done ≠ .exhausted := by
  intro rest
  induction rest with
  | nil => intro done; exact fun h => AddResult.noConfusion h
  | cons x rest ih =>
    obtain ⟨id, s⟩ := x
    intro done
    by_cases hin : id ∈ done
    · simp only [circleLoop, hin, if_true]
      exact ih done
    · by_cases hv : s.isValid = true
      · by_cases hp : s.ParentSysID ∈ done
        · simp only [circleLoop, hin, hv, hp, if_true, if_false, Bool.not_true,
            Bool.false_eq_true]
          exact ih _
        · have hw := circleWalk_total m done (m.length + 1) [s.ParentSysID] id
            s.ParentSysID (List.nodup_singleton _)
            (by intro h hh hs; rw [List.mem_singleton.mp hh]; exact hs)
            (by simp only [List.length_singleton]; omega)
          simp only [List.singleton_append] at hw
          simp only [circleLoop, hin, hv, hp, if_false, Bool.not_true, Bool.false_eq_true]
          cases hc : circleWalk m done (m.length + 1) [s.ParentSysID, id]
              (m.get s.ParentSysID) with
          | cycle pid => exact fun h => AddResult.noConfusion h
          | exhausted => exact absurd hc hw
          | finished hs => exact ih _
      · have hv' : s.isValid = false := by
          cases h : s.isValid with
          | false => rfl
          | true => exact absurd h hv
        simp [circleLoop, hin, hv']

/-- The loop of `getNodeDeep` never uses up its fuel, whatever the flat map:
the history holds distinct `SysID`s of stored nodes. -/
theorem deepWalk_total (m : GoMap (System D)) :
    ∀ (fuel : Nat) (history : List Nat) (deep : Int) (parent : Option (System D)),
      history.Nodup →
      (∀ h ∈ history, h ∈ m.map (fun e => e.2.SysID)) →
      (∀ p, parent = some p → ∃ k, m.get k = some p) →
      m.length < fuel + history.length →
      deepWalk m fuel history deep parent ≠ .exhausted := by
  intro fuel
  induction fuel with
  | zero =>
    intro history deep parent hnd hsub _ hfuel
    exfalso
    have := (List.Nodup.subperm hnd hsub).length_le
    simp only [List.length_map] at this
    omega
  | succ fuel ih =>
    intro history deep parent hnd hsub hstored hfuel
    cases parent with
    | none => rw [deepWalk_none]; exact fun h => DeepResult.noConfusion h
    | some p =>
      by_cases hmem : p.SysID ∈ history
      · simp [deepWalk, hmem]
      · simp only [deepWalk, hmem, if_false]
        obtain ⟨k, hk⟩ := hstored p rfl
        refine ih _ _ _ (List.nodup_cons.mpr ⟨hmem, hnd⟩) ?_ ?_
          (by simp only [List.length_cons]; omega)
        · intro h hh
          rcases List.mem_cons.mp hh with rfl | hh
          · exact List.mem_map.mpr ⟨(k, p), GoMap.mem_of_get hk, rfl⟩
          · exact hsub h hh
        · intro q hq
          exact ⟨_, hq⟩

theorem getNodeDeep_total (st : Forest D) (id : Nat) : getNodeDeep st id ≠ .exhausted := by
  unfold getNodeDeep
  cases hg : st.Systems.get id with
  | none =>
    by_cases hb : (st.Tree.get id).isSome = true <;> simp [hb]
  | some s =>
    refine deepWalk_total st.Systems _ _ _ _ (List.nodup_singleton _) ?_ ?_
      (by simp only [List.length_singleton]; omega)
    · intro h hh
      rw [List.mem_singleton.mp hh]
      exact List.mem_map.mpr ⟨(id, s), GoMap.mem_of_get hg, rfl⟩
    · intro q hq
      exact ⟨_, hq⟩

end Totality

section ScanSize

variable {D : Type}

/-- Whatever the bucket, a scan that is not fatal appends to the queue and to
the keys of the history the same new identifiers, all keys of the bucket,
and keeps the keys of the history distinct. -/
theorem scanBucket_grows (sysID : Nat) :
    ∀ (b : GoMap (System D)) (queue : List Nat) (history : GoMap (System D))
      (queue' : List Nat) (history' : GoMap (System D)),
      scanBucket sysID b queue history = some (queue', history') →
      ∃ added, queue' = queue ++ added ∧ history'.keys = history.keys ++ added ∧
        (∀ x ∈ added, x ∈ b.keys) ∧ (history.NodupKeys → history'.NodupKeys) := by
  intro b
  induction b with
  | nil =>
    intro queue history queue' history' h
    simp only [scanBucket, Option.some.injEq, Prod.mk.injEq] at h
    obtain ⟨rfl, rfl⟩ := h
    exact ⟨[], by simp, by simp, fun x hx => absurd hx (List.not_mem_nil x), fun h => h⟩
  | cons e rest ih =>
    obtain ⟨cid, child⟩ := e
    intro queue history queue' history' h
    by_cases hbad : cid = sysID ∨ (history.get cid).isSome = true
    · simp [scanBucket, hbad] at h
    · simp only [scanBucket, hbad, if_false] at h
      have hnone : history.get cid = none := by
        cases hg : history.get cid with
        | none => rfl
        | some v => exact absurd (Or.inr (by simp [hg])) hbad
      rw [GoMap.set_of_get_none child hnone] at h
      obtain ⟨added, h1, h2, h3, h4⟩ := ih _ _ _ _ h
      refine ⟨cid :: added, ?_, ?_, ?_, ?_⟩
      · rw [h1]; simp
      · rw [h2, GoMap.keys_append]; simp [GoMap.keys]
      · intro x hx
        simp only [GoMap.keys, List.map_cons, List.mem_cons]
        rcases List.mem_cons.mp hx with rfl | hx
        · exact Or.inl rfl
        · exact Or.inr (h3 x hx)
      · intro hnd
        apply h4
        unfold GoMap.NodupKeys at hnd ⊢
        rw [GoMap.keys_append]
        refine List.nodup_append.mpr ⟨hnd, by simp [GoMap.keys], ?_⟩
        intro x hx1 hx2
        simp only [GoMap.keys, List.map_cons, List.map_nil, List.mem_singleton] at hx2
        subst hx2
        have := GoMap.get_isSome_of_mem_keys hx1
        rw [hnone] at this
        cases this

theorem scanLevel_grows (tree : GoMap (GoMap (System D))) (sysID : Nat) :
    ∀ (level queue : List Nat) (history : GoMap (System D))
      (queue' : List Nat) (history' : GoMap (System D)),
      scanLevel tree sysID level queue history = some (queue', history') →
      ∃ added, queue' = queue ++ added ∧ history'.keys = history.keys ++ added ∧
        (∀ x ∈ added, ∃ p ∈ level, x ∈ (bucketOf tree p).keys) ∧
        (history.NodupKeys → history'.NodupKeys) := by
  intro level
  induction level with
  | nil =>
    intro queue history queue' history' h
    simp only [scanLevel, Option.some.injEq, Prod.mk.injEq] at h
    obtain ⟨rfl, rfl⟩ := h
    exact ⟨[], by simp, by simp, fun x hx => absurd hx (List.not_mem_nil x), fun h => h⟩
  | cons p level ih =>
    intro queue history queue' history' h
    cases hb : scanBucket sysID (bucketOf tree p) queue history with
    | none => simp [scanLevel, hb] at h
    | some r =>
      obtain ⟨q1, h1⟩ := r
      simp only [scanLevel, hb] at h
      obtain ⟨a1, e1, e2, e3, e4⟩ := scanBucket_grows sysID _ _ _ _ _ hb
      obtain ⟨a2, f1, f2, f3, f4⟩ := ih _ _ _ _ h
      refine ⟨a1 ++ a2, ?_, ?_, ?_, fun hnd => f4 (e4 hnd)⟩
      · rw [f1, e1, List.append_assoc]
      · rw [f2, e2, List.append_assoc]
      · intro x hx
        rcases List.mem_append.mp hx with hx | hx
        · exact ⟨p, List.mem_cons_self _ _, e3 x hx⟩
        · obtain ⟨p', hp', hx'⟩ := f3 x hx
          exact ⟨p', List.mem_cons_of_mem _ hp', hx'⟩

theorem mem_allChildKeys_of_get {tree : GoMap (GoMap (System D))} {p : Nat}
    {b : GoMap (System D)} (h : (p, b) ∈ tree) {x : Nat} (hx : x ∈ b.keys) :
    x ∈ allChildKeys tree := by
  induction tree with
  | nil => cases h
  | cons e t ih =>
    obtain ⟨q, c⟩ := e
    simp only [allChildKeys, List.mem_append]
    rcases List.mem_cons.mp h with h | h
    · simp only [Prod.mk.injEq] at h
      obtain ⟨_, rfl⟩ := h
      exact Or.inl hx
    · exact Or.inr (ih h)

theorem mem_allChildKeys_of_bucketOf {tree : GoMap (GoMap (System D))} {p x : Nat}
    (hx : x ∈ (bucketOf tree p).keys) : x ∈ allChildKeys tree := by
  unfold bucketOf at hx
  cases hg : tree.get p with
  | none =>
    rw [hg] at hx
    simp [GoMap.keys] at hx
  | some b =>
    rw [hg] at hx
    exact mem_allChildKeys_of_get (GoMap.mem_of_get hg) hx

/-- Whatever the adjacency map, when the breadth-first loop returns, the
collected map holds each identifier once, all of them child identifiers of
the adjacency map, and every floor counted has added an identifier. -/
theorem floorLoop_bound (tree : GoMap (GoMap (System D))) (sysID : Nat) :
    ∀ (left : Nat) (level : List Nat) (history : GoMap (System D)) (curFloor : Int)
      (M : GoMap (System D)) (f : Int),
      history.NodupKeys → (∀ x ∈ history.keys, x ∈ allChildKeys tree) →
      floorLoop tree sysID left level history curFloor = some (M, f) →
      M.NodupKeys ∧ (∀ x ∈ M.keys, x ∈ allChildKeys tree) ∧ curFloor ≤ f ∧
        f + (history.length : Int) ≤ curFloor + (M.length : Int) := by
  intro left
  induction left with
  | zero =>
    intro level history curFloor M f hnd hsub h
    simp only [floorLoop, Option.some.injEq, Prod.mk.injEq] at h
    obtain ⟨rfl, rfl⟩ := h
    exact ⟨hnd, hsub, le_refl _, le_refl _⟩
  | succ left ih =>
    intro level history curFloor M f hnd hsub h
    cases hs : scanLevel tree sysID level [] history with
    | none => simp [floorLoop, hs] at h
    | some r =>
      obtain ⟨next, history'⟩ := r
      obtain ⟨added, e1, e2, e3, e4⟩ := scanLevel_grows tree sysID _ _ _ _ _ hs
      rw [List.nil_append] at e1
      subst e1
      have hsub' : ∀ x ∈ history'.keys, x ∈ allChildKeys tree := by
        intro x hx
        rw [e2] at hx
        rcases List.mem_append.mp hx with hx | hx
        · exact hsub x hx
        · obtain ⟨p, _, hp⟩ := e3 x hx
          exact mem_allChildKeys_of_bucketOf hp
      have hlen : history'.length = history.length + next.length := by
        have := congrArg List.length e2
        simpa [GoMap.keys] using this
      simp only [floorLoop, hs] at h
      by_cases hne : next = []
      · simp only [hne, ne_eq, not_true_eq_false, if_false, Option.some.injEq,
          Prod.mk.injEq] at h
        obtain ⟨rfl, rfl⟩ := h
        refine ⟨e4 hnd, hsub', le_refl _, ?_⟩
        rw [hlen]
        push_cast
        omega
      · simp only [ne_eq, hne, not_false_eq_true, if_true] at h
        obtain ⟨h1, h2, h3, h4⟩ := ih _ _ _ _ _ (e4 hnd) hsub' h
        refine ⟨h1, h2, by omega, ?_⟩
        have hpos : 1 ≤ next.length := by
          cases next with
          | nil => exact absurd rfl hne
          | cons a t => simp
        rw [hlen] at h4
        push_cast at h4
        omega

/-- C18. Totality of the walks: for every flat map and adjacency map, cyclic
or inconsistent ones included, the ancestor walk of `AddSystem`, the audit
`checkCircle` in any order, and `getNodeDeep` finish within the fuel given by
the size of the flat map (with a result, an error, the fatal branch, or the
panic of the payload comparison that precedes the walk of `AddSystem`), and
when `getChilds` returns, no identifier was collected twice and the number of
floors is at most the number of collected identifiers, which is at most the
number of entries of the adjacency map. -/
theorem walks_are_total [GoPayload D] (st : Forest D) (s : System D) (id : Nat) (k : Int)
    (order : List (Nat × System D)) :
    (AddSystem st s).1 ≠ .exhausted ∧
    checkCircleIn st order ≠ .exhausted ∧
    checkCircle st ≠ .exhausted ∧
    getNodeDeep st id ≠ .exhausted ∧
    (getChilds st id k = none ∨
      ∃ M f, getChilds st id k = some (M, f) ∧ M.NodupKeys ∧ 0 ≤ f ∧
        f ≤ (M.length : Int) ∧ M.length ≤ (allChildKeys st.Tree).length) := by
  refine ⟨AddSystem_total st s, circleLoop_total _ _ _, circleLoop_total _ _ _,
    getNodeDeep_total st id, ?_⟩
  cases hg : getChilds st id k with
  | none => exact Or.inl rfl
  | some r =>
    obtain ⟨M, f⟩ := r
    right
    unfold getChilds at hg
    obtain ⟨h1, h2, h3, h4⟩ := floorLoop_bound st.Tree id _ [id] [] 0 M f List.nodup_nil
      (fun x hx => absurd hx (List.not_mem_nil x)) hg
    refine ⟨M, f, rfl, h1, h3, ?_, ?_⟩
    · simp only [List.length_nil, Nat.cast_zero, add_zero, zero_add] at h4
      exact h4
    · exact (List.Nodup.subperm h1 h2).length_le |> fun h => by simpa [GoMap.keys] using h

end ScanSize

/-- Walks on the cyclic flat map of the test, as an illustration of C18:
the ancestor walk of `AddSystem` stops at the first repeat with the cycle
error, the audit fails, `getNodeDeep` and `getChilds` reach their fatal
branch, and a query that stays off the cycle returns. -/
theorem walks_are_total_witness :
    (AddSystem cyclicForest ⟨99, 11, "z"⟩).1 = .cycleError ∧
    checkCircle cyclicForest = .cycleError ∧
    getNodeDeep cyclicForest 11 = .fatal ∧
    getChilds cyclicForest 11 0 = none ∧
    (getChilds cyclicForest 111 0).map Prod.snd = some 2 ∧
    (AddSystem cyclicForest ⟨99, 11, "z"⟩).1 ≠ .exhausted :=
  ⟨by decide, by decide, by decide, by decide, by decide,
    (walks_are_total cyclicForest ⟨99, 11, "z"⟩ 11 0 []).1⟩

/-! ## `AddSystem` keeps the flat map acyclic for valid nodes -/

section KeepAcyclic

variable {D : Type}

theorem chainAt_succ_some {m : GoMap (System D)} {x z : Nat} {j : Nat}
    (h : chainAt m x (j + 1) = some z) :
    ∃ y n, chainAt m x j = some y ∧ m.get y = some n ∧ n.ParentSysID = z := by
  have hdef : chainAt m x (j + 1) =
      (match chainAt m x j with
        | none => none
        | some y =>
          match m.get y with
          | none => none
          | some n => some n.ParentSysID) := rfl
  rw [hdef] at h
  cases hy : chainAt m x j with
  | none => rw [hy] at h; cases h
  | some y =>
    rw [hy] at h
    cases hn : m.get y with
    | none => simp only [hn] at h; cases h
    | some n =>
      simp only [hn, Option.some.injEq] at h
      exact ⟨y, n, rfl, hn, h⟩

/-- Chains that never meet `sid` are the same after a node is put at `sid`. -/
theorem chainAt_set_avoid {m : GoMap (System D)} {sid x : Nat} (s : System D)
    (h : ∀ j, chainAt m x j ≠ some sid) :
    ∀ i, chainAt (m.set sid s) x i = chainAt m x i := by
  intro i
  induction i with
  | zero => rfl
  | succ i ih =>
    have hdef : ∀ m' : GoMap (System D), chainAt m' x (i + 1) =
        (match chainAt m' x i with
          | none => none
          | some y =>
            match m'.get y with
            | none => none
            | some n => some n.ParentSysID) := fun _ => rfl
    rw [hdef, hdef, ih]
    cases hy : chainAt m x i with
    | none => rfl
    | some y =>
      have hne : y ≠ sid := by
        intro e
        exact h i (by rw [hy, e])
      simp only [GoMap.get_set_ne m sid s hne]

theorem revisits_congr {m m' : GoMap (System D)} {x : Nat}
    (h : ∀ i, chainAt m' x i = chainAt m x i) : Revisits m' x ↔ Revisits m x := by
  unfold Revisits
  simp only [h]

/-- When no node on the walk from `p` has `sid` as parent and `p` is not
`sid`, the walk from `p` never meets `sid`. -/
theorem not_reach_of_not_walkMeets {m : GoMap (System D)} {sid p : Nat} (hp : p ≠ sid)
    (h : ¬ WalkMeets m sid p) : ∀ j, chainAt m p j ≠ some sid := by
  intro j hj
  cases j with
  | zero =>
    simp only [chainAt, Option.some.injEq] at hj
    exact hp hj
  | succ j =>
    obtain ⟨y, n, hy, hn, hpar⟩ := chainAt_succ_some hj
    exact h ⟨y, n, ⟨j, hy⟩, hn, hpar⟩

/-- Storing a valid node whose walk was not rejected keeps the flat map
free of walks that revisit. -/
theorem acyclic_set {m : GoMap (System D)} (s : System D) (hac : ∀ x, ¬ Revisits m x)
    (hnone : m.get s.SysID = none) (hv : s.SysID ≠ s.ParentSysID)
    (hw : ¬ WalkMeets m s.SysID s.ParentSysID) :
    ∀ x, ¬ Revisits (m.set s.SysID s) x := by
  have hp : ¬ Revisits (m.set s.SysID s) s.ParentSysID := by
    rw [revisits_congr (chainAt_set_avoid s
      (not_reach_of_not_walkMeets (fun e => hv e.symm) hw))]
    exact hac _
  have hself : (m.set s.SysID s).get s.SysID = some s := GoMap.get_set_self _ _ _
  have hsid : ¬ Revisits (m.set s.SysID s) s.SysID := fun h => hp ((revisits_step hself).mp h)
  intro x
  by_cases hx : ∃ j, chainAt m x j = some s.SysID
  · obtain ⟨j, hj⟩ := hx
    have hr : Reach (m.set s.SysID s) x s.SysID := ⟨j, chainAt_set s hnone j hj⟩
    exact fun h => hsid ((revisits_of_reach hr).mp h)
  · have hx' : ∀ j, chainAt m x j ≠ some s.SysID := fun j hj => hx ⟨j, hj⟩
    rw [revisits_congr (chainAt_set_avoid s hx')]
    exact hac _

theorem addCommit_keeps_acyclic {st : Forest D} (s : System D)
    (hac : ∀ x, ¬ Revisits st.Systems x) (hnone : st.Systems.get s.SysID = none)
    (hv : s.SysID ≠ s.ParentSysID) : ∀ x, ¬ Revisits (addCommit st s).2.Systems x := by
  rcases addCommit_spec st s hac with ⟨_, e⟩ | ⟨hw, _, e⟩
  · rw [e]; exact hac
  · rw [(addCommit_nil e).2]
    exact acyclic_set s hac hnone hv hw

theorem AddSystem_keeps_acyclic [GoPayload D] {st : Forest D} (s : System D)
    (hac : Acyclic st.Systems) (hv : s.SysID ≠ s.ParentSysID) :
    ∀ x, ¬ Revisits (AddSystem st s).2.Systems x := by
  rcases AddSystem_paths st s with ⟨_, _, ⟨_, e⟩ | ⟨_, e⟩⟩ | ⟨hnone, e⟩ | ⟨old, hold, _, e⟩
  · rw [e]; exact acyclic_all hac
  · rw [e]; exact acyclic_all hac
  · rw [e]; exact addCommit_keeps_acyclic s (acyclic_all hac) hnone hv
  · rw [e]
    refine addCommit_keeps_acyclic s ?_ ?_ hv
    · rw [DelSystem_systems hold]
      exact acyclic_all (acyclic_del hac _)
    · rw [DelSystem_systems hold]
      exact GoMap.get_del_self _ _

theorem keyedByID_del {m : GoMap (System D)} (h : KeyedByID m) (k : Nat) :
    KeyedByID (m.del k) :=
  fun e he => h e (GoMap.mem_of_mem_del he)

theorem keyedByID_set {m : GoMap (System D)} (h : KeyedByID m) (s : System D) :
    KeyedByID (m.set s.SysID s) := by
  intro e he
  rcases GoMap.mem_set he with rfl | he
  · rfl
  · exact h e he

theorem addCommit_systems (st : Forest D) (s : System D) :
    (addCommit st s).2.Systems = st.Systems ∨
      (addCommit st s).2.Systems = st.Systems.set s.SysID s := by
  unfold addCommit
  cases addWalk st.Systems s.SysID (st.Systems.length + 1) [s.ParentSysID]
      (st.Systems.get s.ParentSysID) with
  | cycle pid => exact Or.inl rfl
  | exhausted => exact Or.inl rfl
  | finished hs => exact Or.inr rfl

/-- The flat map after `AddSystem` keeps each key once and stays keyed by
identifier. -/
theorem AddSystem_keeps_shape [GoPayload D] {st : Forest D} (s : System D)
    (hn : st.Systems.NodupKeys) (hk : KeyedByID st.Systems) :
    (AddSystem st s).2.Systems.NodupKeys ∧ KeyedByID (AddSystem st s).2.Systems := by
  have hcommit : ∀ st1 : Forest D, st1.Systems.NodupKeys → KeyedByID st1.Systems →
      (addCommit st1 s).2.Systems.NodupKeys ∧ KeyedByID (addCommit st1 s).2.Systems := by
    intro st1 h1 h2
    rcases addCommit_systems st1 s with e | e
    · rw [e]; exact ⟨h1, h2⟩
    · rw [e]; exact ⟨GoMap.nodupKeys_set h1 _ _, keyedByID_set h2 s⟩
  rcases AddSystem_paths st s with ⟨_, _, ⟨_, e⟩ | ⟨_, e⟩⟩ | ⟨_, e⟩ | ⟨old, hold, _, e⟩
  · rw [e]; exact ⟨hn, hk⟩
  · rw [e]; exact ⟨hn, hk⟩
  · rw [e]; exact hcommit st hn hk
  · rw [e]
    apply hcommit
    · rw [DelSystem_systems hold]; exact GoMap.nodupKeys_del hn _
    · rw [DelSystem_systems hold]; exact keyedByID_del hk _

/-- On a flat map without revisiting walks the audit returns nil, in any
order of iteration. -/
theorem checkCircleIn_nil {st : Forest D} (hn : st.Systems.NodupKeys)
    (hk : KeyedByID st.Systems) (hac : ∀ x, ¬ Revisits st.Systems x)
    (order : List (Nat × System D)) (hp : order.Perm st.Systems) :
    checkCircleIn st order = .nil := by
  have hent : ∀ e ∈ order, st.Systems.get e.1 = some e.2 ∧ e.2.SysID = e.1 := by
    intro e he
    have hm : e ∈ st.Systems := hp.subset he
    exact ⟨GoMap.get_of_mem hn hm, hk e hm⟩
  rcases circleLoop_spec st.Systems order [] hent
      (fun d hd => absurd hd (List.not_mem_nil d)) with ⟨_, e, _, hr⟩ | ⟨h1, _⟩
  · exact absurd hr (hac _)
  · exact h1

/-- C19. `AddSystem` preserves acyclicity for valid nodes: on a forest whose
flat map is acyclic (keyed by identifier, each key once), for a node `s` with
`s.SysID != s.ParentSysID`, so that `isValid()` is true, the flat map after
`AddSystem(s)` is acyclic whatever the call returned, and `checkCircle` on the
resulting forest returns nil. -/
theorem AddSystem_preserves_acyclicity [GoPayload D] (st : Forest D) (s : System D)
    (hac : Acyclic st.Systems) (hv : s.SysID ≠ s.ParentSysID)
    (hn : st.Systems.NodupKeys) (hk : KeyedByID st.Systems) :
    s.isValid = true ∧
    Acyclic (AddSystem st s).2.Systems ∧
    checkCircle (AddSystem st s).2 = .nil := by
  have h := AddSystem_keeps_acyclic s hac hv
  have hs := AddSystem_keeps_shape s hn hk
  exact ⟨(isValid_eq_true_iff s).mpr hv, fun x _ _ => h x,
    checkCircleIn_nil hs.1 hs.2 h _ (List.Perm.refl _)⟩

/-- Witness of C19 on the forest of the test, for the add that moves node 55
under 22 (it returns nil). -/
theorem AddSystem_preserves_acyclicity_witness :
    Acyclic testForest.Systems ∧ testForest.Systems.NodupKeys ∧
    KeyedByID testForest.Systems ∧
    (AddSystem testForest ⟨55, 22, "rpc"⟩).1 = .nil ∧
    Acyclic (AddSystem testForest ⟨55, 22, "rpc"⟩).2.Systems ∧
    checkCircle (AddSystem testForest ⟨55, 22, "rpc"⟩).2 = .nil :=
  ⟨acyclic_of_rank testRank (by decide), by decide, by decide, by decide,
    (AddSystem_preserves_acyclicity testForest ⟨55, 22, "rpc"⟩
      (acyclic_of_rank testRank (by decide)) (by decide) (by decide) (by decide)).2⟩

end KeepAcyclic

/-! ## Bulk load -/

section BulkLoad

variable {D : Type}

/-- Entry `Tree[p][c]` after the loop of `buildTree` over entries with
distinct keys: the node of the entry `c` when its parent is `p`, else what
was there before. -/
theorem buildLoop_get2 :
    ∀ (l : List (Nat × System D)) (tree : GoMap (GoMap (System D))),
      GoMap.NodupKeys l → ∀ p c n,
      (get2 (buildLoop tree l) p c = some n ↔
        (((c, n) ∈ l ∧ n.ParentSysID = p) ∨
          ((∀ n', (c, n') ∈ l → n'.ParentSysID ≠ p) ∧ get2 tree p c = some n))) := by
  intro l
  induction l with
  | nil =>
    intro tree _ p c n
    simp [buildLoop]
  | cons e rest ih =>
    obtain ⟨id, s⟩ := e
    intro tree hnd p c n
    obtain ⟨hid, hnd'⟩ := GoMap.nodupKeys_cons.mp hnd
    have hnot : ∀ n', (id, n') ∉ rest := by
      intro n' hmem
      exact hid (List.mem_map.mpr ⟨(id, n'), hmem, rfl⟩)
    simp only [buildLoop]
    rw [ih _ hnd' p c n, get2_set, GoMap.get_set, get_bucketOf]
    by_cases hc : c = id
    · subst hc
      by_cases hp : p = s.ParentSysID
      · subst hp
        simp only [if_true, List.mem_cons, Prod.mk.injEq, true_and, Option.some.injEq]
        constructor
        · rintro (⟨h, _⟩ | ⟨_, h⟩)
          · exact absurd h (hnot n)
          · exact Or.inl ⟨Or.inl h.symm, by rw [← h]⟩
        · rintro (⟨h | h, _⟩ | ⟨h, _⟩)
          · exact Or.inr ⟨fun n' hn' => absurd hn' (hnot n'), h.symm⟩
          · exact absurd h (hnot n)
          · exact absurd rfl (h s (Or.inl rfl))
      · simp only [hp, if_false, List.mem_cons, Prod.mk.injEq, true_and]
        constructor
        · rintro (⟨h, _⟩ | ⟨_, h⟩)
          · exact absurd h (hnot n)
          · refine Or.inr ⟨?_, h⟩
            rintro n' (h' | h')
            · rw [h']; exact fun e => hp e.symm
            · exact absurd h' (hnot n')
        · rintro (⟨h | h, hpar⟩ | ⟨_, h⟩)
          · rw [h] at hpar; exact absurd hpar.symm hp
          · exact absurd h (hnot n)
          · exact Or.inr ⟨fun n' hn' => absurd hn' (hnot n'), h⟩
    · have hmem : ∀ n', ((c, n') ∈ (id, s) :: rest ↔ (c, n') ∈ rest) := by
        intro n'
        simp only [List.mem_cons, Prod.mk.injEq, hc, false_and, false_or]
      have hget : (if p = s.ParentSysID then if c = id then some s else get2 tree s.ParentSysID c
          else get2 tree p c) = get2 tree p c := by
        by_cases hp : p = s.ParentSysID
        · simp [hp, hc]
        · simp [hp]
      rw [hget]
      simp only [hmem]

/-- C15, as amended. `buildTree` adds to the adjacency index and never
clears it: after the call the flat map is the same, `Tree[p][c] = n` holds
when `Systems[c] = n` and `n.ParentSysID = p`, and otherwise `Tree[p][c]` is
what it was before the call.  So the adjacency index is exactly the one
derived from the flat map when the prior index held no other entry (the empty
index of the test in particular), whether `buildTree` returns nil or an
error; and the value returned is the result of `checkCircle` on that flat
map. -/
theorem buildTree_adds_derived_index (st : Forest D) (order₁ order₂ : List (Nat × System D))
    (hn : st.Systems.NodupKeys) (hp : order₁.Perm st.Systems) :
    (buildTreeIn st order₁ order₂).2.Systems = st.Systems ∧
    (∀ p c n, get2 (buildTreeIn st order₁ order₂).2.Tree p c = some n ↔
      ((st.Systems.get c = some n ∧ n.ParentSysID = p) ∨
        ((∀ n', st.Systems.get c = some n' → n'.ParentSysID ≠ p) ∧
          get2 st.Tree p c = some n))) ∧
    ((∀ p c n, get2 st.Tree p c = some n → st.Systems.get c = some n ∧ n.ParentSysID = p) →
      Consistent (buildTreeIn st order₁ order₂).2) ∧
    (buildTreeIn st order₁ order₂).1 = checkCircleIn st order₂ ∧
    buildTree st = buildTreeIn st st.Systems st.Systems := by
  have hmem : ∀ c n, ((c, n) ∈ order₁ ↔ st.Systems.get c = some n) := by
    intro c n
    constructor
    · intro h
      exact GoMap.get_of_mem hn (hp.subset h)
    · intro h
      exact hp.symm.subset (GoMap.mem_of_get h)
  have hnd₁ : GoMap.NodupKeys order₁ := by
    unfold GoMap.NodupKeys GoMap.keys
    exact (hp.map Prod.fst).nodup_iff.mpr hn
  have key : ∀ p c n, get2 (buildTreeIn st order₁ order₂).2.Tree p c = some n ↔
      ((st.Systems.get c = some n ∧ n.ParentSysID = p) ∨
        ((∀ n', st.Systems.get c = some n' → n'.ParentSysID ≠ p) ∧
          get2 st.Tree p c = some n)) := by
    intro p c n
    unfold buildTreeIn
    simp only
    rw [buildLoop_get2 order₁ st.Tree hnd₁ p c n]
    simp only [hmem]
  refine ⟨rfl, key, ?_, rfl, rfl⟩
  intro hprior p c n
  rw [key]
  constructor
  · rintro (h | ⟨_, h⟩)
    · exact h
    · exact hprior p c n h
  · exact fun h => Or.inl h

/-- Counterexample to C15 as stated: with an empty flat map and the prior
entry `Tree[5][1]`, the entry is still there after `buildTree`, though no
node is stored at 1; the index is not the one derived from the flat map. -/
theorem buildTree_keeps_stale_entry :
    staleForest.Systems = [] ∧
    get2 (buildTree staleForest).2.Tree 5 1 = some ⟨1, 5, "x"⟩ ∧
    (buildTree staleForest).2.Systems.get 1 = none ∧
    ¬ Consistent (buildTree staleForest).2 := by
  refine ⟨rfl, by decide, by decide, fun h => ?_⟩
  have := (h 5 1 ⟨1, 5, "x"⟩).mp (by decide)
  exact absurd this.1 (by decide)

/-- Witness of C15 as amended on the bulk load of the test, whose prior
index is empty: the index after `buildTree` is consistent with the flat map
and the returned error is the one of the audit. -/
theorem buildTree_adds_derived_index_witness :
    bulkForest.Systems.NodupKeys ∧
    Consistent (buildTree bulkForest).2 ∧
    (buildTree bulkForest).1 = .cycleError ∧
    (buildTree bulkForest).1 = checkCircle bulkForest := by
  have h := buildTree_adds_derived_index bulkForest bulkForest.Systems bulkForest.Systems
    (by decide) (List.Perm.refl _)
  refine ⟨by decide, ?_, by decide, h.2.2.2.1⟩
  exact h.2.2.1 (fun p c n hg => by
    have : get2 bulkForest.Tree p c = none := by simp [bulkForest, get2, GoMap.get]
    rw [this] at hg
    cases hg)

end BulkLoad

/-! ## What the breadth-first loop collects -/

section Exact

variable {D : Type}

/-- In a consistent forest, `j` child links down from `id` to `c` are `j`
parent links up from `c` to `id`. -/
theorem childPath_iff_chainAt {st : Forest D} (hc : Consistent st) (id : Nat) :
    ∀ (j c : Nat), ChildPath st.Tree id j c ↔ chainAt st.Systems c j = some id := by
  intro j
  induction j with
  | zero =>
    intro c
    simp only [ChildPath, chainAt, Option.some.injEq]
  | succ j ih =>
    intro c
    simp only [ChildPath]
    constructor
    · rintro ⟨p, hp, hg⟩
      cases hn : get2 st.Tree p c with
      | none => rw [hn] at hg; cases hg
      | some n =>
        obtain ⟨h1, h2⟩ := (hc _ _ _).mp hn
        rw [chainAt_of_get h1, h2]
        exact (ih p).mp hp
    · intro h
      cases hg : st.Systems.get c with
      | none => rw [chainAt_of_get_none hg] at h; cases h
      | some n =>
        rw [chainAt_of_get hg] at h
        refine ⟨n.ParentSysID, (ih _).mpr h, ?_⟩
        rw [(hc _ _ _).mpr ⟨hg, rfl⟩]
        rfl

theorem mem_levelEntries {tree : GoMap (GoMap (System D))} {level : List Nat}
    {e : Nat × System D} :
    e ∈ levelEntries tree level ↔ ∃ p ∈ level, e ∈ bucketOf tree p := by
  induction level with
  | nil => simp [levelEntries]
  | cons p level ih =>
    simp only [levelEntries, List.mem_append, ih, List.mem_cons, exists_eq_or_imp]

/-- A chain of `a + b` links passes through the identifier met after `a`. -/
theorem chainAt_split {m : GoMap (System D)} {x z : Nat} (a b : Nat)
    (h : chainAt m x (a + b) = some z) :
    ∃ y, chainAt m x a = some y ∧ chainAt m y b = some z := by
  cases hy : chainAt m x a with
  | none =>
    rw [chainAt_none_mono hy (a + b) (by omega)] at h
    cases h
  | some y =>
    rw [chainAt_add m x a b hy] at h
    exact ⟨y, rfl, h⟩

/-- Above an empty level every level is empty. -/
theorem level_empty_above {m : GoMap (System D)} {id f : Nat}
    (h : ∀ x, chainAt m x (f + 1) ≠ some id) :
    ∀ j x, f < j → chainAt m x j ≠ some id := by
  intro j x hj hx
  obtain ⟨t, rfl⟩ : ∃ t, j = t + (f + 1) := ⟨j - (f + 1), by omega⟩
  obtain ⟨y, _, hy⟩ := chainAt_split t (f + 1) hx
  exact h y hy

/-- Entry of the buckets of one complete level: a stored node one link
further down. -/
theorem get_levelEntries {st : Forest D} (hwf : WF st) (hc : Consistent st) {id k : Nat}
    {level : List Nat} (hnd : level.Nodup)
    (hin : ∀ x ∈ level, chainAt st.Systems x k = some id)
    (hall : ∀ x, chainAt st.Systems x k = some id → x ∈ level) (c : Nat) (n : System D) :
    (levelEntries st.Tree level).get c = some n ↔
      (st.Systems.get c = some n ∧ chainAt st.Systems c (k + 1) = some id) := by
  constructor
  · intro h
    obtain ⟨p, hp, hmem⟩ := mem_levelEntries.mp (GoMap.mem_of_get h)
    have hg : get2 st.Tree p c = some n := by
      rw [← get_bucketOf]
      exact GoMap.get_of_mem (wf_bucketOf hwf p) hmem
    obtain ⟨h1, h2⟩ := (hc _ _ _).mp hg
    refine ⟨h1, ?_⟩
    rw [chainAt_of_get h1, h2]
    exact hin p hp
  · rintro ⟨h1, h2⟩
    rw [chainAt_of_get h1] at h2
    have hp := hall _ h2
    have hg : get2 st.Tree n.ParentSysID c = some n := (hc _ _ _).mpr ⟨h1, rfl⟩
    rw [← get_bucketOf] at hg
    exact GoMap.get_of_mem (nodup_levelEntries hwf hc level hnd)
      (mem_levelEntries.mpr ⟨_, hp, GoMap.mem_of_get hg⟩)

theorem exactInv_start (st : Forest D) (id : Nat) : ExactInv st id 0 [id] [] := by
  refine ⟨levelInv_start st id, ?_, ?_⟩
  · intro x hx
    simp only [chainAt, Option.some.injEq] at hx
    simp [hx]
  · intro c n
    constructor
    · intro h
      cases h
    · rintro ⟨_, j, h1, h2, _⟩
      omega

/-- One iteration of the breadth-first loop keeps the level and the history
complete. -/
theorem exactInv_step {st : Forest D} (hwf : WF st) (hc : Consistent st)
    (hac : Acyclic st.Systems) {id k : Nat} {level : List Nat} {history : GoMap (System D)}
    (h : ExactInv st id k level history) :
    ExactInv st id (k + 1) (levelEntries st.Tree level).keys
      (history ++ levelEntries st.Tree level) := by
  obtain ⟨hinv, hall, hhist⟩ := h
  have hstep := (levelInv_step hwf hc hac hinv).2
  have hE := get_levelEntries hwf hc hinv.1 hinv.2.1 hall
  refine ⟨hstep, ?_, ?_⟩
  · intro x hx
    cases hg : st.Systems.get x with
    | none => rw [chainAt_of_get_none hg] at hx; cases hx
    | some n => exact GoMap.mem_keys_of_get ((hE x n).mpr ⟨hg, hx⟩)
  · intro c n
    rw [GoMap.get_append]
    cases hh : history.get c with
    | some v =>
      simp only
      obtain ⟨hv, j, hj1, hj2, hj⟩ := (hhist c v).mp hh
      constructor
      · intro e
        cases e
        exact ⟨hv, j, hj1, by omega, hj⟩
      · rintro ⟨hn, _⟩
        rw [hv] at hn
        exact hn
    | none =>
      simp only
      rw [hE]
      constructor
      · rintro ⟨h1, h2⟩
        exact ⟨h1, k + 1, by omega, by omega, h2⟩
      · rintro ⟨h1, j, hj1, hj2, hj⟩
        refine ⟨h1, ?_⟩
        rcases Nat.lt_or_ge j (k + 1) with hlt | hge
        · have := (hhist c n).mpr ⟨h1, j, hj1, by omega, hj⟩
          rw [hh] at this
          cases this
        · have e : j = k + 1 := by omega
          rw [← e]
          exact hj

/-- Result of the breadth-first loop on a consistent acyclic forest: it
stops at a floor `f` whose level is not empty, either with the bound used up
or with the level above empty, and it has collected exactly the stored nodes
between 1 and `f` links below the start. -/
theorem floorLoop_exact {st : Forest D} (hwf : WF st) (hc : Consistent st)
    (hac : Acyclic st.Systems) (id : Nat) :
    ∀ (left k : Nat) (level : List Nat) (history : GoMap (System D)),
      ExactInv st id k level history → (∃ x, chainAt st.Systems x k = some id) →
      ∃ (M : GoMap (System D)) (f : Nat),
        floorLoop st.Tree id left level history (k : Int) = some (M, (f : Int)) ∧
        k ≤ f ∧ f ≤ k + left ∧ (∃ x, chainAt st.Systems x f = some id) ∧
        (f < k + left → ∀ x, chainAt st.Systems x (f + 1) ≠ some id) ∧
        M.NodupKeys ∧
        ∀ c n, M.get c = some n ↔
          (st.Systems.get c = some n ∧
            ∃ j, 1 ≤ j ∧ j ≤ f ∧ chainAt st.Systems c j = some id) := by
  intro left
  induction left with
  | zero =>
    intro k level history h hne
    exact ⟨history, k, rfl, le_refl _, le_refl _, hne, fun hlt => absurd hlt (by omega),
      h.1.2.2.1, h.2.2⟩
  | succ left ih =>
    intro k level history h hne
    have hs := (levelInv_step hwf hc hac h.1).1
    have h' := exactInv_step hwf hc hac h
    by_cases hnil : (levelEntries st.Tree level).keys = []
    · have hempty : ∀ x, chainAt st.Systems x (k + 1) ≠ some id := by
        intro x hx
        have := h'.2.1 x hx
        rw [hnil] at this
        cases this
      refine ⟨history ++ levelEntries st.Tree level, k, ?_, le_refl _, by omega, hne,
        fun _ => hempty, h'.1.2.2.1, ?_⟩
      · simp [floorLoop, hs, hnil]
      · intro c n
        rw [h'.2.2 c n]
        constructor
        · rintro ⟨h1, j, hj1, hj2, hj⟩
          refine ⟨h1, j, hj1, ?_, hj⟩
          rcases Nat.lt_or_ge k j with hlt | hge
          · exact absurd hj (level_empty_above hempty j c hlt)
          · exact hge
        · rintro ⟨h1, j, hj1, hj2, hj⟩
          exact ⟨h1, j, hj1, by omega, hj⟩
    · have hne' : ∃ x, chainAt st.Systems x (k + 1) = some id := by
        cases hl : (levelEntries st.Tree level).keys with
        | nil => exact absurd hl hnil
        | cons a t =>
          exact ⟨a, h'.1.2.1 a (by rw [hl]; exact List.mem_cons_self _ _)⟩
      obtain ⟨M, f, h1, h2, h3, h4, h5, h6, h7⟩ := ih (k + 1) _ _ h' hne'
      refine ⟨M, f, ?_, by omega, by omega, h4, fun hlt => h5 (by omega), h6, h7⟩
      simp only [floorLoop, hs, ne_eq, hnil, not_false_eq_true, if_true]
      rw [← h1]
      simp

end Exact

/-! ## Height -/

section Height

variable {D : Type}

/-- On an acyclic flat map a chain of `j` links passes `j` distinct stored
keys, so it is no longer than the map. -/
theorem chain_length_le {m : GoMap (System D)} (hac : ∀ x, ¬ Revisits m x) {c : Nat} :
    ∀ (j y : Nat), chainAt m c j = some y → j ≤ m.length := by
  have key : ∀ (j y : Nat), chainAt m c j = some y →
      ∃ l : List Nat, l.length = j ∧ l.Nodup ∧ (∀ a ∈ l, (m.get a).isSome = true) ∧
        ∀ a ∈ l, ∃ i, i < j ∧ chainAt m c i = some a := by
    intro j
    induction j with
    | zero =>
      intro y _
      exact ⟨[], rfl, List.nodup_nil, fun a ha => absurd ha (List.not_mem_nil a),
        fun a ha => absurd ha (List.not_mem_nil a)⟩
    | succ j ih =>
      intro y hy
      obtain ⟨y', n, h1, h2, _⟩ := chainAt_succ_some hy
      obtain ⟨l, hl1, hl2, hl3, hl4⟩ := ih y' h1
      refine ⟨y' :: l, by simp [hl1], List.nodup_cons.mpr ⟨?_, hl2⟩, ?_, ?_⟩
      · intro hmem
        obtain ⟨i, hi, hci⟩ := hl4 y' hmem
        exact hac c ⟨i, j, y', hi, hci, h1⟩
      · intro a ha
        rcases List.mem_cons.mp ha with rfl | ha
        · simp [h2]
        · exact hl3 a ha
      · intro a ha
        rcases List.mem_cons.mp ha with rfl | ha
        · exact ⟨j, by omega, h1⟩
        · obtain ⟨i, hi, hci⟩ := hl4 a ha
          exact ⟨i, by omega, hci⟩
  intro j y hy
  obtain ⟨l, hl1, hl2, hl3, _⟩ := key j y hy
  have := GoMap.length_le_of_nodup_stored hl2 hl3
  omega

theorem exists_greatest (P : Nat → Prop) (h0 : P 0) :
    ∀ B : Nat, (∀ j, P j → j ≤ B) → ∃ h, P h ∧ ∀ j, P j → j ≤ h := by
  intro B
  induction B with
  | zero => intro hB; exact ⟨0, h0, hB⟩
  | succ B ih =>
    intro hB
    by_cases hP : P (B + 1)
    · exact ⟨B + 1, hP, hB⟩
    · apply ih
      intro j hj
      have := hB j hj
      rcases Nat.lt_or_ge j (B + 1) with hlt | hge
      · omega
      · have e : j = B + 1 := by omega
        rw [e] at hj
        exact absurd hj hP

/-- Every identifier of a consistent acyclic forest has a height. -/
theorem exists_height {st : Forest D} (hc : Consistent st) (hac : Acyclic st.Systems)
    (id : Nat) : ∃ h, IsHeight st.Tree id h := by
  obtain ⟨h, ⟨c, hc1⟩, h2⟩ := exists_greatest (fun j => ∃ c, ChildPath st.Tree id j c)
    ⟨id, rfl⟩ st.Systems.length (by
      rintro j ⟨c, hj⟩
      exact chain_length_le (acyclic_all hac) j id ((childPath_iff_chainAt hc id j c).mp hj))
  exact ⟨h, ⟨c, hc1⟩, fun j c' hj => h2 j ⟨c', hj⟩⟩

theorem isHeight_unique {tree : GoMap (GoMap (System D))} {id h h' : Nat}
    (h1 : IsHeight tree id h) (h2 : IsHeight tree id h') : h = h' := by
  obtain ⟨c, hc⟩ := h1.1
  obtain ⟨c', hc'⟩ := h2.1
  have := h1.2 _ _ hc'
  have := h2.2 _ _ hc
  omega

theorem floorBound_toNat (k : Int) :
    (if k ≤ 0 then (2147483647 : Int) else k).toNat = floorBound k := by
  unfold floorBound maxInt32
  by_cases h : k ≤ 0
  · simp [h]
  · simp [h]

theorem floorBound_pos (k : Int) : 1 ≤ floorBound k := by
  unfold floorBound maxInt32
  by_cases h : k ≤ 0
  · simp [h]
  · simp only [h, if_false]
    omega

/-- What `getChilds` returns on a consistent acyclic forest: the stored
nodes between 1 and `floorBound k` child links below the start, and the
smaller of `floorBound k` and the height of the start. -/
theorem getChilds_exact {st : Forest D} (hwf : WF st) (hc : Consistent st)
    (hac : Acyclic st.Systems) (id : Nat) (k : Int) :
    ∃ (M : GoMap (System D)) (f h : Nat),
      getChilds st id k = some (M, (f : Int)) ∧ IsHeight st.Tree id h ∧
      f = min (floorBound k) h ∧ M.NodupKeys ∧
      ∀ c n, M.get c = some n ↔
        (st.Systems.get c = some n ∧
          ∃ j, 1 ≤ j ∧ j ≤ floorBound k ∧ ChildPath st.Tree id j c) := by
  obtain ⟨h, hh⟩ := exists_height hc hac id
  obtain ⟨M, f, h1, _, h3, ⟨x, h4⟩, h5, h6, h7⟩ := floorLoop_exact hwf hc hac id (floorBound k) 0
    [id] [] (exactInv_start st id) ⟨id, rfl⟩
  have hfh : f ≤ h := hh.2 f x ((childPath_iff_chainAt hc id f x).mpr h4)
  have hcase : f = floorBound k ∨ (f < floorBound k ∧ h = f) := by
    rcases Nat.lt_or_ge f (floorBound k) with hlt | hge
    · right
      refine ⟨hlt, ?_⟩
      obtain ⟨c, hc1⟩ := hh.1
      have hc2 := (childPath_iff_chainAt hc id h c).mp hc1
      rcases Nat.lt_or_ge f h with hlt' | hge'
      · exact absurd hc2 (level_empty_above (h5 (by omega)) h c hlt')
      · omega
    · left; omega
  refine ⟨M, f, h, ?_, hh, ?_, h6, ?_⟩
  · unfold getChilds
    simp only [floorBound_toNat]
    exact h1
  · rcases hcase with e | ⟨hlt, e⟩ <;> omega
  · intro c n
    rw [h7]
    constructor
    · rintro ⟨hg, j, hj1, hj2, hj⟩
      exact ⟨hg, j, hj1, by omega, (childPath_iff_chainAt hc id j c).mpr hj⟩
    · rintro ⟨hg, j, hj1, hj2, hj⟩
      have hj' := (childPath_iff_chainAt hc id j c).mp hj
      refine ⟨hg, j, hj1, ?_, hj'⟩
      rcases hcase with e | ⟨hlt, e⟩
      · omega
      · have := hh.2 j c hj
        omega

/-- The start identifier is not among the nodes `getChilds` collects. -/
theorem not_childPath_self {st : Forest D} (hc : Consistent st) (hac : Acyclic st.Systems)
    (id j : Nat) (hj : 1 ≤ j) : ¬ ChildPath st.Tree id j id := by
  intro h
  have := (childPath_iff_chainAt hc id j id).mp h
  obtain ⟨t, rfl⟩ : ∃ t, j = t + 1 := ⟨j - 1, by omega⟩
  exact acyclic_all hac id (revisits_of_loop this)

end Height

/-! ## Chains of any length -/

section LongChains

theorem get_chainSystems (n k : Nat) :
    (chainSystems n).get k = if 1 ≤ k ∧ k ≤ n then some ⟨k, k - 1, ()⟩ else none := by
  induction n with
  | zero =>
    have : ¬ (1 ≤ k ∧ k ≤ 0) := by omega
    rw [if_neg this]
    rfl
  | succ n ih =>
    have e : chainSystems (n + 1) = chainSystems n ++ [(n + 1, ⟨n + 1, n, ()⟩)] := by
      simp [chainSystems, List.range_succ]
    rw [e, GoMap.get_append, ih]
    by_cases h : 1 ≤ k ∧ k ≤ n
    · have h' : 1 ≤ k ∧ k ≤ n + 1 := ⟨h.1, by omega⟩
      simp [h, h']
    · by_cases hk : k = n + 1
      · subst hk
        simp [h, GoMap.get]
      · have h' : ¬ (1 ≤ k ∧ k ≤ n + 1) := by omega
        have hk' : ¬ n + 1 = k := fun e => hk e.symm
        simp [h, h', GoMap.get, hk']

theorem get_chainTree (n p : Nat) :
    (chainTree n).get p = if p < n then some [(p + 1, ⟨p + 1, p, ()⟩)] else none := by
  induction n with
  | zero => simp [chainTree, GoMap.get]
  | succ n ih =>
    have e : chainTree (n + 1) = chainTree n ++ [(n, [(n + 1, ⟨n + 1, n, ()⟩)])] := by
      simp [chainTree, List.range_succ]
    rw [e, GoMap.get_append, ih]
    by_cases h : p < n
    · have h' : p < n + 1 := by omega
      simp [h, h']
    · by_cases hp : p = n
      · subst hp
        simp [GoMap.get]
      · have h' : ¬ p < n + 1 := by omega
        have hp' : ¬ n = p := fun e => hp e.symm
        simp [h, h', GoMap.get, hp']

theorem get_chainOf (n k : Nat) :
    (chainOf n).Systems.get k = if 1 ≤ k ∧ k ≤ n then some ⟨k, k - 1, ()⟩ else none :=
  get_chainSystems n k

theorem get_tree_chainOf (n p : Nat) :
    (chainOf n).Tree.get p = if p < n then some [(p + 1, ⟨p + 1, p, ()⟩)] else none :=
  get_chainTree n p

theorem length_chainSystems (n : Nat) : (chainSystems n).length = n := by
  simp [chainSystems]

theorem wf_chainOf (n : Nat) : WF (chainOf n) := by
  refine ⟨?_, ?_, ?_⟩
  · unfold GoMap.NodupKeys GoMap.keys chainOf chainSystems
    simp only [List.map_map]
    exact (List.nodup_range n).map (fun a b h => by simpa using h)
  · unfold GoMap.NodupKeys GoMap.keys chainOf chainTree
    simp only [List.map_map]
    exact (List.nodup_range n).map (fun a b h => by simpa using h)
  · intro e he
    simp only [chainOf, chainTree, List.mem_map, List.mem_range] at he
    obtain ⟨i, _, rfl⟩ := he
    simp [GoMap.NodupKeys, GoMap.keys]

theorem consistent_chainOf (n : Nat) : Consistent (chainOf n) := by
  intro p c x
  simp only [chainOf, get2, get_chainTree, get_chainSystems]
  by_cases hp : p < n
  · simp only [hp, if_true]
    by_cases hc : p + 1 = c
    · subst hc
      have h1 : 1 ≤ p + 1 ∧ p + 1 ≤ n := by omega
      simp only [GoMap.get, if_true, h1, and_self, Nat.add_sub_cancel]
      constructor
      · intro h
        cases h
        exact ⟨rfl, rfl⟩
      · rintro ⟨h, _⟩
        exact h
    · simp only [GoMap.get, hc, if_false]
      constructor
      · intro h
        cases h
      · rintro ⟨h1, h2⟩
        by_cases hcn : 1 ≤ c ∧ c ≤ n
        · simp only [hcn, and_self, if_true, Option.some.injEq] at h1
          subst h1
          simp only at h2
          omega
        · simp [hcn] at h1
  · simp only [hp, if_false]
    constructor
    · intro h
      cases h
    · rintro ⟨h1, h2⟩
      by_cases hcn : 1 ≤ c ∧ c ≤ n
      · simp only [hcn, and_self, if_true, Option.some.injEq] at h1
        subst h1
        simp only at h2
        omega
      · simp [hcn] at h1

theorem acyclic_chainOf (n : Nat) : Acyclic (chainOf n).Systems := by
  apply acyclic_of_rank (fun x => x)
  intro e he
  simp only [chainOf, chainSystems, List.mem_map, List.mem_range] at he
  obtain ⟨i, _, rfl⟩ := he
  simp

/-- In the chain of `n` nodes, node `a + j` is `j` links below `a`. -/
theorem chainAt_chainOf (n a : Nat) :
    ∀ j, a + j ≤ n → chainAt (chainOf n).Systems (a + j) j = some a := by
  intro j
  induction j with
  | zero => intro _; rfl
  | succ j ih =>
    intro h
    have hg : (chainOf n).Systems.get (a + (j + 1)) =
        some ⟨a + (j + 1), a + (j + 1) - 1, ()⟩ := by
      have h1 : 1 ≤ a + (j + 1) ∧ a + (j + 1) ≤ n := by omega
      simp only [chainOf, get_chainSystems, h1, and_self, if_true]
    rw [chainAt_of_get hg]
    have e : a + (j + 1) - 1 = a + j := by omega
    simp only [e]
    exact ih (by omega)

theorem isHeight_chainOf (n : Nat) : IsHeight (chainOf n).Tree 0 n := by
  refine ⟨⟨n, ?_⟩, ?_⟩
  · rw [childPath_iff_chainAt (consistent_chainOf n)]
    have := chainAt_chainOf n 0 n (by omega)
    simpa using this
  · intro j c hj
    rw [childPath_iff_chainAt (consistent_chainOf n)] at hj
    have := chain_length_le (acyclic_all (acyclic_chainOf n)) j 0 hj
    simpa [chainOf, length_chainSystems] using this

end LongChains

/-! ## The depth-bounded subtree query -/

section Subtree

variable {D : Type}

/-- C11, as amended. Depth-bounded subtree query on a consistent acyclic
forest: `getChilds(id, k)` returns `(M, f)` where `M` holds exactly the stored
nodes between 1 and `B` child links below `id`, each under its own `SysID`
and never `id` itself, and `f = min(B, h)`, `h` being the height of `id`;
the bound `B` is `k` for `k >= 1` and `math.MaxInt32` for `k <= 0`.  So for
`k <= 0` the result is the set of all proper descendants with `f = h` when
`h` is at most `math.MaxInt32`. -/
theorem getChilds_depth_bounded (st : Forest D) (id : Nat) (k : Int) (hwf : WF st)
    (hc : Consistent st) (hac : Acyclic st.Systems) (hk : KeyedByID st.Systems) :
    ∃ (M : GoMap (System D)) (f h : Nat),
      getChilds st id k = some (M, (f : Int)) ∧ IsHeight st.Tree id h ∧
      f = min (floorBound k) h ∧
      (1 ≤ k → (floorBound k : Int) = k) ∧ (k ≤ 0 → floorBound k = maxInt32) ∧
      (∀ c n, M.get c = some n ↔
        (st.Systems.get c = some n ∧
          ∃ j, 1 ≤ j ∧ j ≤ floorBound k ∧ ChildPath st.Tree id j c)) ∧
      (∀ c n, M.get c = some n → n.SysID = c) ∧ M.get id = none ∧
      (k ≤ 0 → h ≤ maxInt32 →
        f = h ∧ ∀ c n, M.get c = some n ↔
          (st.Systems.get c = some n ∧ ∃ j, 1 ≤ j ∧ ChildPath st.Tree id j c)) := by
  obtain ⟨M, f, h, h1, h2, h3, _, h5⟩ := getChilds_exact hwf hc hac id k
  have hb0 : k ≤ 0 → floorBound k = maxInt32 := by
    intro hk0
    simp [floorBound, hk0]
  refine ⟨M, f, h, h1, h2, h3, ?_, hb0, h5, ?_, ?_, ?_⟩
  · intro hk1
    have : ¬ k ≤ 0 := by omega
    simp only [floorBound, this, if_false]
    omega
  · intro c n hg
    exact keyed_get hk ((h5 c n).mp hg).1
  · cases hg : M.get id with
    | none => rfl
    | some n =>
      obtain ⟨_, j, hj1, _, hj⟩ := (h5 id n).mp hg
      exact absurd hj (not_childPath_self hc hac id j hj1)
  · intro hk0 hh
    rw [hb0 hk0] at h3 h5
    refine ⟨by omega, fun c n => ?_⟩
    rw [h5]
    constructor
    · rintro ⟨hg, j, hj1, _, hj⟩
      exact ⟨hg, j, hj1, hj⟩
    · rintro ⟨hg, j, hj1, hj⟩
      exact ⟨hg, j, hj1, le_trans (h2.2 j c hj) hh, hj⟩

/-- Height of the anchor of the chain of `math.MaxInt32 + 1` nodes as
`getChilds` and `getNodeHeight` report it: `math.MaxInt32`. -/
theorem getChilds_bigChain :
    ∃ M : GoMap (System Unit), getChilds bigChain 0 0 = some (M, 2147483647) ∧
      M.get 2147483648 = none := by
  have hcons : Consistent bigChain := consistent_chainOf _
  have hac : Acyclic bigChain.Systems := acyclic_chainOf _
  obtain ⟨M, f, h, h1, h2, h3, _, h5⟩ := getChilds_exact (wf_chainOf _) hcons hac 0 0
  have hh : h = maxInt32 + 1 := isHeight_unique h2 (isHeight_chainOf _)
  have hb : floorBound 0 = maxInt32 := by simp [floorBound]
  have hf : f = maxInt32 := by
    rw [hb, hh] at h3
    omega
  subst hf
  refine ⟨M, h1, ?_⟩
  cases hg : M.get 2147483648 with
  | none => rfl
  | some n =>
    exfalso
    obtain ⟨_, j, _, hj2, hj⟩ := (h5 2147483648 n).mp hg
    rw [hb] at hj2
    have hj' := (childPath_iff_chainAt hcons 0 j 2147483648).mp hj
    have htop : chainAt bigChain.Systems 2147483648 (maxInt32 + 1) = some 0 :=
      chainAt_chainOf (maxInt32 + 1) 0 (maxInt32 + 1) (by omega)
    exact acyclic_all hac 0 (revisits_of_two_levels (by omega) hj' htop)

/-- Counterexample to C11 as stated: in the chain of 2147483648 nodes below
the anchor 0 (consistent, acyclic, identifiers within `uint32`), node
2147483648 is a proper descendant of 0 and the height of 0 is 2147483648,
yet `getChilds(0, 0)` returns `f = 2147483647` and a map without that node:
the bound is `math.MaxInt32`, not dropped. -/
theorem getChilds_unbounded_is_capped :
    WF bigChain ∧ Consistent bigChain ∧ Acyclic bigChain.Systems ∧
    bigChain.Systems.get 2147483648 = some ⟨2147483648, 2147483647, ()⟩ ∧
    ChildPath bigChain.Tree 0 2147483648 2147483648 ∧
    IsHeight bigChain.Tree 0 2147483648 ∧
    ∃ M : GoMap (System Unit), getChilds bigChain 0 0 = some (M, 2147483647) ∧
      M.get 2147483648 = none := by
  refine ⟨wf_chainOf _, consistent_chainOf _, acyclic_chainOf _, ?_, ?_,
    isHeight_chainOf (maxInt32 + 1), getChilds_bigChain⟩
  · have := get_chainOf (maxInt32 + 1) 2147483648
    rw [if_pos (by unfold maxInt32; omega)] at this
    have e : (2147483648 : Nat) - 1 = 2147483647 := by norm_num
    rw [e] at this
    unfold bigChain
    exact this
  · have htop : chainAt bigChain.Systems 2147483648 (maxInt32 + 1) = some 0 :=
      chainAt_chainOf (maxInt32 + 1) 0 (maxInt32 + 1) (by omega)
    exact (childPath_iff_chainAt (consistent_chainOf (maxInt32 + 1)) 0
      (maxInt32 + 1) 2147483648).mpr htop

/-- Witness of C11 as amended on the forest of the test: below 11 one floor
holds 22 and 55, and the query without bound reaches floor 2, the height. -/
theorem getChilds_depth_bounded_witness :
    WF testForest ∧ Consistent testForest ∧ Acyclic testForest.Systems ∧
    KeyedByID testForest.Systems ∧
    (getChilds testForest 11 1).map (fun r => (r.1.keys, r.2)) = some ([22, 55], 1) ∧
    (getChilds testForest 11 0).map (fun r => (r.1.keys, r.2)) = some ([22, 55, 33, 44], 2) ∧
    ∃ (M : GoMap (System String)) (f h : Nat),
      getChilds testForest 11 1 = some (M, (f : Int)) ∧ IsHeight testForest.Tree 11 h ∧
      f = min (floorBound 1) h ∧ M.get 11 = none := by
  have hcons : Consistent testForest := consistent_addAll consistent_empty _
  have hac : Acyclic testForest.Systems := acyclic_of_rank testRank (by decide)
  obtain ⟨M, f, h, h1, h2, h3, _, _, _, _, h8, _⟩ :=
    getChilds_depth_bounded testForest 11 1 (by decide) hcons hac (by decide)
  exact ⟨by decide, hcons, hac, by decide, by decide, by decide, M, f, h, h1, h2, h3, h8⟩

end Subtree

/-! ## `getNodeHeight` -/

section NodeHeight

variable {D : Type}

theorem floorBound_zero : floorBound 0 = maxInt32 := by
  simp [floorBound]

/-- What `getNodeHeight` returns on a consistent acyclic forest for an
identifier that has a node or a bucket: the smaller of the height and
`math.MaxInt32`. -/
theorem getNodeHeight_exact {st : Forest D} (hwf : WF st) (hc : Consistent st)
    (hac : Acyclic st.Systems) (id : Nat)
    (hknown : ¬ (st.Systems.get id = none ∧ st.Tree.get id = none)) :
    ∃ h : Nat, IsHeight st.Tree id h ∧
      getNodeHeight st id = some ((min maxInt32 h : Nat) : Int) := by
  obtain ⟨M, f, h, h1, h2, h3, _, _⟩ := getChilds_exact hwf hc hac id 0
  rw [floorBound_zero] at h3
  refine ⟨h, h2, ?_⟩
  have hcond : ¬ ((st.Systems.get id).isNone = true ∧ (st.Tree.get id).isNone = true) := by
    intro hboth
    apply hknown
    simpa [Option.isNone_iff_eq_none] using hboth
  unfold getNodeHeight
  rw [if_neg hcond, h1, h3]

theorem getNodeHeight_unknown {st : Forest D} {id : Nat}
    (h : st.Systems.get id = none ∧ st.Tree.get id = none) :
    getNodeHeight st id = some (-1) := by
  unfold getNodeHeight
  simp [h.1, h.2]

/-- Child of `id` in the adjacency map starts chains one link longer. -/
theorem chainAt_through_child {st : Forest D} (hc : Consistent st) {id c x : Nat}
    {n : System D} (hg : get2 st.Tree id c = some n) {j : Nat}
    (hx : chainAt st.Systems x j = some c) : chainAt st.Systems x (j + 1) = some id := by
  obtain ⟨h1, h2⟩ := (hc _ _ _).mp hg
  rw [chainAt_add st.Systems x j 1 hx, chainAt_of_get h1, h2]
  rfl

/-- Height of a child is below the height of its parent. -/
theorem height_child_lt {st : Forest D} (hc : Consistent st) {id c h hc' : Nat}
    {n : System D} (hg : get2 st.Tree id c = some n) (hh : IsHeight st.Tree id h)
    (hch : IsHeight st.Tree c hc') : hc' + 1 ≤ h := by
  obtain ⟨x, hx⟩ := hch.1
  have hx' := (childPath_iff_chainAt hc c hc' x).mp hx
  exact hh.2 _ x ((childPath_iff_chainAt hc id _ x).mpr (chainAt_through_child hc hg hx'))

/-- Identifier of height at least 1 has a child whose height is one less. -/
theorem exists_child_of_height {st : Forest D} (hc : Consistent st)
    (hac : Acyclic st.Systems) {id h : Nat} (hh : IsHeight st.Tree id h) (h1 : 1 ≤ h) :
    ∃ c n, get2 st.Tree id c = some n ∧ IsHeight st.Tree c (h - 1) := by
  obtain ⟨x, hx⟩ := hh.1
  have hx' := (childPath_iff_chainAt hc id h x).mp hx
  have e : h = (h - 1) + 1 := by omega
  rw [e] at hx'
  obtain ⟨c, hc1, hc2⟩ := chainAt_split (h - 1) 1 hx'
  cases hg : st.Systems.get c with
  | none => rw [chainAt_of_get_none hg] at hc2; cases hc2
  | some n =>
    rw [chainAt_of_get hg] at hc2
    simp only [chainAt, Option.some.injEq] at hc2
    have hg2 : get2 st.Tree id c = some n := (hc _ _ _).mpr ⟨hg, hc2⟩
    obtain ⟨h', hh'⟩ := exists_height hc hac c
    have hle := height_child_lt hc hg2 hh hh'
    have hge : h - 1 ≤ h' := hh'.2 _ x ((childPath_iff_chainAt hc c _ x).mpr hc1)
    have : h' = h - 1 := by omega
    rw [this] at hh'
    exact ⟨c, n, hg2, hh'⟩

theorem height_zero_iff {st : Forest D} (hc : Consistent st) (hac : Acyclic st.Systems)
    {id h : Nat} (hh : IsHeight st.Tree id h) :
    h = 0 ↔ ∀ c, get2 st.Tree id c = none := by
  constructor
  · intro h0 c
    cases hg : get2 st.Tree id c with
    | none => rfl
    | some n =>
      exfalso
      have := hh.2 1 c ⟨id, rfl, by rw [hg]; rfl⟩
      omega
  · intro hnone
    by_contra hne
    obtain ⟨c, n, hg, _⟩ := exists_child_of_height hc hac hh (by omega)
    rw [hnone c] at hg
    cases hg

/-- What `getNodeHeight` computes on a consistent acyclic forest:
`getNodeHeight(id) = -1` exactly when `id` has neither a node nor a bucket;
otherwise it is `min(h, math.MaxInt32)`, `h` being the length of the longest
downward path of child links from `id`: it is `h` whenever `h` is at most
`math.MaxInt32`, it is 0 exactly when `id` has no children, and when `h` is
at most `math.MaxInt32` it is 1 + the maximum of `getNodeHeight` over the
direct children (every child is at least one below, and some child exactly
one below). -/
theorem getNodeHeight_spec (st : Forest D) (id : Nat) (hwf : WF st) (hc : Consistent st)
    (hac : Acyclic st.Systems) :
    (getNodeHeight st id = some (-1) ↔
      (st.Systems.get id = none ∧ st.Tree.get id = none)) ∧
    (¬ (st.Systems.get id = none ∧ st.Tree.get id = none) →
      ∃ h : Nat, IsHeight st.Tree id h ∧
        getNodeHeight st id = some ((min maxInt32 h : Nat) : Int) ∧
        (h ≤ maxInt32 → getNodeHeight st id = some (h : Int)) ∧
        (getNodeHeight st id = some 0 ↔ ∀ c, get2 st.Tree id c = none) ∧
        (h ≤ maxInt32 → ∀ c n, get2 st.Tree id c = some n →
          ∃ h' : Nat, getNodeHeight st c = some (h' : Int) ∧ h' + 1 ≤ h) ∧
        (h ≤ maxInt32 → 1 ≤ h →
          ∃ c n, get2 st.Tree id c = some n ∧
            getNodeHeight st c = some ((h - 1 : Nat) : Int))) := by
  have hcap : maxInt32 = 2147483647 := rfl
  have hchild : ∀ c n, get2 st.Tree id c = some n →
      ¬ (st.Systems.get c = none ∧ st.Tree.get c = none) := by
    intro c n hg hboth
    rw [((hc _ _ _).mp hg).1] at hboth
    cases hboth.1
  refine ⟨⟨?_, getNodeHeight_unknown⟩, ?_⟩
  · intro hm
    by_contra hknown
    obtain ⟨h, _, h2⟩ := getNodeHeight_exact hwf hc hac id hknown
    rw [h2] at hm
    simp only [Option.some.injEq] at hm
    omega
  · intro hknown
    obtain ⟨h, hh, h2⟩ := getNodeHeight_exact hwf hc hac id hknown
    refine ⟨h, hh, h2, ?_, ?_, ?_, ?_⟩
    · intro hle
      rw [h2, Nat.min_eq_right hle]
    · rw [← height_zero_iff hc hac hh, h2]
      simp only [Option.some.injEq]
      constructor
      · intro h0
        have : min maxInt32 h = 0 := by exact_mod_cast h0
        omega
      · intro h0
        rw [h0]
        simp
    · intro hle c n hg
      obtain ⟨h', hh', h2'⟩ := getNodeHeight_exact hwf hc hac c (hchild c n hg)
      have hlt := height_child_lt hc hg hh hh'
      refine ⟨h', ?_, hlt⟩
      rw [h2', Nat.min_eq_right (by omega)]
    · intro hle h1
      obtain ⟨c, n, hg, hh'⟩ := exists_child_of_height hc hac hh h1
      obtain ⟨h', hh'', h2'⟩ := getNodeHeight_exact hwf hc hac c (hchild c n hg)
      have e : h' = h - 1 := isHeight_unique hh'' hh'
      refine ⟨c, n, hg, ?_⟩
      rw [h2', e, Nat.min_eq_right (by omega)]

/-- The anchor of the chain of 2147483648 nodes has a bucket, and
`getNodeHeight` reports `math.MaxInt32` for it. -/
theorem getNodeHeight_bigChain : getNodeHeight bigChain 0 = some 2147483647 := by
  unfold bigChain
  have hknown : ¬ ((chainOf (maxInt32 + 1)).Systems.get 0 = none ∧
      (chainOf (maxInt32 + 1)).Tree.get 0 = none) := by
    rintro ⟨_, h⟩
    rw [get_tree_chainOf, if_pos (by omega)] at h
    cases h
  obtain ⟨h, hh, h2⟩ := getNodeHeight_exact (wf_chainOf _) (consistent_chainOf _)
    (acyclic_chainOf _) 0 hknown
  have e : h = maxInt32 + 1 := isHeight_unique hh (isHeight_chainOf _)
  rw [h2, e, Nat.min_eq_left (by omega)]
  rfl

/-- C12. Height does not hold on the code, which breaks the docstring of
`getNodeHeight` (line 227: the length of the longest path from the node to a
leaf).  In the chain of 2147483648 nodes below the anchor 0, a consistent
acyclic forest, the longest downward path from 0 has 2147483648 links, and
`getNodeHeight(0)` is 2147483647: the floor count of `getChilds(0, 0)`, which
stops at `math.MaxInt32` floors. -/
theorem getNodeHeight_is_capped :
    WF bigChain ∧ Consistent bigChain ∧ Acyclic bigChain.Systems ∧
    IsHeight bigChain.Tree 0 2147483648 ∧
    getNodeHeight bigChain 0 = some 2147483647 ∧
    getNodeHeight bigChain 0 ≠ some 2147483648 := by
  refine ⟨wf_chainOf _, consistent_chainOf _, acyclic_chainOf _,
    isHeight_chainOf (maxInt32 + 1), getNodeHeight_bigChain, ?_⟩
  rw [getNodeHeight_bigChain]
  decide

/-- Heights on the forest of the test: the anchor 0 has height 3, node 11
height 2, the leaf 33 height 0, an unknown identifier -1. -/
theorem getNodeHeight_spec_witness :
    WF testForest ∧ Consistent testForest ∧ Acyclic testForest.Systems ∧
    getNodeHeight testForest 0 = some 3 ∧ getNodeHeight testForest 11 = some 2 ∧
    getNodeHeight testForest 33 = some 0 ∧ getNodeHeight testForest 9 = some (-1) ∧
    ∃ h : Nat, IsHeight testForest.Tree 11 h ∧
      getNodeHeight testForest 11 = some ((min maxInt32 h : Nat) : Int) := by
  have hcons : Consistent testForest := consistent_addAll consistent_empty _
  have hac : Acyclic testForest.Systems := acyclic_of_rank testRank (by decide)
  obtain ⟨h, h1, h2, _⟩ := (getNodeHeight_spec testForest 11 (by decide) hcons hac).2
    (by decide)
  exact ⟨by decide, hcons, hac, by decide, by decide, by decide, by decide, h, h1, h2⟩

end NodeHeight

/-! ## Depth against height -/

section DepthHeight

variable {D : Type}

/-- Depth of a stored node on an acyclic flat map keyed by identifier: the
number of links to the first identifier without a node. -/
theorem getNodeDeep_chain {st : Forest D} (hac : Acyclic st.Systems)
    (hk : KeyedByID st.Systems) {id : Nat} {n : System D}
    (hg : st.Systems.get id = some n) :
    ∃ (d z : Nat), getNodeDeep st id = .value (d : Int) ∧
      chainAt st.Systems id d = some z ∧ st.Systems.get z = none := by
  have hid : n.SysID = id := keyed_get hk hg
  obtain ⟨e, z, h1, h2, h3⟩ := deepWalk_spec st.Systems (acyclic_all hac) hk
    (st.Systems.length + 1) [id] n.ParentSysID 1
    (by
      intro h hh
      rw [List.mem_singleton.mp hh]
      exact ⟨0, by rw [chainAt_of_get hg]; rfl⟩)
    (List.nodup_singleton _)
    (by
      intro h hh
      rw [List.mem_singleton.mp hh]
      simp [hg])
    (by simp only [List.length_singleton]; omega)
  refine ⟨e + 1, z, ?_, by rw [chainAt_of_get hg]; exact h2, h3⟩
  unfold getNodeDeep
  rw [hg]
  simp only [hid]
  rw [h1]
  congr 1
  push_cast
  ring

/-- Identifier reached by at least one parent link has a bucket. -/
theorem bucket_of_reached {st : Forest D} (hc : Consistent st) {id a k : Nat} (hk1 : 1 ≤ k)
    (hreach : chainAt st.Systems id k = some a) : st.Tree.get a ≠ none := by
  obtain ⟨t, rfl⟩ : ∃ t, k = t + 1 := ⟨k - 1, by omega⟩
  obtain ⟨y, n', _, h2, h3⟩ := chainAt_succ_some hreach
  have hg : get2 st.Tree a y = some n' := (hc _ _ _).mpr ⟨h2, h3⟩
  intro hnone
  rw [get2, hnone] at hg
  cases hg

/-- Height reported for an identifier reached by `k` parent links. -/
theorem getNodeHeight_of_reached {st : Forest D} (hwf : WF st) (hc : Consistent st)
    (hac : Acyclic st.Systems) {id a k : Nat} (hk1 : 1 ≤ k)
    (hreach : chainAt st.Systems id k = some a) :
    ∃ H : Nat, getNodeHeight st a = some (H : Int) ∧ min k maxInt32 ≤ H := by
  obtain ⟨h, hh, h2⟩ := getNodeHeight_exact hwf hc hac a
    (fun hboth => bucket_of_reached hc hk1 hreach hboth.2)
  have hle : k ≤ h := hh.2 k id ((childPath_iff_chainAt hc a k id).mpr hreach)
  exact ⟨min maxInt32 h, h2, by omega⟩

/-- What the code gives for depth against height on a consistent acyclic
forest: for a stored node and an identifier `a` reached from it by `k >= 1` `ParentSysID`
links, `getNodeHeight(a) >= min(k, math.MaxInt32)`, so `getNodeHeight(a) >= k`
whenever `k` is at most `math.MaxInt32`; when `a` has no node (the anchor at
the top of the chain) `k` is `getNodeDeep` of the node; and a stored node
with no children has `getNodeHeight` 0. -/
theorem height_covers_depth (st : Forest D) (id a k : Nat) (n : System D) (hwf : WF st)
    (hc : Consistent st) (hac : Acyclic st.Systems) (hk : KeyedByID st.Systems)
    (hn : st.Systems.get id = some n) (hk1 : 1 ≤ k)
    (hreach : chainAt st.Systems id k = some a) :
    (∃ H : Nat, getNodeHeight st a = some (H : Int) ∧ min k maxInt32 ≤ H ∧
      (k ≤ maxInt32 → k ≤ H) ∧
      (st.Systems.get a = none → getNodeDeep st id = .value (k : Int))) ∧
    ((∀ c, get2 st.Tree id c = none) → getNodeHeight st id = some 0) := by
  constructor
  · obtain ⟨H, h1, h2⟩ := getNodeHeight_of_reached hwf hc hac hk1 hreach
    refine ⟨H, h1, h2, fun hle => by omega, fun ha => ?_⟩
    obtain ⟨d, z, hd, hz1, hz2⟩ := getNodeDeep_chain hac hk hn
    rw [hd, chain_end_unique hz1 hz2 hreach ha]
  · intro hleaf
    obtain ⟨h, hh, h2⟩ := getNodeHeight_exact hwf hc hac id
      (fun hboth => by rw [hn] at hboth; cases hboth.1)
    have h0 : h = 0 := (height_zero_iff hc hac hh).mpr hleaf
    rw [h2, h0]
    simp

theorem keyedByID_chainOf (n : Nat) : KeyedByID (chainOf n).Systems := by
  intro e he
  simp only [chainOf, chainSystems, List.mem_map, List.mem_range] at he
  obtain ⟨i, _, rfl⟩ := he
  rfl

/-- C14. Depth/height consistency does not hold on the code, because
`getNodeHeight` breaks its docstring (line 227: the length of the longest
path from the node to a leaf).  In the chain of 2147483648 nodes, a
consistent acyclic forest, the anchor 0 is reached from the stored node
2147483648 by `k = 2147483648` links, which is also `getNodeDeep` of that
node, and `getNodeHeight(0)` is 2147483647, less than `k`. -/
theorem height_below_depth_on_long_chain :
    WF bigChain ∧ Consistent bigChain ∧ Acyclic bigChain.Systems ∧
    bigChain.Systems.get 2147483648 = some ⟨2147483648, 2147483647, ()⟩ ∧
    chainAt bigChain.Systems 2147483648 2147483648 = some 0 ∧
    bigChain.Systems.get 0 = none ∧
    getNodeDeep bigChain 2147483648 = .value 2147483648 ∧
    getNodeHeight bigChain 0 = some 2147483647 := by
  have hget : bigChain.Systems.get 2147483648 = some ⟨2147483648, 2147483647, ()⟩ := by
    have := get_chainOf (maxInt32 + 1) 2147483648
    rw [if_pos (by unfold maxInt32; omega)] at this
    have e : (2147483648 : Nat) - 1 = 2147483647 := by norm_num
    rw [e] at this
    unfold bigChain
    exact this
  have htop : chainAt bigChain.Systems 2147483648 2147483648 = some 0 :=
    chainAt_chainOf (maxInt32 + 1) 0 (maxInt32 + 1) (by omega)
  have h0 : bigChain.Systems.get 0 = none := by
    unfold bigChain
    rw [get_chainOf, if_neg (by omega)]
  refine ⟨wf_chainOf _, consistent_chainOf _, acyclic_chainOf _, hget, htop, h0, ?_,
    getNodeHeight_bigChain⟩
  obtain ⟨d, z, hd, hz1, hz2⟩ := @getNodeDeep_chain Unit bigChain
    (acyclic_chainOf (maxInt32 + 1)) (keyedByID_chainOf _) 2147483648 _ hget
  have e := chain_end_unique hz1 hz2 htop h0
  rw [hd, ← e]
  rfl

/-- Depth against height on the chain anchor 0, `A = 1`, `B = 2`, `C = 3` of
the spec: the anchor is 3 links above `C`, its height is 3 and the depth of
`C` is 3; the height of the leaf `C` is 0. -/
theorem height_covers_depth_witness :
    WF abcForest ∧ Consistent abcForest ∧ Acyclic abcForest.Systems ∧
    KeyedByID abcForest.Systems ∧
    getNodeHeight abcForest 0 = some 3 ∧ getNodeDeep abcForest 3 = .value 3 ∧
    getNodeHeight abcForest 3 = some 0 ∧
    ∃ H : Nat, getNodeHeight abcForest 0 = some (H : Int) ∧ min 3 maxInt32 ≤ H := by
  have hcons : Consistent abcForest := consistent_addAll consistent_empty _
  have hac : Acyclic abcForest.Systems := acyclic_of_rank (fun x => x) (by decide)
  obtain ⟨⟨H, h1, h2, _, _⟩, _⟩ := height_covers_depth abcForest 3 0 3 ⟨3, 2, "C"⟩
    (by decide) hcons hac (by decide) (by decide) (by decide) (by decide)
  exact ⟨by decide, hcons, hac, by decide, by decide, by decide, by decide, H, h1, h2⟩

end DepthHeight

/-! ## Delete followed by re-add -/

section DeleteReadd

variable {D : Type}

theorem chainAt_congr_get {m₁ m₂ : GoMap (System D)} (h : ∀ k, m₁.get k = m₂.get k)
    (x : Nat) : ∀ i, chainAt m₁ x i = chainAt m₂ x i := by
  intro i
  induction i with
  | zero => rfl
  | succ i ih =>
    have hdef : ∀ m' : GoMap (System D), chainAt m' x (i + 1) =
        (match chainAt m' x i with
          | none => none
          | some y =>
            match m'.get y with
            | none => none
            | some n => some n.ParentSysID) := fun _ => rfl
    rw [hdef, hdef, ih]
    cases chainAt m₂ x i with
    | none => rfl
    | some y => simp only [h]

theorem deepWalk_congr {m₁ m₂ : GoMap (System D)} (h : ∀ k, m₁.get k = m₂.get k) :
    ∀ (fuel : Nat) (history : List Nat) (deep : Int) (parent : Option (System D)),
      deepWalk m₁ fuel history deep parent = deepWalk m₂ fuel history deep parent := by
  intro fuel
  induction fuel with
  | zero =>
    intro history deep parent
    cases parent <;> rfl
  | succ fuel ih =>
    intro history deep parent
    cases parent with
    | none => rfl
    | some p =>
      simp only [deepWalk, h]
      by_cases hm : p.SysID ∈ history
      · simp [hm]
      · simp only [hm, if_false]
        exact ih _ _ _

theorem childPath_congr {t₁ t₂ : GoMap (GoMap (System D))}
    (h : ∀ p c, get2 t₁ p c = get2 t₂ p c) (id : Nat) :
    ∀ j c, ChildPath t₁ id j c ↔ ChildPath t₂ id j c := by
  intro j
  induction j with
  | zero => intro c; exact Iff.rfl
  | succ j ih =>
    intro c
    simp only [ChildPath, h, ih]

theorem isHeight_congr {t₁ t₂ : GoMap (GoMap (System D))}
    (h : ∀ p c, get2 t₁ p c = get2 t₂ p c) (id hgt : Nat) :
    IsHeight t₁ id hgt ↔ IsHeight t₂ id hgt := by
  unfold IsHeight
  simp only [childPath_congr h]

/-- The forest after `DelSystem(n.SysID)` and `AddSystem` of the returned
node, written out: the delete returns the node, the add returns nil, and
the entry of the node is back in the flat map and in its bucket. -/
theorem delete_readd_state [GoPayload D] {st : Forest D} {n : System D}
    (hc : Consistent st) (hac : Acyclic st.Systems)
    (hn : st.Systems.get n.SysID = some n) :
    ∃ b, st.Tree.get n.ParentSysID = some b ∧ b.get n.SysID = some n ∧
      DelSystem st n.SysID =
        (some n, false,
          ⟨st.Systems.del n.SysID, st.Tree.set n.ParentSysID (b.del n.SysID)⟩) ∧
      AddSystem ⟨st.Systems.del n.SysID, st.Tree.set n.ParentSysID (b.del n.SysID)⟩ n =
        (.nil,
          ⟨(st.Systems.del n.SysID).set n.SysID n,
            (st.Tree.set n.ParentSysID (b.del n.SysID)).set n.ParentSysID
              ((b.del n.SysID).set n.SysID n)⟩) := by
  have hs : get2 st.Tree n.ParentSysID n.SysID = some n := (hc _ _ _).mpr ⟨hn, rfl⟩
  cases hb : st.Tree.get n.ParentSysID with
  | none =>
    rw [get2, hb] at hs
    cases hs
  | some b =>
    have hbn : b.get n.SysID = some n := by
      rw [← get2_of_get hb]; exact hs
    refine ⟨b, rfl, hbn, DelSystem_of_bucket hn hb, ?_⟩
    have hnone : (st.Systems.del n.SysID).get n.SysID = none := GoMap.get_del_self _ _
    have hac1 : ∀ x, ¬ Revisits (st.Systems.del n.SysID) x :=
      acyclic_all (acyclic_del hac _)
    have hext : ∀ k, ((st.Systems.del n.SysID).set n.SysID n).get k = st.Systems.get k := by
      intro k
      rw [GoMap.get_set]
      by_cases hk : k = n.SysID
      · rw [if_pos hk, hk, hn]
      · rw [if_neg hk, GoMap.get_del_ne _ _ hk]
    have hw : ¬ WalkMeets (st.Systems.del n.SysID) n.SysID n.ParentSysID := by
      intro hm
      have hr := revisits_of_walkMeets n hnone hm
      rw [revisits_congr (fun i => chainAt_congr_get hext n.SysID i)] at hr
      exact acyclic_all hac _ hr
    rcases AddSystem_paths
        (⟨st.Systems.del n.SysID, st.Tree.set n.ParentSysID (b.del n.SysID)⟩ : Forest D) n with
      ⟨old, h1, _⟩ | ⟨_, e⟩ | ⟨old, h1, _, _⟩
    · rw [hnone] at h1
      cases h1
    · rw [e]
      rcases addCommit_spec
          (⟨st.Systems.del n.SysID, st.Tree.set n.ParentSysID (b.del n.SysID)⟩ : Forest D) n
          hac1 with ⟨hm, _⟩ | ⟨_, _, hnil⟩
      · exact absurd hm hw
      · have h2 := (addCommit_nil hnil).2
        have hbk : bucketOf (st.Tree.set n.ParentSysID (b.del n.SysID)) n.ParentSysID =
            b.del n.SysID := by
          unfold bucketOf
          rw [GoMap.get_set_self]
          rfl
        dsimp only at h2
        rw [hbk] at h2
        exact Prod.ext hnil h2
    · rw [hnone] at h1
      cases h1

theorem consistent_of_same {st st' : Forest D} (hs : SameForest st st')
    (hc : Consistent st) : Consistent st' := by
  intro p c n
  rw [hs.2.2 p c, hs.1 c]
  exact hc p c n

theorem acyclic_of_same {st st' : Forest D} (hs : SameForest st st')
    (hac : Acyclic st.Systems) : Acyclic st'.Systems := by
  intro x n _ hr
  rw [revisits_congr (fun i => chainAt_congr_get hs.1 x i)] at hr
  exact acyclic_all hac x hr

/-- The queries read the content of the maps only: on two forests that hold
the same maps, with as many nodes and as many entries in each bucket, every
query gives the same answer (`GetChildSystems` the same map). -/
theorem queries_of_same {st st' : Forest D} (hs : SameForest st st') (hwf : WF st)
    (hwf' : WF st') (hc : Consistent st) (hac : Acyclic st.Systems)
    (hlen : st'.Systems.length = st.Systems.length)
    (hbl : ∀ x, (bucketOf st'.Tree x).length = (bucketOf st.Tree x).length) :
    (∀ x, GetSystem st' x = GetSystem st x) ∧
    getNodeNum st' = getNodeNum st ∧
    (∀ x, ∃ M M', GetChildSystems st x = some M ∧ GetChildSystems st' x = some M' ∧
      M'.length = M.length ∧ ∀ c, M'.get c = M.get c) ∧
    (∀ x, getNodeDeep st' x = getNodeDeep st x) ∧
    (∀ x, getNodeHeight st' x = getNodeHeight st x) := by
  have hc' := consistent_of_same hs hc
  have hac' := acyclic_of_same hs hac
  refine ⟨hs.1, ?_, ?_, ?_, ?_⟩
  · unfold getNodeNum
    rw [hlen]
  · intro x
    refine ⟨_, _, GetChildSystems_eq_bucket hwf (not_mem_own_bucket hc hac x),
      GetChildSystems_eq_bucket hwf' (not_mem_own_bucket hc' hac' x), hbl x, fun c => ?_⟩
    rw [get_bucketOf, get_bucketOf]
    exact hs.2.2 x c
  · intro x
    unfold getNodeDeep
    rw [hs.1 x, hs.2.1 x, hlen]
    cases st.Systems.get x with
    | none => rfl
    | some s =>
      simp only [hs.1]
      exact deepWalk_congr hs.1 _ _ _ _
  · intro x
    have hsome : ∀ o o' : Option (GoMap (System D)), o'.isSome = o.isSome →
        (o' = none ↔ o = none) := by
      intro o o' h
      cases o <;> cases o' <;> simp at h ⊢
    by_cases hknown : st.Systems.get x = none ∧ st.Tree.get x = none
    · have hknown' : st'.Systems.get x = none ∧ st'.Tree.get x = none :=
        ⟨by rw [hs.1]; exact hknown.1, (hsome _ _ (hs.2.1 x)).mpr hknown.2⟩
      rw [getNodeHeight_unknown hknown, getNodeHeight_unknown hknown']
    · have hknown' : ¬ (st'.Systems.get x = none ∧ st'.Tree.get x = none) := by
        rintro ⟨h1, h2⟩
        exact hknown ⟨by rw [← hs.1]; exact h1, (hsome _ _ (hs.2.1 x)).mp h2⟩
      obtain ⟨h, hh, e⟩ := getNodeHeight_exact hwf hc hac x hknown
      obtain ⟨h', hh', e'⟩ := getNodeHeight_exact hwf' hc' hac' x hknown'
      have : h' = h := isHeight_unique ((isHeight_congr hs.2.2 x h').mp hh') hh
      rw [e, e', this]

/-- C20. Delete followed by re-add is the identity: in a consistent acyclic
forest, for a stored node `n`, `DelSystem(n.SysID)` returns `(n, nil)`,
`AddSystem` of the returned node returns nil, and the resulting flat map and
adjacency map hold what they held before the delete (every lookup agrees,
bucket by bucket, and each map still has each key once); so `GetSystem`,
`GetChildSystems`, `getNodeDeep`, `getNodeHeight` and `getNodeNum` give their
original answers. -/
theorem delete_then_readd_is_identity [GoPayload D] (st : Forest D) (n : System D)
    (hwf : WF st) (hc : Consistent st) (hac : Acyclic st.Systems)
    (hn : st.Systems.get n.SysID = some n) :
    (DelSystem st n.SysID).1 = some n ∧ (DelSystem st n.SysID).2.1 = false ∧
    (AddSystem (DelSystem st n.SysID).2.2 n).1 = .nil ∧
    SameForest st (AddSystem (DelSystem st n.SysID).2.2 n).2 ∧
    WF (AddSystem (DelSystem st n.SysID).2.2 n).2 ∧
    (∀ x, GetSystem (AddSystem (DelSystem st n.SysID).2.2 n).2 x = GetSystem st x) ∧
    getNodeNum (AddSystem (DelSystem st n.SysID).2.2 n).2 = getNodeNum st ∧
    (∀ x, ∃ M M', GetChildSystems st x = some M ∧
      GetChildSystems (AddSystem (DelSystem st n.SysID).2.2 n).2 x = some M' ∧
      M'.length = M.length ∧ ∀ c, M'.get c = M.get c) ∧
    (∀ x, getNodeDeep (AddSystem (DelSystem st n.SysID).2.2 n).2 x = getNodeDeep st x) ∧
    (∀ x, getNodeHeight (AddSystem (DelSystem st n.SysID).2.2 n).2 x =
      getNodeHeight st x) := by
  have hwf' : WF (AddSystem (DelSystem st n.SysID).2.2 n).2 :=
    wf_AddSystem (wf_DelSystem hwf _) n
  obtain ⟨b, hb, hbn, hdel, hadd⟩ := delete_readd_state hc hac hn
  rw [hdel] at hwf' ⊢
  dsimp only at hwf' ⊢
  rw [hadd] at hwf' ⊢
  dsimp only at hwf' ⊢
  have hbnd : b.NodupKeys := wf_bucket hwf hb
  have hsame : SameForest st
      ⟨(st.Systems.del n.SysID).set n.SysID n,
        (st.Tree.set n.ParentSysID (b.del n.SysID)).set n.ParentSysID
          ((b.del n.SysID).set n.SysID n)⟩ := by
    refine ⟨?_, ?_, ?_⟩
    · intro k
      dsimp only
      rw [GoMap.get_set]
      by_cases hk : k = n.SysID
      · rw [if_pos hk, hk, hn]
      · rw [if_neg hk, GoMap.get_del_ne _ _ hk]
    · intro p
      dsimp only
      rw [GoMap.get_set, GoMap.get_set]
      by_cases hp : p = n.ParentSysID
      · simp [hp, hb]
      · simp [hp]
    · intro p c
      dsimp only
      rw [get2_set, get2_set, GoMap.get_set, GoMap.get_del]
      by_cases hp : p = n.ParentSysID
      · rw [if_pos hp, hp, get2_of_get hb]
        by_cases hcid : c = n.SysID
        · rw [if_pos hcid, hcid, hbn]
        · rw [if_neg hcid, if_neg hcid]
      · rw [if_neg hp, if_neg hp]
  have hlen : ((st.Systems.del n.SysID).set n.SysID n).length = st.Systems.length := by
    rw [GoMap.length_set_of_get_none n (GoMap.get_del_self _ _)]
    exact GoMap.length_del_of_get hwf.1 hn
  have hbl : ∀ x, (bucketOf ((st.Tree.set n.ParentSysID (b.del n.SysID)).set n.ParentSysID
      ((b.del n.SysID).set n.SysID n)) x).length = (bucketOf st.Tree x).length := by
    intro x
    unfold bucketOf
    rw [GoMap.get_set]
    by_cases hx : x = n.ParentSysID
    · rw [if_pos hx, hx, hb]
      simp only [Option.getD_some]
      rw [GoMap.length_set_of_get_none n (GoMap.get_del_self _ _)]
      exact GoMap.length_del_of_get hbnd hbn
    · rw [if_neg hx, GoMap.get_set_ne _ _ _ hx]
  obtain ⟨q1, q2, q3, q4, q5⟩ := queries_of_same hsame hwf hwf' hc hac hlen hbl
  exact ⟨rfl, rfl, rfl, hsame, hwf', q1, q2, q3, q4, q5⟩

/-- Witness of C20 on the forest of the test: node 22, which has a parent
and two children, is deleted and added again. -/
theorem delete_then_readd_is_identity_witness :
    WF testForest ∧ Consistent testForest ∧ Acyclic testForest.Systems ∧
    (DelSystem testForest 22).1 = some ⟨22, 11, "aaa"⟩ ∧
    (AddSystem (DelSystem testForest 22).2.2 ⟨22, 11, "aaa"⟩).1 = .nil ∧
    SameForest testForest (AddSystem (DelSystem testForest 22).2.2 ⟨22, 11, "aaa"⟩).2 ∧
    getNodeHeight (AddSystem (DelSystem testForest 22).2.2 ⟨22, 11, "aaa"⟩).2 0 =
      getNodeHeight testForest 0 := by
  have hcons : Consistent testForest := consistent_addAll consistent_empty _
  have hac : Acyclic testForest.Systems := acyclic_of_rank testRank (by decide)
  obtain ⟨h1, _, h3, h4, _, _, _, _, _, h10⟩ :=
    delete_then_readd_is_identity testForest ⟨22, 11, "aaa"⟩ (by decide) hcons hac (by decide)
  exact ⟨by decide, hcons, hac, h1, h3, h4, h10 0⟩

end DeleteReadd

end SystemTree
